import Mathlib

/-!
# NFA to DFA engine (`src/js/Engine.js`): shallow embedding

JavaScript strings are modelled by `String` (well-formed Unicode text); the
operations the engine applies to them (`trim`, `startsWith`, `endsWith`,
`substring`, `split`, `replace`, `includes`, the default `sort` order) are
written out over the character list.  Arrays are lists.  A recursive call
that may not return is given a fuel argument: `Except.error Fault.diverges`
means the fuel ran out, `Except.error (Fault.thrown msg)` means the code
executed `throw new Error(msg)`.
-/

namespace Engine

/-! ## Values and results -/

/-- Ways in which a call does not produce a value. -/
inductive Fault where
  | thrown (msg : String)
  | diverges
deriving DecidableEq, Repr

deriving instance DecidableEq for Except

/-- The class `Transition`: `state`, `nextStates`, `symbol`. -/
structure Transition where
  state : String
  nextStates : List String
  symbol : String
deriving DecidableEq, Repr

/-- The class `NFA`: the five fields assigned by its constructor. -/
structure NFA where
  initialState : String
  finalStates : List String
  states : List String
  alphabet : List String
  transitions : List Transition
deriving DecidableEq, Repr

/-! ## String primitives -/

/-- White space and line terminators removed by `String.prototype.trim`. -/
def isJSWhiteSpace (c : Char) : Bool :=
  c.toNat == 0x09 || c.toNat == 0x0A || c.toNat == 0x0B || c.toNat == 0x0C ||
  c.toNat == 0x0D || c.toNat == 0x20 || c.toNat == 0xA0 || c.toNat == 0x1680 ||
  (0x2000 ≤ c.toNat && c.toNat ≤ 0x200A) || c.toNat == 0x2028 || c.toNat == 0x2029 ||
  c.toNat == 0x202F || c.toNat == 0x205F || c.toNat == 0x3000 || c.toNat == 0xFEFF

/-- The method `trim()`. -/
def jsTrim (s : String) : String :=
  ⟨((s.data.dropWhile isJSWhiteSpace).reverse.dropWhile isJSWhiteSpace).reverse⟩

/-- The test `t.symbol === "" || t.symbol === "λ"` of `lambdaClosureNFA`. -/
def isLambdaSymbol (symbol : String) : Bool :=
  decide (symbol = "") || decide (symbol = "λ")

/-- The test `t.symbol.trim() === "" || t.symbol.trim() === "λ"` of
`fetch_E_Closure`. -/
def isTrimmedLambdaSymbol (symbol : String) : Bool :=
  decide (jsTrim symbol = "") || decide (jsTrim symbol = "λ")

/-! ## `fetch_E_Closure` -/

/-- The loop `for (...) if (!e_closure.includes(x)) e_closure.push(x)` over `xs`. -/
def pushMissing (e_closure : List String) : List String → List String
  | [] => e_closure
  | x :: xs =>
    if x ∈ e_closure then pushMissing e_closure xs
    else pushMissing (e_closure ++ [x]) xs

/-- The loop over `t.nextStates` inside `fetch_E_Closure`; `recur` is the
recursive call `fetch_E_Closure(t.nextStates[j], transitions)`. -/
def closureNextStates (recur : String → Except Fault (List String)) :
    List String → List String → Except Fault (List String)
  | [], e_closure => .ok e_closure
  | x :: xs, e_closure =>
    if x ∈ e_closure then closureNextStates recur xs e_closure
    else
      match recur x with
      | .error f => .error f
      | .ok sub_e_closure =>
        closureNextStates recur xs (pushMissing (e_closure ++ [x]) sub_e_closure)

/-- The loop over `transitions` inside `fetch_E_Closure`. -/
def closureTransitions (recur : String → Except Fault (List String)) (state : String) :
    List Transition → List String → Except Fault (List String)
  | [], e_closure => .ok e_closure
  | t :: ts, e_closure =>
    if isTrimmedLambdaSymbol t.symbol = true ∧ state = t.state then
      match closureNextStates recur t.nextStates e_closure with
      | .error f => .error f
      | .ok e => closureTransitions recur state ts e
    else closureTransitions recur state ts e_closure

/-- The function `fetch_E_Closure(state, transitions)`; `fuel` bounds the depth
of the recursion. -/
def fetch_E_Closure : Nat → String → List Transition → Except Fault (List String)
  | 0, _, _ => .error .diverges
  | fuel + 1, state, transitions =>
    closureTransitions (fun x => fetch_E_Closure fuel x transitions) state transitions [state]

/-! ## `findNextStates`, composite labels -/

/-- The loop of `findNextStates` over `transitions`, with `next_states` so far. -/
def findNextStatesFrom (state symbol : String) :
    List Transition → List String → List String
  | [], next_states => next_states
  | t :: ts, next_states =>
    if t.state = state ∧ t.symbol = symbol then
      findNextStatesFrom state symbol ts (pushMissing next_states t.nextStates)
    else findNextStatesFrom state symbol ts next_states

/-- The function `findNextStates(state, symbol, transitions)`. -/
def findNextStates (state symbol : String) (transitions : List Transition) : List String :=
  findNextStatesFrom state symbol transitions []

/-- The function `isMultiState`: `state.startsWith("\x7b") && state.endsWith("\x7d")`. -/
def isMultiState (state : String) : Bool :=
  decide (state.data.head? = some '\x7b') && decide (state.data.getLast? = some '\x7d')

/-- The call `state.substring(1, state.length - 1)` on a string of length at
least two (every string for which `isMultiState` holds). -/
def innerText (state : String) : List Char :=
  (state.data.drop 1).dropLast

/-- The call `split(",")` on a character list. -/
def splitComma : List Char → List (List Char)
  | [] => [[]]
  | c :: cs =>
    if c = ',' then [] :: splitComma cs
    else
      match splitComma cs with
      | [] => [[c]]
      | piece :: pieces => (c :: piece) :: pieces

/-- The array `state.substring(1, state.length - 1).split(",")`. -/
def stateMembers (state : String) : List String :=
  (splitComma (innerText state)).map String.mk

/-- What `separateStates` returns: an array of member names for a composite
label, the string itself otherwise. -/
inductive Separated where
  | members (names : List String)
  | name (state : String)
deriving DecidableEq, Repr

/-- The function `separateStates(state)`. -/
def separateStates (state : String) : Separated :=
  if isMultiState state = true then .members (stateMembers state) else .name state

/-- Whether `pattern` is an initial segment of the text. -/
def startsWithChars : List Char → List Char → Bool
  | [], _ => true
  | _ :: _, [] => false
  | p :: ps, c :: cs => decide (p = c) && startsWithChars ps cs

/-- The method `String.prototype.includes`: `pattern` occurs somewhere in the text. -/
def includesChars (pattern : List Char) : List Char → Bool
  | [] => startsWithChars pattern []
  | c :: cs => startsWithChars pattern (c :: cs) || includesChars pattern cs

/-- The method call `x.includes(y)` on the value returned by `separateStates`:
`Array.prototype.includes` on an array, `String.prototype.includes` on a string. -/
def Separated.includes (x : Separated) (y : String) : Bool :=
  match x with
  | .members names => decide (y ∈ names)
  | .name state => includesChars y.data state.data

/-- UTF-16 code units of one character. -/
def utf16Units (c : Char) : List Nat :=
  if c.toNat < 0x10000 then [c.toNat]
  else [0xD800 + (c.toNat - 0x10000) / 0x400, 0xDC00 + (c.toNat - 0x10000) % 0x400]

/-- UTF-16 code units of a string. -/
def utf16 (s : String) : List Nat :=
  (s.data.map utf16Units).flatten

/-- Lexicographic comparison of code-unit sequences, `a ≤ b`. -/
def codeUnitsLe : List Nat → List Nat → Bool
  | [], _ => true
  | _ :: _, [] => false
  | a :: as, b :: bs => decide (a < b) || (decide (a = b) && codeUnitsLe as bs)

/-- The order used by `Array.prototype.sort()` without a comparator. -/
def jsStringLe (a b : String) : Prop :=
  codeUnitsLe (utf16 a) (utf16 b) = true

instance jsStringLeDecidable : DecidableRel jsStringLe :=
  fun a b => inferInstanceAs (Decidable (codeUnitsLe (utf16 a) (utf16 b) = true))

/-- The call `states.sort()` on an array of strings. -/
def jsSort (states : List String) : List String :=
  states.insertionSort jsStringLe

/-- The call `replace(/,+$/, "")`: drops the commas at the end. -/
def stripTrailingCommas (s : String) : String :=
  ⟨(s.data.reverse.dropWhile (fun c => decide (c = ','))).reverse⟩

/-- The loop `for (...) state += states[i] + ","` starting from `state`. -/
def appendWithCommas (state : String) : List String → String
  | [] => state
  | x :: xs => appendWithCommas (state ++ (x ++ ",")) xs

/-- The function `combineStates(states)`; `none` is `null`. -/
def combineStates (states : List String) : Option String :=
  if states.length = 0 then none
  else
    match jsSort states with
    | [single] => some single
    | sorted =>
      some (stripTrailingCommas (jsTrim (appendWithCommas "\x7b" sorted)) ++ "\x7d")

/-- The method `formatDotState(state_str)` of the class `NFA`, applied to a
string; the method does not read any field of the object. -/
def NFA.formatDotState (_nfa : NFA) (state_str : String) : String :=
  if isMultiState state_str = true then
    ⟨(innerText state_str).filter (fun c => !decide (c = ','))⟩
  else state_str

/-- The function `arraysEqual(a, b)` on two arrays. -/
def arraysEqual : List String → List String → Bool
  | [], [] => true
  | [], _ :: _ => false
  | _ :: _, [] => false
  | a :: as, b :: bs => decide (a = b) && arraysEqual as bs

/-! ## Constructors -/

/-- The constructor `new Transition(state, nextStates, symbol)` called with a
string for `nextStates`: the string is wrapped into a one-element array. -/
def Transition.ofName (state nextState symbol : String) : Transition :=
  ⟨state, [nextState], symbol⟩

/-- The constructor `new NFA(initialState, finalStates, states, alphabet,
transitions)` called with arrays. -/
def newNFA (initialState : String) (finalStates states alphabet : List String)
    (transitions : List Transition) : Except Fault NFA :=
  if "INITIAL_STATE" ∈ states then .error (.thrown "State name INITIAL_STATE is reserved")
  else if "FINAL_STATE" ∈ states then .error (.thrown "State name FINAL_STATE is reserved")
  else .ok ⟨initialState, finalStates, states, alphabet, transitions⟩

/-! ## `lambdaClosureNFA` -/

/-- The loop over `next_states` in `lambdaClosureNFA`: the closure of every
destination is merged into `symbol_next_states`. -/
def closeNextStates (fuel : Nat) (transitions : List Transition) :
    List String → List String → Except Fault (List String)
  | [], symbol_next_states => .ok symbol_next_states
  | q :: qs, symbol_next_states =>
    match fetch_E_Closure fuel q transitions with
    | .error f => .error f
    | .ok closure =>
      closeNextStates fuel transitions qs (pushMissing symbol_next_states closure)

/-- The loop over `state_closure` in `lambdaClosureNFA` for one symbol. -/
def symbolNextStates (fuel : Nat) (transitions : List Transition) (symbol : String) :
    List String → List String → Except Fault (List String)
  | [], symbol_next_states => .ok symbol_next_states
  | p :: ps, symbol_next_states =>
    match closeNextStates fuel transitions (findNextStates p symbol transitions)
        symbol_next_states with
    | .error f => .error f
    | .ok acc => symbolNextStates fuel transitions symbol ps acc

/-- The loop over `nfa.alphabet` in `lambdaClosureNFA` for one state. -/
def closedTransitionsOfState (fuel : Nat) (transitions : List Transition)
    (state : String) (state_closure : List String) :
    List String → List Transition → Except Fault (List Transition)
  | [], nfa_closed_transitions => .ok nfa_closed_transitions
  | symbol :: rest, nfa_closed_transitions =>
    match symbolNextStates fuel transitions symbol state_closure [] with
    | .error f => .error f
    | .ok symbol_next_states =>
      closedTransitionsOfState fuel transitions state state_closure rest
        (nfa_closed_transitions ++ [⟨state, jsSort symbol_next_states, symbol⟩])

/-- The loop over `nfa.states` in `lambdaClosureNFA`. -/
def closedTransitions (fuel : Nat) (nfa : NFA) :
    List String → List Transition → Except Fault (List Transition)
  | [], nfa_closed_transitions => .ok nfa_closed_transitions
  | state :: rest, nfa_closed_transitions =>
    match fetch_E_Closure fuel state nfa.transitions with
    | .error f => .error f
    | .ok state_closure =>
      match closedTransitionsOfState fuel nfa.transitions state state_closure
          nfa.alphabet nfa_closed_transitions with
      | .error f => .error f
      | .ok acc => closedTransitions fuel nfa rest acc

/-- The flag `hasLambda` of `lambdaClosureNFA`. -/
def hasLambda (nfa : NFA) : Bool :=
  nfa.transitions.any (fun t => isLambdaSymbol t.symbol)

/-- The function `lambdaClosureNFA(nfa)`; `fuel` is handed to `fetch_E_Closure`. -/
def lambdaClosureNFA (fuel : Nat) (nfa : NFA) : Except Fault NFA :=
  if hasLambda nfa = false then .ok nfa
  else
    match closedTransitions fuel nfa nfa.states [] with
    | .error f => .error f
    | .ok nfa_closed_transitions =>
      match fetch_E_Closure fuel nfa.initialState nfa.transitions with
      | .error f => .error f
      | .ok initial_state_closure =>
        newNFA nfa.initialState
          (if nfa.finalStates.any (fun final_state => decide (final_state ∈ initial_state_closure))
              = true
            then nfa.finalStates ++ [nfa.initialState] else nfa.finalStates)
          nfa.states nfa.alphabet nfa_closed_transitions

/-! ## `generateDFA` -/

/-- The variables `stack`, `dfa_states`, `dfa_transitions` of `generateDFA`.
The head of `stack` is the top: `push` is cons, `pop` takes the head. -/
structure Build where
  stack : List String
  dfa_states : List String
  dfa_transitions : List Transition
deriving DecidableEq, Repr

/-- The loop over `states` computing `next_states_union` for one symbol. -/
def unionNextStates (symbol : String) (transitions : List Transition) :
    List String → List String → List String
  | [], next_states_union => next_states_union
  | s :: ss, next_states_union =>
    unionNextStates symbol transitions ss
      (pushMissing next_states_union (findNextStates s symbol transitions))

/-- The transitions `new Transition("DEAD", ["DEAD"], nfa.alphabet[n])` for all `n`. -/
def deadTransitions (alphabet : List String) : List Transition :=
  alphabet.map (fun symbol => ⟨"DEAD", ["DEAD"], symbol⟩)

/-- The loop over `nfa.alphabet` in `generateDFA` for the popped `state`, whose
members are `states`; the first list is the part of the alphabet still to do. -/
def processSymbols (nfa : NFA) (state : String) (states : List String) :
    List String → Build → Build
  | [], b => b
  | symbol :: rest, b =>
    match combineStates (unionNextStates symbol nfa.transitions states []) with
    | some combinedStatesUnion =>
      if combinedStatesUnion ∈ b.dfa_states then
        processSymbols nfa state states rest
          { b with dfa_transitions :=
              b.dfa_transitions ++ [Transition.ofName state combinedStatesUnion symbol] }
      else
        processSymbols nfa state states rest
          { stack := combinedStatesUnion :: b.stack
            dfa_states := b.dfa_states ++ [combinedStatesUnion]
            dfa_transitions :=
              b.dfa_transitions ++ [Transition.ofName state combinedStatesUnion symbol] }
    | none =>
      if "DEAD" ∈ b.dfa_states then
        processSymbols nfa state states rest
          { b with dfa_transitions := b.dfa_transitions ++ [⟨state, ["DEAD"], symbol⟩] }
      else
        processSymbols nfa state states rest
          { stack := b.stack
            dfa_states := b.dfa_states ++ ["DEAD"]
            dfa_transitions :=
              (b.dfa_transitions ++ deadTransitions nfa.alphabet) ++ [⟨state, ["DEAD"], symbol⟩] }

/-- What the `while` loop of `generateDFA` leaves behind. -/
structure LoopResult where
  build : Build
  step_counter : Nat
  step_interrupt : Bool
deriving DecidableEq, Repr

/-- The loop `while (stack.length > 0)` of `generateDFA`; `fuel` bounds the
number of iterations, `step_counter_stop` is the budget (`-1` when absent). -/
def subsetLoop (nfa : NFA) (step_counter_stop : Int) :
    Nat → Build → Nat → Except Fault LoopResult
  | 0, _, _ => .error .diverges
  | fuel + 1, b, step_counter =>
    match b.stack with
    | [] => .ok ⟨b, step_counter, false⟩
    | state :: stack =>
      if ((step_counter + 1 : Nat) : Int) = step_counter_stop then
        .ok ⟨{ b with stack := stack }, step_counter + 1, true⟩
      else
        subsetLoop nfa step_counter_stop fuel
          (processSymbols nfa state
            (if isMultiState state = true then stateMembers state else [state])
            nfa.alphabet { b with stack := stack })
          (step_counter + 1)

/-- The loop over `dfa_states` filling `dfa_final_states`. -/
def dfaFinalStates (nfa : NFA) : List String → List String → List String
  | [], dfa_final_states => dfa_final_states
  | s :: rest, dfa_final_states =>
    if nfa.finalStates.any (fun final_state => (separateStates s).includes final_state) = true
    then dfaFinalStates nfa rest (dfa_final_states ++ [nfa.formatDotState s])
    else dfaFinalStates nfa rest dfa_final_states

/-- The value returned by `generateDFA` together with its local variables
`step_counter` and `step_interrupt` at the return. -/
structure Generated where
  dfa : NFA
  step_counter : Nat
  step_interrupt : Bool
deriving DecidableEq, Repr

/-- The function `generateDFA(nfa, step_counter_stop)`; `fuel` bounds both the
closure recursion and the number of iterations of the `while` loop.  A call
without a budget is a call with `step_counter_stop = -1`, the default value. -/
def generateDFA (fuel : Nat) (nfa : NFA) (step_counter_stop : Int) :
    Except Fault Generated :=
  match lambdaClosureNFA fuel nfa with
  | .error f => .error f
  | .ok nfa =>
    match subsetLoop nfa step_counter_stop fuel
        ⟨[nfa.initialState], [nfa.initialState], []⟩ 0 with
    | .error f => .error f
    | .ok r =>
      match newNFA nfa.initialState (dfaFinalStates nfa r.build.dfa_states [])
          r.build.dfa_states nfa.alphabet r.build.dfa_transitions with
      | .error f => .error f
      | .ok dfa => .ok ⟨dfa, r.step_counter, r.step_interrupt⟩

/-! ## `minimizeDFA` -/

/-- The flag `statesEqual` after the loop over `dfa.alphabet`. -/
def statesEqual (dfa : NFA) (state state2 : String) : Bool :=
  dfa.alphabet.all (fun symbol =>
    arraysEqual (findNextStates state symbol dfa.transitions)
      (findNextStates state2 symbol dfa.transitions))

/-- The callback of `dfa.transitions.filter`: the assignment
`t.nextStates[0] = replace` when `t.nextStates[0] === remove`. -/
def redirect (remove replace : String) (t : Transition) : Transition :=
  match t.nextStates with
  | [] => t
  | first :: others =>
    if first = remove then { t with nextStates := replace :: others } else t

/-- The three `filter` calls of `minimizeDFA` for a given `remove` and `replace`. -/
def removeState (dfa : NFA) (remove replace : String) : NFA :=
  { dfa with
    states := dfa.states.filter (fun s => decide (dfa.formatDotState s ≠ dfa.formatDotState remove))
    transitions :=
      (dfa.transitions.filter (fun t => decide (t.state ≠ remove))).map (redirect remove replace)
    finalStates :=
      dfa.finalStates.filter (fun s => decide (dfa.formatDotState s ≠ dfa.formatDotState remove)) }

/-- The body of the inner loop of `minimizeDFA` for the pair `state`, `state2`. -/
def mergePair (dfa : NFA) (state state2 : String) : NFA :=
  if state ≠ state2 ∧
      decide (dfa.formatDotState state ∈ dfa.finalStates) =
        decide (dfa.formatDotState state2 ∈ dfa.finalStates) then
    if statesEqual dfa state state2 = true then
      if dfa.initialState = state then
        (if state2 = "DEAD" then dfa else removeState dfa state2 state)
      else
        (if state = "DEAD" then dfa else removeState dfa state state2)
    else dfa
  else dfa

/-- The loop `for (let state2 of dfa.states)`; the list is the array that
`dfa.states` named when the loop began. -/
def minimizeInner (state : String) : List String → NFA → NFA
  | [], dfa => dfa
  | state2 :: rest, dfa => minimizeInner state rest (mergePair dfa state state2)

/-- The loop `for (let state of dfa.states)`; the list is the array that
`dfa.states` named when `minimizeDFA` was called. -/
def minimizeOuter : List String → NFA → NFA
  | [], dfa => dfa
  | state :: rest, dfa => minimizeOuter rest (minimizeInner state dfa.states dfa)

/-- The function `minimizeDFA(dfa)`. -/
def minimizeDFA (dfa : NFA) : NFA :=
  minimizeOuter dfa.states dfa

/-! ## Reference notions the claims are measured against -/

/-- One epsilon move of the transition list: some transition whose symbol
passes the test `isEps` leads from `p` to `q`. -/
def EpsilonStep (isEps : String → Bool) (transitions : List Transition) (p q : String) : Prop :=
  ∃ t ∈ transitions, isEps t.symbol = true ∧ t.state = p ∧ q ∈ t.nextStates

/-- Reachability by zero or more epsilon moves. -/
def EpsilonReach (isEps : String → Bool) (transitions : List Transition) :
    String → String → Prop :=
  Relation.ReflTransGen (EpsilonStep isEps transitions)

/-- A ranking of the states that strictly decreases along every epsilon move
between two different states: the epsilon moves have no cycle through two or
more states. -/
def EpsilonRanked (transitions : List Transition) (rank : String → Nat) : Prop :=
  ∀ t ∈ transitions, isTrimmedLambdaSymbol t.symbol = true →
    ∀ q ∈ t.nextStates, q ≠ t.state → rank q < rank t.state

/-- A ranking of the states that strictly decreases along every epsilon move
between two different states that starts at a state reachable from `s`: the
epsilon moves that can be reached from `s` have no cycle through two or more
states. -/
def EpsilonRankedFrom (transitions : List Transition) (s : String) (rank : String → Nat) : Prop :=
  ∀ t ∈ transitions, isTrimmedLambdaSymbol t.symbol = true →
    EpsilonReach isTrimmedLambdaSymbol transitions s t.state →
    ∀ q ∈ t.nextStates, q ≠ t.state → rank q < rank t.state

/-- The textbook run relation of an NFA with epsilon moves: `Reads nfa p w q`
when `q` can be reached from `p` while reading the word `w`; an epsilon move
is a transition whose symbol is the empty string or the letter lambda. -/
inductive Reads (nfa : NFA) : String → List String → String → Prop where
  | done (q : String) : Reads nfa q [] q
  | lambda (t : Transition) (q : String) (w : List String) (r : String) :
      t ∈ nfa.transitions → isLambdaSymbol t.symbol = true → q ∈ t.nextStates →
      Reads nfa q w r → Reads nfa t.state w r
  | symbol (t : Transition) (q : String) (w : List String) (r : String) :
      t ∈ nfa.transitions → q ∈ t.nextStates →
      Reads nfa q w r → Reads nfa t.state (t.symbol :: w) r

/-- The NFA accepts `w`: some run from the initial state over `w` ends in a
member of the final-state list. -/
def Accepts (nfa : NFA) (w : List String) : Prop :=
  ∃ r, Reads nfa nfa.initialState w r ∧ r ∈ nfa.finalStates

/-- The state a deterministic automaton is in after reading `w` from `state`,
following `findNextStates`; `none` when a transition is missing. -/
def runFrom (dfa : NFA) : String → List String → Option String
  | state, [] => some state
  | state, symbol :: w =>
    match findNextStates state symbol dfa.transitions with
    | [] => none
    | next :: _ => runFrom dfa next w

/-- Finality as `generateDFA` records it and `minimizeDFA` looks it up:
`dfa.finalStates.includes(dfa.formatDotState(state))`. -/
def isFinalState (dfa : NFA) (state : String) : Bool :=
  decide (dfa.formatDotState state ∈ dfa.finalStates)

/-- The deterministic automaton accepts `w`. -/
def acceptsDFA (dfa : NFA) (w : List String) : Bool :=
  match runFrom dfa dfa.initialState w with
  | none => false
  | some state => isFinalState dfa state

/-- The deterministic automaton accepts `w` when it is started in `state`. -/
def acceptsFrom (dfa : NFA) (state : String) (w : List String) : Bool :=
  match runFrom dfa state w with
  | none => false
  | some last => isFinalState dfa last

/-- The invariants of the automaton model: the initial state is in the state
list, and so is every state mentioned in a transition. -/
def WellFormed (d : NFA) : Prop :=
  d.initialState ∈ d.states ∧
    ∀ t ∈ d.transitions, t.state ∈ d.states ∧ ∀ x ∈ t.nextStates, x ∈ d.states

/-- The DFA invariant: every state and symbol has at most one destination. -/
def Deterministic (transitions : List Transition) : Prop :=
  ∀ state symbol, (findNextStates state symbol transitions).length ≤ 1

/-! ## Concrete automata -/

/-- The NFA of the worked scenario: `q0 --a--> q0,q1` and `q1 --b--> q2`. -/
def scenarioNFA : NFA :=
  ⟨"q0", ["q2"], ["q0", "q1", "q2"], ["a", "b"],
    [⟨"q0", ["q0", "q1"], "a"⟩, ⟨"q1", ["q2"], "b"⟩]⟩

/-- The NFA of the epsilon scenario: `q0 --epsilon--> q1` and `q1 --a--> q2`. -/
def epsilonNFA : NFA :=
  ⟨"q0", ["q2"], ["q0", "q1", "q2"], ["a"], [⟨"q0", ["q1"], ""⟩, ⟨"q1", ["q2"], "a"⟩]⟩

/-- An NFA in which the name of the final state `q1` occurs inside the name
of the non-final state `q10`. -/
def substringNFA : NFA :=
  ⟨"q0", ["q1"], ["q0", "q1", "q10"], ["a"], [⟨"q0", ["q10"], "a"⟩]⟩

/-- Two epsilon transitions forming a cycle through `q0` and `q1`. -/
def cycleTransitions : List Transition :=
  [⟨"q0", ["q1"], ""⟩, ⟨"q1", ["q0"], ""⟩]

/-- A single transition whose symbol is one blank. -/
def blankTransitions : List Transition :=
  [⟨"q0", ["q1"], " "⟩]

/-- An NFA whose only transition carries a blank as its symbol. -/
def blankNFA : NFA :=
  ⟨"q0", ["q1"], ["q0", "q1"], ["a"], blankTransitions⟩

/-- A DFA with the simple state `ab` and the composite state `\x7ba,b\x7d`,
both final under the lookup key `ab`. -/
def collidingDFA : NFA :=
  ⟨"s", ["ab"], ["s", "ab", "\x7ba,b\x7d"], ["x", "y"],
    [⟨"s", ["ab"], "x"⟩, ⟨"s", ["\x7ba,b\x7d"], "y"⟩]⟩

/-- An NFA with the epsilon cycle `q0 --> q1 --> q0` and the transition
`q1 --a--> q2`. -/
def cycleNFA : NFA :=
  ⟨"q0", ["q2"], ["q0", "q1", "q2"], ["a"],
    [⟨"q0", ["q1"], ""⟩, ⟨"q1", ["q0"], ""⟩, ⟨"q1", ["q2"], "a"⟩]⟩

/-- The rank used for `epsilonNFA`: `q0` above every other state. -/
def epsilonRank (state : String) : Nat :=
  if state = "q0" then 1 else 0

/-! ## Invariants and concrete values used by the proofs -/

/-- The property of a closure list `r` for the start state `s`: it holds `s`,
every member is reachable from `s`, and it is closed under epsilon moves. -/
def ClosedFrom (transitions : List Transition) (s : String) (r : List String) : Prop :=
  s ∈ r ∧ (∀ x ∈ r, EpsilonReach isTrimmedLambdaSymbol transitions s x) ∧
    ∀ x ∈ r, ∀ y, EpsilonStep isTrimmedLambdaSymbol transitions x y → y ∈ r

/-- The loop invariant of `fetch_E_Closure`: like `ClosedFrom`, with closure
under epsilon moves required of the members other than `s`. -/
def PartlyClosed (transitions : List Transition) (s : String) (e : List String) : Prop :=
  s ∈ e ∧ (∀ x ∈ e, EpsilonReach isTrimmedLambdaSymbol transitions s x) ∧
    ∀ x ∈ e, x ≠ s → ∀ y, EpsilonStep isTrimmedLambdaSymbol transitions x y → y ∈ e

/-- The destinations the epsilon elimination has to give the pair `state`,
`symbol`: `x` is in the closure of some direct `symbol`-destination `q` of some
member `p` of the closure of `state`. -/
def ClosedDestination (fuel : Nat) (transitions : List Transition) (state symbol x : String) :
    Prop :=
  ∃ cs p q cq, fetch_E_Closure fuel state transitions = .ok cs ∧ p ∈ cs ∧
    q ∈ findNextStates p symbol transitions ∧
    fetch_E_Closure fuel q transitions = .ok cq ∧ x ∈ cq

/-- A transition record of the epsilon-eliminated automaton is as it should
be: duplicate-free, with exactly the destinations of `ClosedDestination`. -/
def ClosedRecord (fuel : Nat) (transitions : List Transition) (t : Transition) : Prop :=
  t.nextStates.Nodup ∧ ∀ x, x ∈ t.nextStates ↔ ClosedDestination fuel transitions t.state t.symbol x

/-- Every destination named by some transition record. -/
def allDestinations (transitions : List Transition) : List String :=
  (transitions.map Transition.nextStates).flatten

/-- A finite list holding every label that `generateDFA` can put into
`dfa_states`: the initial state, `DEAD`, and `combineStates` of every
duplicate-free list of destinations. -/
def candidateLabels (nfa : NFA) : List String :=
  nfa.initialState :: "DEAD" ::
    (((allDestinations nfa.transitions).dedup.sublists.map List.permutations).flatten).filterMap
      combineStates

/-- The part of the loop state that bounds the number of iterations. -/
def LabelsBounded (nfa : NFA) (b : Build) : Prop :=
  b.dfa_states.Nodup ∧ ∀ x ∈ b.dfa_states, x ∈ candidateLabels nfa

/-- Every record has exactly one destination, and two records with the same
source and symbol have the same destination. -/
def SingleValued (transitions : List Transition) : Prop :=
  (∀ t ∈ transitions, ∃ d, t.nextStates = [d]) ∧
  ∀ t1 ∈ transitions, ∀ t2 ∈ transitions,
    t1.state = t2.state → t1.symbol = t2.symbol → t1.nextStates = t2.nextStates

/-- The destination label `generateDFA` gives the popped state on `symbol`. -/
def destinationLabel (nfa : NFA) (members : List String) (symbol : String) : String :=
  (combineStates (unionNextStates symbol nfa.transitions members [])).getD "DEAD"

/-- The invariant of the `while` loop of `generateDFA`. -/
def BuildInv (b : Build) : Prop :=
  SingleValued b.dfa_transitions ∧ b.stack.Nodup ∧ (∀ x ∈ b.stack, x ∈ b.dfa_states) ∧
  ∀ t ∈ b.dfa_transitions, t.state ∈ b.dfa_states ∧ t.state ∉ b.stack

/-- The invariant of the loop over the alphabet while `state` is processed. -/
def SymbolInv (nfa : NFA) (state : String) (members : List String) (b : Build) : Prop :=
  BuildInv b ∧ state ∈ b.dfa_states ∧ state ∉ b.stack ∧
  ∀ t ∈ b.dfa_transitions, t.state = state →
    t.nextStates = [destinationLabel nfa members t.symbol]

/-- The automaton `lambdaClosureNFA` returns for `epsilonNFA`. -/
def epsilonClosedNFA : NFA :=
  ⟨"q0", ["q2"], ["q0", "q1", "q2"], ["a"],
    [⟨"q0", ["q2"], "a"⟩, ⟨"q1", ["q2"], "a"⟩, ⟨"q2", [], "a"⟩]⟩

/-- The value `generateDFA` returns for `scenarioNFA` without a budget. -/
def scenarioGenerated : Generated :=
  ⟨⟨"q0", ["q2"], ["q0", "\x7bq0,q1\x7d", "DEAD", "q2"], ["a", "b"],
    [⟨"q0", ["\x7bq0,q1\x7d"], "a"⟩, ⟨"DEAD", ["DEAD"], "a"⟩, ⟨"DEAD", ["DEAD"], "b"⟩,
      ⟨"q0", ["DEAD"], "b"⟩, ⟨"\x7bq0,q1\x7d", ["\x7bq0,q1\x7d"], "a"⟩,
      ⟨"\x7bq0,q1\x7d", ["q2"], "b"⟩, ⟨"q2", ["DEAD"], "a"⟩, ⟨"q2", ["DEAD"], "b"⟩]⟩, 3, false⟩

/-! ## Further invariants and concrete values -/

/-- An NFA whose subset construction yields the composite state `\x7bq0,q1\x7d`
as a final state. -/
def finalPairNFA : NFA :=
  ⟨"q0", ["q1"], ["q0", "q1"], ["a"], [⟨"q0", ["q0", "q1"], "a"⟩]⟩

/-- The value `generateDFA` returns for `finalPairNFA` without a budget. -/
def finalPairGenerated : Generated :=
  ⟨⟨"q0", ["q0q1"], ["q0", "\x7bq0,q1\x7d"], ["a"],
    [⟨"q0", ["\x7bq0,q1\x7d"], "a"⟩, ⟨"\x7bq0,q1\x7d", ["\x7bq0,q1\x7d"], "a"⟩]⟩, 2, false⟩

/-- An NFA whose initial state `ab` has the lookup key of the composite state
built from `a` and `b`. -/
def loopKeyNFA : NFA :=
  ⟨"ab", [], ["ab", "a", "b"], ["x"], [⟨"ab", ["a", "b"], "x"⟩, ⟨"a", ["a", "b"], "x"⟩]⟩

/-- The automaton `generateDFA` returns for `loopKeyNFA`. -/
def loopKeyDFA : NFA :=
  ⟨"ab", [], ["ab", "\x7ba,b\x7d"], ["x"],
    [⟨"ab", ["\x7ba,b\x7d"], "x"⟩, ⟨"\x7ba,b\x7d", ["\x7ba,b\x7d"], "x"⟩]⟩

/-- An NFA whose states `D` and `EAD` combine into a composite state with the
lookup key `DEAD`. -/
def deadKeyNFA : NFA :=
  ⟨"s", [], ["s", "D", "EAD"], ["a"], [⟨"s", ["D", "EAD"], "a"⟩]⟩

/-- The automaton `generateDFA` returns for `deadKeyNFA`. -/
def deadKeyDFA : NFA :=
  ⟨"s", [], ["s", "\x7bD,EAD\x7d", "DEAD"], ["a"],
    [⟨"s", ["\x7bD,EAD\x7d"], "a"⟩, ⟨"DEAD", ["DEAD"], "a"⟩, ⟨"\x7bD,EAD\x7d", ["DEAD"], "a"⟩]⟩

/-- A DFA made of a non-final initial state and the sink `DEAD`. -/
def sinkDFA : NFA :=
  ⟨"q0", [], ["q0", "DEAD"], ["a"], [⟨"q0", ["DEAD"], "a"⟩, ⟨"DEAD", ["DEAD"], "a"⟩]⟩

/-- The member names joined by commas, as a character list. -/
def joinComma : List String → List Char
  | [] => []
  | [x] => x.data
  | x :: y :: rest => x.data ++ ',' :: joinComma (y :: rest)

/-- The two states are still alike in the present automaton, as long as both
are still in its state list. -/
def StillAlike (p q : String) (dfa : NFA) : Prop :=
  SingleValued dfa.transitions ∧
    (p ∈ dfa.states → q ∈ dfa.states →
      isFinalState dfa p = isFinalState dfa q ∧
      ∀ a ∈ dfa.alphabet,
        findNextStates p a dfa.transitions = findNextStates q a dfa.transitions)

/-- The lookup keys of the states are pairwise different, and none of them has
the form of a composite label. -/
def PlainKeys (d : NFA) : Prop :=
  (∀ s1 ∈ d.states, ∀ s2 ∈ d.states, d.formatDotState s1 = d.formatDotState s2 → s1 = s2) ∧
    ∀ s ∈ d.states, isMultiState (d.formatDotState s) = false

/-- What every merge of `minimizeDFA(d)` keeps true of the present automaton. -/
def MergeInv (d dfa : NFA) : Prop :=
  SingleValued dfa.transitions ∧
  dfa.initialState = d.initialState ∧
  (∀ x ∈ dfa.states, x ∈ d.states) ∧
  (d.initialState ∈ d.states → d.initialState ∈ dfa.states) ∧
  (∀ t ∈ dfa.transitions, ∀ x ∈ t.nextStates, x ∈ d.states → x ∈ dfa.states) ∧
  ∀ t ∈ d.transitions, t.state ∈ dfa.states →
    ∃ u ∈ dfa.transitions, u.state = t.state ∧ u.symbol = t.symbol

/-- A DFA with two states `p` and `q` that are alike. -/
def alikeDFA : NFA :=
  ⟨"s", ["f"], ["s", "p", "q", "f"], ["a"],
    [⟨"s", ["p"], "a"⟩, ⟨"p", ["f"], "a"⟩, ⟨"q", ["f"], "a"⟩, ⟨"f", ["q"], "a"⟩]⟩

/-- A DFA in which `p` and `DEAD` are alike, and so is the initial state `s`. -/
def sharedSinkDFA : NFA :=
  ⟨"s", ["x"], ["s", "x", "p", "DEAD"], ["a"],
    [⟨"s", ["DEAD"], "a"⟩, ⟨"x", ["p"], "a"⟩, ⟨"p", ["DEAD"], "a"⟩, ⟨"DEAD", ["DEAD"], "a"⟩]⟩

/-- The record `t` with every destination renamed by `rho`. -/
def renameRecord (rho : String → String) (t : Transition) : Transition :=
  ⟨t.state, t.nextStates.map rho, t.symbol⟩

/-- How the present automaton of `minimizeDFA(d)` arises from `d`: `rho` names,
for every state of `d`, the kept state it has been merged into; kept states
are their own image, the transitions are those of `d` with a kept source and
renamed destinations, and the image of a state accepts what the state
accepted in `d`. -/
def Renamed (d dfa : NFA) (rho : String → String) : Prop :=
  (∀ x ∈ dfa.states, rho x = x) ∧
  (∀ x ∈ d.states, rho x ∈ dfa.states) ∧
  dfa.transitions =
    (d.transitions.filter (fun t => decide (t.state ∈ dfa.states))).map (renameRecord rho) ∧
  ∀ x ∈ d.states, ∀ w : List String, (∀ a ∈ w, a ∈ d.alphabet) →
    acceptsFrom dfa (rho x) w = acceptsFrom d x w

/-- The two states have the same finality and, for every alphabet symbol, the
same destination list in the present automaton: the test `minimizeDFA` makes
before it merges them. -/
def Alike (dfa : NFA) (u v : String) : Prop :=
  isFinalState dfa u = isFinalState dfa v ∧
    ∀ a ∈ dfa.alphabet, findNextStates u a dfa.transitions = findNextStates v a dfa.transitions

/-- What one pass through the body of the inner loop of `minimizeDFA` for the
pair `x`, `y` does to the automaton and to the renaming: nothing, or it removes
one of the two, which is neither `DEAD` nor the initial state, in favour of
the other, which is in the state list and alike. -/
def MergeStep (dfa dfa2 : NFA) (x y : String) (rho rho2 : String → String) : Prop :=
  (dfa2 = dfa ∧ rho2 = rho) ∨
  ∃ remove replace, ((remove = x ∧ replace = y) ∨ (remove = y ∧ replace = x)) ∧
    remove ≠ "DEAD" ∧ remove ≠ dfa.initialState ∧ replace ≠ remove ∧
    replace ∈ dfa.states ∧ Alike dfa remove replace ∧
    dfa2 = removeState dfa remove replace ∧
    rho2 = fun z => if rho z = remove then replace else rho z

/-- The state `a` has been merged into `b`, as far as `b` is kept: its image is
`b`, or it is `DEAD` when `b` is the initial state, which is never merged
with `DEAD`.  Nothing is said when `b` is `DEAD` itself. -/
def Redirected (d dfa : NFA) (rho : String → String) (a b : String) : Prop :=
  b ≠ "DEAD" → b ∈ dfa.states → rho a = b ∨ (b = d.initialState ∧ rho a = "DEAD")

/-- The invariant of the outer loop of `minimizeDFA` for two states `a` and `b`
that were alike: `a` has been merged into `b`, or the images of the two are
alike and the turn of `b` is still to come. -/
def PairTrack (d dfa : NFA) (rho : String → String) (a b : String) (pending : List String) :
    Prop :=
  Redirected d dfa rho a b ∨ (Alike dfa (rho a) (rho b) ∧ b ∈ pending)

/-- The invariant of the inner loop of `minimizeDFA` in the turn of `x`, for
two states `a` and `b` that were alike; `pending` are the turns of the outer
loop still to come and `rest` is what the inner loop has still to visit. -/
def InnerTrack (d dfa : NFA) (rho : String → String) (a b x : String)
    (pending rest : List String) : Prop :=
  Redirected d dfa rho a b ∨ (x ≠ b ∧ Alike dfa (rho a) (rho b) ∧ b ∈ pending) ∨
    (x = b ∧ Alike dfa (rho a) b ∧ b ∈ dfa.states ∧ rho a ∈ rest ∧ rho a ≠ b)

/-- The transition records with the given source and symbol, in order. -/
def recordsFor (transitions : List Transition) (state symbol : String) : List Transition :=
  transitions.filter (fun t => decide (t.state = state ∧ t.symbol = symbol))

/-- The member states of a label, as the `while` loop of `generateDFA` takes
them: `separateStates(state)` for a composite label, `[state]` otherwise. -/
def membersOf (state : String) : List String :=
  if isMultiState state = true then stateMembers state else [state]

/-- The destination `generateDFA` gives to `state` on `symbol`: `DEAD` for
`DEAD` itself, otherwise the label computed from the member states. -/
def labelOf (nfa : NFA) (state symbol : String) : String :=
  if state = "DEAD" then "DEAD" else destinationLabel nfa (membersOf state) symbol

/-- No state is named `DEAD`: not in the state list, not the initial state,
not a destination of a transition. -/
def NoDeadState (nfa : NFA) : Prop :=
  "DEAD" ∉ nfa.states ∧ nfa.initialState ≠ "DEAD" ∧
    "DEAD" ∉ allDestinations nfa.transitions

/-- The expected transition record of `state` on `symbol`. -/
def expectedRecord (nfa : NFA) (state symbol : String) : Transition :=
  ⟨state, [labelOf nfa state symbol], symbol⟩

/-- The invariant of the `while` loop of `generateDFA` that counts records:
every state that is not waiting on the stack has its one record for every
symbol. -/
def CompleteInv (nfa : NFA) (b : Build) : Prop :=
  b.dfa_states.Nodup ∧ b.stack.Nodup ∧ (∀ x ∈ b.stack, x ∈ b.dfa_states) ∧
  "DEAD" ∉ b.stack ∧
  (∀ t ∈ b.dfa_transitions, t.state ∈ b.dfa_states ∧ t.state ∉ b.stack) ∧
  ∀ s ∈ b.dfa_states, s ∉ b.stack → ∀ a ∈ nfa.alphabet,
    recordsFor b.dfa_transitions s a = [expectedRecord nfa s a]

/-- The invariant of the loop over the alphabet while `state` is processed;
`rest` is the part of the alphabet still to do. -/
def PendingInv (nfa : NFA) (state : String) (rest : List String) (b : Build) : Prop :=
  b.dfa_states.Nodup ∧ b.stack.Nodup ∧ (∀ x ∈ b.stack, x ∈ b.dfa_states) ∧
  "DEAD" ∉ b.stack ∧
  (∀ t ∈ b.dfa_transitions, t.state ∈ b.dfa_states ∧ t.state ∉ b.stack) ∧
  (∀ s ∈ b.dfa_states, s ∉ b.stack → s ≠ state → ∀ a ∈ nfa.alphabet,
    recordsFor b.dfa_transitions s a = [expectedRecord nfa s a]) ∧
  state ∈ b.dfa_states ∧ state ∉ b.stack ∧
  (∀ a ∈ nfa.alphabet, a ∉ rest →
    recordsFor b.dfa_transitions state a = [expectedRecord nfa state a]) ∧
  ∀ a ∈ rest, recordsFor b.dfa_transitions state a = []

/-! # Theorems -/

/-! ## Lemmas on the list loops -/

theorem mem_pushMissing (xs e : List String) (x : String) :
    x ∈ pushMissing e xs ↔ x ∈ e ∨ x ∈ xs := by
  induction xs generalizing e with
  | nil => simp [pushMissing]
  | cons y ys ih =>
    unfold pushMissing
    split
    · rename_i hy
      rw [ih]
      constructor
      · rintro (h | h)
        · exact Or.inl h
        · exact Or.inr (List.mem_cons_of_mem _ h)
      · rintro (h | h)
        · exact Or.inl h
        · rcases List.mem_cons.mp h with rfl | h
          · exact Or.inl hy
          · exact Or.inr h
    · rw [ih]
      simp only [List.mem_append, List.mem_singleton, List.mem_cons]
      tauto

theorem nodup_pushMissing (xs e : List String) (h : e.Nodup) : (pushMissing e xs).Nodup := by
  induction xs generalizing e with
  | nil => simpa [pushMissing] using h
  | cons y ys ih =>
    unfold pushMissing
    split
    · exact ih e h
    · rename_i hy
      apply ih
      rw [List.nodup_append]
      refine ⟨h, List.nodup_singleton y, ?_⟩
      intro a ha hb
      rw [List.mem_singleton] at hb
      subst hb
      exact hy ha

theorem mem_jsSort (l : List String) (x : String) : x ∈ jsSort l ↔ x ∈ l :=
  (List.perm_insertionSort jsStringLe l).mem_iff

theorem nodup_jsSort (l : List String) : (jsSort l).Nodup ↔ l.Nodup :=
  (List.perm_insertionSort jsStringLe l).nodup_iff

theorem mem_findNextStatesFrom (state symbol : String) (ts : List Transition) :
    ∀ (acc : List String) (x : String), x ∈ findNextStatesFrom state symbol ts acc ↔
      x ∈ acc ∨ ∃ t ∈ ts, t.state = state ∧ t.symbol = symbol ∧ x ∈ t.nextStates := by
  induction ts with
  | nil => intro acc x; simp [findNextStatesFrom]
  | cons t ts ih =>
    intro acc x
    unfold findNextStatesFrom
    split
    · rename_i hc
      rw [ih, mem_pushMissing]
      constructor
      · rintro ((h | h) | ⟨u, hu, h⟩)
        · exact Or.inl h
        · exact Or.inr ⟨t, List.mem_cons_self _ _, hc.1, hc.2, h⟩
        · exact Or.inr ⟨u, List.mem_cons_of_mem _ hu, h⟩
      · rintro (h | ⟨u, hu, h1, h2, h3⟩)
        · exact Or.inl (Or.inl h)
        · rcases List.mem_cons.mp hu with rfl | hu
          · exact Or.inl (Or.inr h3)
          · exact Or.inr ⟨u, hu, h1, h2, h3⟩
    · rename_i hc
      rw [ih]
      constructor
      · rintro (h | ⟨u, hu, h⟩)
        · exact Or.inl h
        · exact Or.inr ⟨u, List.mem_cons_of_mem _ hu, h⟩
      · rintro (h | ⟨u, hu, h1, h2, h3⟩)
        · exact Or.inl h
        · rcases List.mem_cons.mp hu with rfl | hu
          · exact absurd ⟨h1, h2⟩ hc
          · exact Or.inr ⟨u, hu, h1, h2, h3⟩

theorem mem_findNextStates (state symbol : String) (ts : List Transition) (x : String) :
    x ∈ findNextStates state symbol ts ↔
      ∃ t ∈ ts, t.state = state ∧ t.symbol = symbol ∧ x ∈ t.nextStates := by
  unfold findNextStates
  rw [mem_findNextStatesFrom]
  simp

theorem findNextStatesFrom_mem (state symbol : String) (ts : List Transition) :
    ∀ (acc : List String) (x : String), x ∈ findNextStatesFrom state symbol ts acc →
      x ∈ acc ∨ x ∈ allDestinations ts := by
  induction ts with
  | nil => intro acc x h; exact Or.inl h
  | cons t ts ih =>
    intro acc x h
    unfold findNextStatesFrom at h
    have hcons : ∀ y, y ∈ allDestinations ts → y ∈ allDestinations (t :: ts) := by
      intro y hy
      simp only [allDestinations, List.map_cons, List.flatten_cons, List.mem_append] at hy ⊢
      exact Or.inr hy
    split at h
    · rcases ih _ x h with h | h
      · rcases (mem_pushMissing _ _ _).mp h with h | h
        · exact Or.inl h
        · right
          simp only [allDestinations, List.map_cons, List.flatten_cons, List.mem_append]
          exact Or.inl h
      · exact Or.inr (hcons x h)
    · rcases ih _ x h with h | h
      · exact Or.inl h
      · exact Or.inr (hcons x h)

theorem findNextStatesFrom_nodup (state symbol : String) (ts : List Transition) :
    ∀ (acc : List String), acc.Nodup → (findNextStatesFrom state symbol ts acc).Nodup := by
  induction ts with
  | nil => intro acc h; exact h
  | cons t ts ih =>
    intro acc h
    unfold findNextStatesFrom
    split
    · exact ih _ (nodup_pushMissing _ _ h)
    · exact ih _ h

theorem newNFA_ok (i : String) (f s a : List String) (t : List Transition) (m : NFA)
    (h : newNFA i f s a t = .ok m) :
    m = ⟨i, f, s, a, t⟩ ∧ "INITIAL_STATE" ∉ s ∧ "FINAL_STATE" ∉ s := by
  unfold newNFA at h
  split at h
  · exact absurd h (by simp)
  · split at h
    · exact absurd h (by simp)
    · rename_i h1 h2
      simp only [Except.ok.injEq] at h
      exact ⟨h.symm, h1, h2⟩

theorem newNFA_ne_diverges (i : String) (f s a : List String) (t : List Transition) :
    newNFA i f s a t ≠ .error .diverges := by
  unfold newNFA
  split
  · simp
  · split <;> simp

/-! ## `fetch_E_Closure`: what is computed -/

theorem closureNextStates_spec (T : List Transition) (s : String)
    (recur : String → Except Fault (List String))
    (hrec : ∀ x r, recur x = .ok r → ClosedFrom T x r)
    (xs : List String) :
    ∀ (e r : List String), (∀ x ∈ xs, EpsilonStep isTrimmedLambdaSymbol T s x) →
      PartlyClosed T s e → closureNextStates recur xs e = .ok r →
      PartlyClosed T s r ∧ (∀ x ∈ e, x ∈ r) ∧ ∀ x ∈ xs, x ∈ r := by
  induction xs with
  | nil =>
    intro e r _ he h
    simp only [closureNextStates, Except.ok.injEq] at h
    subst h
    exact ⟨he, fun x hx => hx, by simp⟩
  | cons x xs ih =>
    intro e r hxs he h
    have hxs' : ∀ y ∈ xs, EpsilonStep isTrimmedLambdaSymbol T s y :=
      fun y hy => hxs y (List.mem_cons_of_mem _ hy)
    unfold closureNextStates at h
    split at h
    · rename_i hx
      obtain ⟨h1, h2, h3⟩ := ih e r hxs' he h
      refine ⟨h1, h2, ?_⟩
      intro y hy
      rcases List.mem_cons.mp hy with rfl | hy
      · exact h2 _ hx
      · exact h3 _ hy
    · rename_i hx
      split at h
      · exact absurd h (by simp)
      · rename_i sub hsub
        obtain ⟨hxsub, hreach, hclosed⟩ := hrec x sub hsub
        have hsx : EpsilonStep isTrimmedLambdaSymbol T s x := hxs x (List.mem_cons_self _ _)
        have hmem : ∀ z, z ∈ pushMissing (e ++ [x]) sub ↔ z ∈ e ∨ z ∈ sub := by
          intro z
          rw [mem_pushMissing, List.mem_append, List.mem_singleton]
          constructor
          · rintro ((h | rfl) | h)
            · exact Or.inl h
            · exact Or.inr hxsub
            · exact Or.inr h
          · rintro (h | h)
            · exact Or.inl (Or.inl h)
            · exact Or.inr h
        have he' : PartlyClosed T s (pushMissing (e ++ [x]) sub) := by
          refine ⟨(hmem s).mpr (Or.inl he.1), ?_, ?_⟩
          · intro z hz
            rcases (hmem z).mp hz with hz | hz
            · exact he.2.1 z hz
            · exact Relation.ReflTransGen.head hsx (hreach z hz)
          · intro z hz hzs y hy
            rcases (hmem z).mp hz with hz | hz
            · exact (hmem y).mpr (Or.inl (he.2.2 z hz hzs y hy))
            · exact (hmem y).mpr (Or.inr (hclosed z hz y hy))
        obtain ⟨h1, h2, h3⟩ := ih _ r hxs' he' h
        refine ⟨h1, fun z hz => h2 z ((hmem z).mpr (Or.inl hz)), ?_⟩
        intro y hy
        rcases List.mem_cons.mp hy with rfl | hy
        · exact h2 _ ((hmem _).mpr (Or.inr hxsub))
        · exact h3 _ hy

theorem closureTransitions_spec (T : List Transition) (s : String)
    (recur : String → Except Fault (List String))
    (hrec : ∀ x r, recur x = .ok r → ClosedFrom T x r)
    (ts : List Transition) :
    ∀ (e r : List String), (∀ t ∈ ts, t ∈ T) →
      PartlyClosed T s e → closureTransitions recur s ts e = .ok r →
      PartlyClosed T s r ∧ (∀ x ∈ e, x ∈ r) ∧
        ∀ t ∈ ts, isTrimmedLambdaSymbol t.symbol = true → t.state = s →
          ∀ y ∈ t.nextStates, y ∈ r := by
  induction ts with
  | nil =>
    intro e r _ he h
    simp only [closureTransitions, Except.ok.injEq] at h
    subst h
    exact ⟨he, fun x hx => hx, by simp⟩
  | cons t ts ih =>
    intro e r hts he h
    have hts' : ∀ u ∈ ts, u ∈ T := fun u hu => hts u (List.mem_cons_of_mem _ hu)
    unfold closureTransitions at h
    split at h
    · rename_i hcond
      split at h
      · exact absurd h (by simp)
      · rename_i e1 he1
        have hsteps : ∀ x ∈ t.nextStates, EpsilonStep isTrimmedLambdaSymbol T s x :=
          fun x hx => ⟨t, hts t (List.mem_cons_self _ _), hcond.1, hcond.2.symm, hx⟩
        obtain ⟨a1, a2, a3⟩ := closureNextStates_spec T s recur hrec t.nextStates e e1 hsteps he he1
        obtain ⟨b1, b2, b3⟩ := ih e1 r hts' a1 h
        refine ⟨b1, fun x hx => b2 x (a2 x hx), ?_⟩
        intro u hu hu1 hu2 y hy
        rcases List.mem_cons.mp hu with rfl | hu
        · exact b2 y (a3 y hy)
        · exact b3 u hu hu1 hu2 y hy
    · rename_i hcond
      obtain ⟨b1, b2, b3⟩ := ih e r hts' he h
      refine ⟨b1, b2, ?_⟩
      intro u hu hu1 hu2 y hy
      rcases List.mem_cons.mp hu with rfl | hu
      · exact absurd ⟨hu1, hu2.symm⟩ hcond
      · exact b3 u hu hu1 hu2 y hy

/-- Partial correctness of `fetch_E_Closure`: a returned list holds the start
state, only reachable states, and is closed under epsilon moves. -/
theorem fetch_E_Closure_closedFrom (T : List Transition) :
    ∀ (fuel : Nat) (s : String) (r : List String),
      fetch_E_Closure fuel s T = .ok r → ClosedFrom T s r := by
  intro fuel
  induction fuel with
  | zero => intro s r h; simp [fetch_E_Closure] at h
  | succ fuel ih =>
    intro s r h
    unfold fetch_E_Closure at h
    have h0 : PartlyClosed T s [s] := by
      refine ⟨List.mem_singleton_self s, ?_, ?_⟩
      · intro x hx
        rw [List.mem_singleton] at hx
        subst hx
        exact Relation.ReflTransGen.refl
      · intro x hx hxs
        rw [List.mem_singleton] at hx
        exact absurd hx hxs
    obtain ⟨h1, _, h3⟩ := closureTransitions_spec T s _ (fun x r hx => ih x r hx) T [s] r
      (fun t ht => ht) h0 h
    refine ⟨h1.1, h1.2.1, ?_⟩
    intro x hx y hxy
    by_cases hxs : x = s
    · subst hxs
      obtain ⟨t, ht, hsym, hst, hy⟩ := hxy
      exact h3 t ht hsym hst y hy
    · exact h1.2.2 x hx hxs y hxy

theorem mem_of_closedFrom (T : List Transition) (s : String) (r : List String)
    (h : ClosedFrom T s r) (x : String) :
    x ∈ r ↔ EpsilonReach isTrimmedLambdaSymbol T s x := by
  constructor
  · exact h.2.1 x
  · intro hx
    induction hx with
    | refl => exact h.1
    | tail _ hstep ih => exact h.2.2 _ ih _ hstep

/-! ## `fetch_E_Closure`: when it returns -/

theorem closureNextStates_mono (recur1 recur2 : String → Except Fault (List String))
    (hmono : ∀ x r, recur1 x = .ok r → recur2 x = .ok r) (xs : List String) :
    ∀ (e r : List String), closureNextStates recur1 xs e = .ok r →
      closureNextStates recur2 xs e = .ok r := by
  induction xs with
  | nil => intro e r h; simpa [closureNextStates] using h
  | cons x xs ih =>
    intro e r h
    unfold closureNextStates at h ⊢
    split at h
    · rename_i hx
      rw [if_pos hx]
      exact ih e r h
    · rename_i hx
      rw [if_neg hx]
      split at h
      · exact absurd h (by simp)
      · rename_i sub hsub
        rw [hmono x sub hsub]
        exact ih _ r h

theorem closureTransitions_mono (recur1 recur2 : String → Except Fault (List String))
    (hmono : ∀ x r, recur1 x = .ok r → recur2 x = .ok r) (s : String) (ts : List Transition) :
    ∀ (e r : List String), closureTransitions recur1 s ts e = .ok r →
      closureTransitions recur2 s ts e = .ok r := by
  induction ts with
  | nil => intro e r h; simpa [closureTransitions] using h
  | cons t ts ih =>
    intro e r h
    unfold closureTransitions at h ⊢
    split at h
    · rename_i hc
      rw [if_pos hc]
      split at h
      · exact absurd h (by simp)
      · rename_i e1 he1
        rw [closureNextStates_mono recur1 recur2 hmono _ _ _ he1]
        exact ih e1 r h
    · rename_i hc
      rw [if_neg hc]
      exact ih e r h

/-- More fuel does not change a result of `fetch_E_Closure`. -/
theorem fetch_E_Closure_succ (T : List Transition) :
    ∀ (fuel : Nat) (s : String) (r : List String),
      fetch_E_Closure fuel s T = .ok r → fetch_E_Closure (fuel + 1) s T = .ok r := by
  intro fuel
  induction fuel with
  | zero => intro s r h; simp [fetch_E_Closure] at h
  | succ fuel ih =>
    intro s r h
    rw [fetch_E_Closure] at h ⊢
    exact closureTransitions_mono _ _ (fun x r hx => ih x r hx) s T [s] r h

theorem fetch_E_Closure_le (T : List Transition) (s : String) (r : List String)
    (fuel fuel2 : Nat) (hle : fuel ≤ fuel2) (h : fetch_E_Closure fuel s T = .ok r) :
    fetch_E_Closure fuel2 s T = .ok r := by
  induction hle with
  | refl => exact h
  | step _ ih => exact fetch_E_Closure_succ T _ s r ih

theorem closureNextStates_returns (T : List Transition) (s : String)
    (recur : String → Except Fault (List String))
    (hrec : ∀ x, x ≠ s → EpsilonStep isTrimmedLambdaSymbol T s x → ∃ r, recur x = .ok r)
    (xs : List String) :
    ∀ (e : List String), (∀ x ∈ xs, EpsilonStep isTrimmedLambdaSymbol T s x) → s ∈ e →
      ∃ r, closureNextStates recur xs e = .ok r ∧ s ∈ r := by
  induction xs with
  | nil => intro e _ hs; exact ⟨e, rfl, hs⟩
  | cons x xs ih =>
    intro e hxs hs
    have hxs' : ∀ y ∈ xs, EpsilonStep isTrimmedLambdaSymbol T s y :=
      fun y hy => hxs y (List.mem_cons_of_mem _ hy)
    unfold closureNextStates
    by_cases hx : x ∈ e
    · rw [if_pos hx]
      exact ih e hxs' hs
    · rw [if_neg hx]
      have hne : x ≠ s := fun hxs => hx (hxs ▸ hs)
      obtain ⟨sub, hsub⟩ := hrec x hne (hxs x (List.mem_cons_self _ _))
      rw [hsub]
      apply ih _ hxs'
      rw [mem_pushMissing]
      exact Or.inl (List.mem_append_left _ hs)

theorem closureTransitions_returns (T : List Transition) (s : String)
    (recur : String → Except Fault (List String))
    (hrec : ∀ x, x ≠ s → EpsilonStep isTrimmedLambdaSymbol T s x → ∃ r, recur x = .ok r)
    (ts : List Transition) :
    ∀ (e : List String), (∀ t ∈ ts, t ∈ T) → s ∈ e →
      ∃ r, closureTransitions recur s ts e = .ok r ∧ s ∈ r := by
  induction ts with
  | nil => intro e _ hs; exact ⟨e, rfl, hs⟩
  | cons t ts ih =>
    intro e hts hs
    have hts' : ∀ u ∈ ts, u ∈ T := fun u hu => hts u (List.mem_cons_of_mem _ hu)
    unfold closureTransitions
    by_cases hc : isTrimmedLambdaSymbol t.symbol = true ∧ s = t.state
    · rw [if_pos hc]
      have hsteps : ∀ x ∈ t.nextStates, EpsilonStep isTrimmedLambdaSymbol T s x :=
        fun x hx => ⟨t, hts t (List.mem_cons_self _ _), hc.1, hc.2.symm, hx⟩
      obtain ⟨e1, he1, hs1⟩ := closureNextStates_returns T s recur hrec t.nextStates e hsteps hs
      rw [he1]
      exact ih e1 hts' hs1
    · rw [if_neg hc]
      exact ih e hts' hs

/-- The recursion of `fetch_E_Closure` returns when the epsilon moves are ranked:
a depth above the rank of the start state is enough. -/
theorem fetch_E_Closure_returns (T : List Transition) (rank : String → Nat)
    (hrank : EpsilonRanked T rank) :
    ∀ (fuel : Nat) (s : String), rank s < fuel → ∃ r, fetch_E_Closure fuel s T = .ok r := by
  intro fuel
  induction fuel with
  | zero => intro s h; exact absurd h (Nat.not_lt_zero _)
  | succ fuel ih =>
    intro s hs
    unfold fetch_E_Closure
    have hrec : ∀ x, x ≠ s → EpsilonStep isTrimmedLambdaSymbol T s x →
        ∃ r, fetch_E_Closure fuel x T = .ok r := by
      intro x hne hstep
      obtain ⟨t, ht, hsym, hst, hx⟩ := hstep
      apply ih
      have := hrank t ht hsym x hx (by rw [hst]; exact hne)
      rw [hst] at this
      omega
    obtain ⟨r, hr, _⟩ := closureTransitions_returns T s _ hrec T [s] (fun t ht => ht)
      (List.mem_singleton_self s)
    exact ⟨r, hr⟩

theorem epsilonRankedFrom_of_ranked (T : List Transition) (rank : String → Nat)
    (h : EpsilonRanked T rank) (s : String) : EpsilonRankedFrom T s rank :=
  fun t ht hsym _ q hq hne => h t ht hsym q hq hne

/-- The recursion of `fetch_E_Closure` from a state reachable from `s` returns
when the epsilon moves reachable from `s` are ranked: a depth above the rank of
the state is enough. -/
theorem fetch_E_Closure_returns_from (T : List Transition) (s : String) (rank : String → Nat)
    (hrank : EpsilonRankedFrom T s rank) :
    ∀ (fuel : Nat) (x : String), EpsilonReach isTrimmedLambdaSymbol T s x → rank x < fuel →
      ∃ r, fetch_E_Closure fuel x T = .ok r := by
  intro fuel
  induction fuel with
  | zero => intro x _ h; exact absurd h (Nat.not_lt_zero _)
  | succ fuel ih =>
    intro x hreach hx
    unfold fetch_E_Closure
    have hrec : ∀ y, y ≠ x → EpsilonStep isTrimmedLambdaSymbol T x y →
        ∃ r, fetch_E_Closure fuel y T = .ok r := by
      intro y hne hstep
      have hreachy : EpsilonReach isTrimmedLambdaSymbol T s y :=
        Relation.ReflTransGen.tail hreach hstep
      obtain ⟨t, ht, hsym, hst, hy⟩ := hstep
      apply ih y hreachy
      have := hrank t ht hsym (by rw [hst]; exact hreach) y hy (by rw [hst]; exact hne)
      rw [hst] at this
      omega
    obtain ⟨r, hr, _⟩ := closureTransitions_returns T x _ hrec T [x] (fun t ht => ht)
      (List.mem_singleton_self x)
    exact ⟨r, hr⟩

theorem fetch_E_Closure_cycle (fuel : Nat) :
    fetch_E_Closure fuel "q0" cycleTransitions = .error .diverges ∧
      fetch_E_Closure fuel "q1" cycleTransitions = .error .diverges := by
  induction fuel with
  | zero => exact ⟨rfl, rfl⟩
  | succ fuel ih =>
    obtain ⟨h0, h1⟩ := ih
    constructor
    · simp [fetch_E_Closure, cycleTransitions, closureTransitions, closureNextStates,
        isTrimmedLambdaSymbol, jsTrim] at h1 ⊢
      simp [h1]
    · simp [fetch_E_Closure, cycleTransitions, closureTransitions, closureNextStates,
        isTrimmedLambdaSymbol, jsTrim] at h0 ⊢
      simp [h0]

theorem fetch_E_Closure_cycleNFA (fuel : Nat) :
    fetch_E_Closure fuel "q0" cycleNFA.transitions = .error .diverges ∧
      fetch_E_Closure fuel "q1" cycleNFA.transitions = .error .diverges := by
  induction fuel with
  | zero => exact ⟨rfl, rfl⟩
  | succ fuel ih =>
    obtain ⟨h0, h1⟩ := ih
    constructor
    · simp [fetch_E_Closure, cycleNFA, closureTransitions, closureNextStates,
        isTrimmedLambdaSymbol, jsTrim] at h1 ⊢
      simp [h1]
    · simp [fetch_E_Closure, cycleNFA, closureTransitions, closureNextStates,
        isTrimmedLambdaSymbol, jsTrim] at h0 ⊢
      simp [h0]

theorem epsilonRanked_epsilonNFA : EpsilonRanked epsilonNFA.transitions epsilonRank := by
  unfold EpsilonRanked
  decide

/-! ## `lambdaClosureNFA`: what is computed -/

theorem lambdaClosureNFA_of_hasLambda_false (fuel : Nat) (n : NFA) (h : hasLambda n = false) :
    lambdaClosureNFA fuel n = .ok n := by
  unfold lambdaClosureNFA
  rw [if_pos h]

theorem closeNextStates_spec (fuel : Nat) (T : List Transition) (qs : List String) :
    ∀ (acc r : List String), closeNextStates fuel T qs acc = .ok r →
      (acc.Nodup → r.Nodup) ∧
      ∀ x, x ∈ r ↔ x ∈ acc ∨ ∃ q ∈ qs, ∃ cq, fetch_E_Closure fuel q T = .ok cq ∧ x ∈ cq := by
  induction qs with
  | nil =>
    intro acc r h
    simp only [closeNextStates, Except.ok.injEq] at h
    subst h
    simp
  | cons q qs ih =>
    intro acc r h
    unfold closeNextStates at h
    split at h
    · exact absurd h (by simp)
    · rename_i closure hcl
      obtain ⟨h1, h2⟩ := ih _ r h
      refine ⟨fun hacc => h1 (nodup_pushMissing _ _ hacc), ?_⟩
      intro x
      rw [h2, mem_pushMissing]
      constructor
      · rintro ((hx | hx) | ⟨q', hq', cq, hcq, hx⟩)
        · exact Or.inl hx
        · exact Or.inr ⟨q, List.mem_cons_self _ _, closure, hcl, hx⟩
        · exact Or.inr ⟨q', List.mem_cons_of_mem _ hq', cq, hcq, hx⟩
      · rintro (hx | ⟨q', hq', cq, hcq, hx⟩)
        · exact Or.inl (Or.inl hx)
        · rcases List.mem_cons.mp hq' with rfl | hq'
          · rw [hcl] at hcq
            cases hcq
            exact Or.inl (Or.inr hx)
          · exact Or.inr ⟨q', hq', cq, hcq, hx⟩

theorem symbolNextStates_spec (fuel : Nat) (T : List Transition) (a : String)
    (ps : List String) :
    ∀ (acc r : List String), symbolNextStates fuel T a ps acc = .ok r →
      (acc.Nodup → r.Nodup) ∧
      ∀ x, x ∈ r ↔ x ∈ acc ∨ ∃ p ∈ ps, ∃ q ∈ findNextStates p a T, ∃ cq,
        fetch_E_Closure fuel q T = .ok cq ∧ x ∈ cq := by
  induction ps with
  | nil =>
    intro acc r h
    simp only [symbolNextStates, Except.ok.injEq] at h
    subst h
    simp
  | cons p ps ih =>
    intro acc r h
    unfold symbolNextStates at h
    split at h
    · exact absurd h (by simp)
    · rename_i acc1 hacc1
      obtain ⟨a1, a2⟩ := closeNextStates_spec fuel T _ acc acc1 hacc1
      obtain ⟨h1, h2⟩ := ih _ r h
      refine ⟨fun hacc => h1 (a1 hacc), ?_⟩
      intro x
      rw [h2, a2]
      constructor
      · rintro ((hx | ⟨q, hq, cq, hcq, hx⟩) | ⟨p', hp', q, hq, cq, hcq, hx⟩)
        · exact Or.inl hx
        · exact Or.inr ⟨p, List.mem_cons_self _ _, q, hq, cq, hcq, hx⟩
        · exact Or.inr ⟨p', List.mem_cons_of_mem _ hp', q, hq, cq, hcq, hx⟩
      · rintro (hx | ⟨p', hp', q, hq, cq, hcq, hx⟩)
        · exact Or.inl (Or.inl hx)
        · rcases List.mem_cons.mp hp' with rfl | hp'
          · exact Or.inl (Or.inr ⟨q, hq, cq, hcq, hx⟩)
          · exact Or.inr ⟨p', hp', q, hq, cq, hcq, hx⟩

theorem closedTransitionsOfState_spec (fuel : Nat) (T : List Transition) (s : String)
    (cs : List String) (hcs : fetch_E_Closure fuel s T = .ok cs) (alphabet : List String) :
    ∀ (acc r : List Transition),
      closedTransitionsOfState fuel T s cs alphabet acc = .ok r →
      (∀ t ∈ acc, t ∈ r) ∧
      (∀ t ∈ r, t ∈ acc ∨ (t.state = s ∧ t.symbol ∈ alphabet ∧ ClosedRecord fuel T t)) ∧
      ∀ a ∈ alphabet, ∃ t ∈ r, t.state = s ∧ t.symbol = a := by
  induction alphabet with
  | nil =>
    intro acc r h
    simp only [closedTransitionsOfState, Except.ok.injEq] at h
    subst h
    simp
  | cons a rest ih =>
    intro acc r h
    unfold closedTransitionsOfState at h
    split at h
    · exact absurd h (by simp)
    · rename_i sns hsns
      obtain ⟨a1, a2⟩ := symbolNextStates_spec fuel T a cs [] sns hsns
      obtain ⟨h1, h2, h3⟩ := ih _ r h
      have hnew : ClosedRecord fuel T ⟨s, jsSort sns, a⟩ := by
        refine ⟨(nodup_jsSort sns).mpr (a1 List.nodup_nil), ?_⟩
        intro x
        show x ∈ jsSort sns ↔ ClosedDestination fuel T s a x
        rw [mem_jsSort, a2]
        constructor
        · rintro (hx | ⟨p, hp, q, hq, cq, hcq, hx⟩)
          · exact absurd hx (List.not_mem_nil x)
          · exact ⟨cs, p, q, cq, hcs, hp, hq, hcq, hx⟩
        · rintro ⟨cs', p, q, cq, hcs', hp, hq, hcq, hx⟩
          rw [hcs] at hcs'
          cases hcs'
          exact Or.inr ⟨p, hp, q, hq, cq, hcq, hx⟩
      refine ⟨fun t ht => h1 t (List.mem_append_left _ ht), ?_, ?_⟩
      · intro t ht
        rcases h2 t ht with ht | ⟨e1, e2, e3⟩
        · rcases List.mem_append.mp ht with ht | ht
          · exact Or.inl ht
          · rw [List.mem_singleton] at ht
            subst ht
            exact Or.inr ⟨rfl, List.mem_cons_self _ _, hnew⟩
        · exact Or.inr ⟨e1, List.mem_cons_of_mem _ e2, e3⟩
      · intro b hb
        rcases List.mem_cons.mp hb with rfl | hb
        · exact ⟨⟨s, jsSort sns, b⟩, h1 _ (List.mem_append_right _ (List.mem_singleton_self _)),
            rfl, rfl⟩
        · exact h3 b hb

theorem closedTransitions_spec (fuel : Nat) (nfa : NFA) (states : List String) :
    ∀ (acc r : List Transition), closedTransitions fuel nfa states acc = .ok r →
      (∀ t ∈ acc, t ∈ r) ∧
      (∀ t ∈ r, t ∈ acc ∨ ClosedRecord fuel nfa.transitions t) ∧
      ∀ s ∈ states, ∀ a ∈ nfa.alphabet, ∃ t ∈ r, t.state = s ∧ t.symbol = a := by
  induction states with
  | nil =>
    intro acc r h
    simp only [closedTransitions, Except.ok.injEq] at h
    subst h
    exact ⟨fun t ht => ht, fun t ht => Or.inl ht, by simp⟩
  | cons s rest ih =>
    intro acc r h
    unfold closedTransitions at h
    split at h
    · exact absurd h (by simp)
    · rename_i cs hcs
      split at h
      · exact absurd h (by simp)
      · rename_i acc1 hacc1
        obtain ⟨a1, a2, a3⟩ :=
          closedTransitionsOfState_spec fuel nfa.transitions s cs hcs nfa.alphabet acc acc1 hacc1
        obtain ⟨h1, h2, h3⟩ := ih acc1 r h
        refine ⟨fun t ht => h1 t (a1 t ht), ?_, ?_⟩
        · intro t ht
          rcases h2 t ht with ht | ht
          · rcases a2 t ht with ht | ⟨_, _, e3⟩
            · exact Or.inl ht
            · exact Or.inr e3
          · exact Or.inr ht
        · intro s' hs' a ha
          rcases List.mem_cons.mp hs' with rfl | hs'
          · obtain ⟨t, ht, e1, e2⟩ := a3 a ha
            exact ⟨t, h1 t ht, e1, e2⟩
          · exact h3 s' hs' a ha

/-- What a returning run of `lambdaClosureNFA` computes.  For an NFA `n` with at least one transition whose symbol is the
empty string or the letter lambda, a state `s` and a symbol `a` of `n`, the
destinations of `s` on `a` in the automaton returned by `lambdaClosureNFA`
are duplicate-free and are exactly the members of `fetch_E_Closure(q)` for
the direct `a`-destinations `q` of the members `p` of `fetch_E_Closure(s)`;
the automaton has a transition record for `s` and `a`, and the same holds of
the destination list of every such record. -/
theorem lambdaClosureNFA_destinations (fuel : Nat) (n m : NFA)
    (hlam : ∃ t ∈ n.transitions, t.symbol = "" ∨ t.symbol = "λ")
    (hret : lambdaClosureNFA fuel n = .ok m)
    (s a : String) (hs : s ∈ n.states) (ha : a ∈ n.alphabet) :
    (findNextStates s a m.transitions).Nodup ∧
    (∀ x, x ∈ findNextStates s a m.transitions ↔
      ∃ cs p q cq, fetch_E_Closure fuel s n.transitions = .ok cs ∧ p ∈ cs ∧
        q ∈ findNextStates p a n.transitions ∧
        fetch_E_Closure fuel q n.transitions = .ok cq ∧ x ∈ cq) ∧
    (∃ t ∈ m.transitions, t.state = s ∧ t.symbol = a) ∧
    ∀ t ∈ m.transitions, t.state = s → t.symbol = a →
      t.nextStates.Nodup ∧
      ∀ x, x ∈ t.nextStates ↔ ClosedDestination fuel n.transitions s a x := by
  have hhas : hasLambda n = true := by
    obtain ⟨t, ht, hsym⟩ := hlam
    unfold hasLambda
    rw [List.any_eq_true]
    refine ⟨t, ht, ?_⟩
    unfold isLambdaSymbol
    rcases hsym with h | h <;> simp [h]
  unfold lambdaClosureNFA at hret
  rw [if_neg (by simp [hhas])] at hret
  split at hret
  · exact absurd hret (by simp)
  · rename_i trs htrs
    split at hret
    · exact absurd hret (by simp)
    · rename_i ic hic
      obtain ⟨hm, _, _⟩ := newNFA_ok _ _ _ _ _ _ hret
      obtain ⟨_, h2, h3⟩ := closedTransitions_spec fuel n n.states [] trs htrs
      subst hm
      have hrec : ∀ t ∈ trs, t.state = s → t.symbol = a →
          t.nextStates.Nodup ∧
          ∀ x, x ∈ t.nextStates ↔ ClosedDestination fuel n.transitions s a x := by
        intro t ht hts hta
        rcases h2 t ht with ht | ⟨e1, e2⟩
        · exact absurd ht (List.not_mem_nil t)
        · refine ⟨e1, ?_⟩
          intro x
          rw [e2 x, hts, hta]
      refine ⟨findNextStatesFrom_nodup s a trs [] List.nodup_nil, ?_, h3 s hs a ha, hrec⟩
      intro x
      show x ∈ findNextStates s a trs ↔ ClosedDestination fuel n.transitions s a x
      rw [mem_findNextStates]
      constructor
      · rintro ⟨t, ht, hts, hta, hx⟩
        exact ((hrec t ht hts hta).2 x).mp hx
      · intro hx
        obtain ⟨t, ht, hts, hta⟩ := h3 s hs a ha
        exact ⟨t, ht, hts, hta, ((hrec t ht hts hta).2 x).mpr hx⟩

/-- The epsilon scenario: from `q0 --epsilon--> q1` and `q1 --a--> q2` the result has
the transition `q0 --a--> q2`. -/
theorem lambdaClosureNFA_destinations_witness :
    (∃ t ∈ epsilonNFA.transitions, t.symbol = "" ∨ t.symbol = "λ") ∧
      lambdaClosureNFA 3 epsilonNFA = .ok epsilonClosedNFA ∧
      (⟨"q0", ["q2"], "a"⟩ : Transition) ∈ epsilonClosedNFA.transitions ∧
      ((findNextStates "q0" "a" epsilonClosedNFA.transitions).Nodup ∧
      (∀ x, x ∈ findNextStates "q0" "a" epsilonClosedNFA.transitions ↔
        ∃ cs p q cq, fetch_E_Closure 3 "q0" epsilonNFA.transitions = .ok cs ∧ p ∈ cs ∧
          q ∈ findNextStates p "a" epsilonNFA.transitions ∧
          fetch_E_Closure 3 q epsilonNFA.transitions = .ok cq ∧ x ∈ cq) ∧
      (∃ t ∈ epsilonClosedNFA.transitions, t.state = "q0" ∧ t.symbol = "a") ∧
      ∀ t ∈ epsilonClosedNFA.transitions, t.state = "q0" → t.symbol = "a" →
        t.nextStates.Nodup ∧
        ∀ x, x ∈ t.nextStates ↔ ClosedDestination 3 epsilonNFA.transitions "q0" "a" x) :=
  ⟨⟨⟨"q0", ["q1"], ""⟩, by decide, Or.inl rfl⟩, by decide, by decide,
    lambdaClosureNFA_destinations 3 epsilonNFA epsilonClosedNFA
      ⟨⟨"q0", ["q1"], ""⟩, by decide, Or.inl rfl⟩ (by decide) "q0" "a" (by decide) (by decide)⟩

/-! ## `lambdaClosureNFA`: when it returns -/

theorem closeNextStates_returns (fuel : Nat) (T : List Transition)
    (hcl : ∀ q, ∃ c, fetch_E_Closure fuel q T = .ok c) (qs : List String) :
    ∀ acc : List String, ∃ r, closeNextStates fuel T qs acc = .ok r := by
  induction qs with
  | nil => intro acc; exact ⟨acc, rfl⟩
  | cons q qs ih =>
    intro acc
    obtain ⟨c, hc⟩ := hcl q
    unfold closeNextStates
    rw [hc]
    exact ih _

theorem symbolNextStates_returns (fuel : Nat) (T : List Transition) (a : String)
    (hcl : ∀ q, ∃ c, fetch_E_Closure fuel q T = .ok c) (ps : List String) :
    ∀ acc : List String, ∃ r, symbolNextStates fuel T a ps acc = .ok r := by
  induction ps with
  | nil => intro acc; exact ⟨acc, rfl⟩
  | cons p ps ih =>
    intro acc
    obtain ⟨r1, hr1⟩ := closeNextStates_returns fuel T hcl (findNextStates p a T) acc
    unfold symbolNextStates
    rw [hr1]
    exact ih _

theorem closedTransitionsOfState_returns (fuel : Nat) (T : List Transition) (s : String)
    (cs : List String) (hcl : ∀ q, ∃ c, fetch_E_Closure fuel q T = .ok c)
    (alphabet : List String) :
    ∀ acc : List Transition, ∃ r, closedTransitionsOfState fuel T s cs alphabet acc = .ok r := by
  induction alphabet with
  | nil => intro acc; exact ⟨acc, rfl⟩
  | cons a rest ih =>
    intro acc
    obtain ⟨r1, hr1⟩ := symbolNextStates_returns fuel T a hcl cs []
    unfold closedTransitionsOfState
    rw [hr1]
    exact ih _

theorem closedTransitions_returns (fuel : Nat) (nfa : NFA)
    (hcl : ∀ q, ∃ c, fetch_E_Closure fuel q nfa.transitions = .ok c) (states : List String) :
    ∀ acc : List Transition, ∃ r, closedTransitions fuel nfa states acc = .ok r := by
  induction states with
  | nil => intro acc; exact ⟨acc, rfl⟩
  | cons s rest ih =>
    intro acc
    obtain ⟨cs, hcs⟩ := hcl s
    obtain ⟨r1, hr1⟩ :=
      closedTransitionsOfState_returns fuel nfa.transitions s cs hcl nfa.alphabet acc
    unfold closedTransitions
    rw [hcs]
    simp only [hr1]
    exact ih _

/-- The epsilon elimination returns as soon as every closure it asks for does and
the state list holds no reserved name. -/
theorem lambdaClosureNFA_returns (fuel : Nat) (n : NFA)
    (hcl : ∀ q, ∃ c, fetch_E_Closure fuel q n.transitions = .ok c)
    (h1 : "INITIAL_STATE" ∉ n.states) (h2 : "FINAL_STATE" ∉ n.states) :
    ∃ m, lambdaClosureNFA fuel n = .ok m := by
  unfold lambdaClosureNFA
  split
  · exact ⟨n, rfl⟩
  · obtain ⟨trs, htrs⟩ := closedTransitions_returns fuel n hcl n.states []
    obtain ⟨ic, hic⟩ := hcl n.initialState
    rw [htrs]
    simp only [hic, newNFA, if_neg h1, if_neg h2]
    exact ⟨_, rfl⟩

theorem lambdaClosureNFA_returns_of_ranked (fuel : Nat) (n : NFA) (rank : String → Nat)
    (hrank : EpsilonRanked n.transitions rank) (hfuel : ∀ q, rank q < fuel)
    (h1 : "INITIAL_STATE" ∉ n.states) (h2 : "FINAL_STATE" ∉ n.states) :
    ∃ m, lambdaClosureNFA fuel n = .ok m :=
  lambdaClosureNFA_returns fuel n
    (fun q => fetch_E_Closure_returns n.transitions rank hrank fuel q (hfuel q)) h1 h2

/-! ## `generateDFA`: the loop invariant -/

theorem singleValued_snoc (trs : List Transition) (s d a : String)
    (h : SingleValued trs)
    (hsame : ∀ t ∈ trs, t.state = s → t.symbol = a → t.nextStates = [d]) :
    SingleValued (trs ++ [⟨s, [d], a⟩]) := by
  obtain ⟨h1, h2⟩ := h
  constructor
  · intro t ht
    rcases List.mem_append.mp ht with ht | ht
    · exact h1 t ht
    · rw [List.mem_singleton] at ht
      subst ht
      exact ⟨d, rfl⟩
  · intro t1 ht1 t2 ht2 hst hsy
    rcases List.mem_append.mp ht1 with ht1 | ht1 <;> rcases List.mem_append.mp ht2 with ht2 | ht2
    · exact h2 t1 ht1 t2 ht2 hst hsy
    · rw [List.mem_singleton] at ht2
      subst ht2
      exact hsame t1 ht1 hst hsy
    · rw [List.mem_singleton] at ht1
      subst ht1
      exact (hsame t2 ht2 hst.symm hsy.symm).symm
    · rw [List.mem_singleton] at ht1 ht2
      subst ht1 ht2
      rfl

theorem mem_deadTransitions (alphabet : List String) (t : Transition)
    (h : t ∈ deadTransitions alphabet) : t.state = "DEAD" ∧ t.nextStates = ["DEAD"] := by
  unfold deadTransitions at h
  rw [List.mem_map] at h
  obtain ⟨a, _, rfl⟩ := h
  exact ⟨rfl, rfl⟩

theorem singleValued_dead (trs : List Transition) (alphabet : List String)
    (h : SingleValued trs) (hno : ∀ t ∈ trs, t.state ≠ "DEAD") :
    SingleValued (trs ++ deadTransitions alphabet) := by
  obtain ⟨h1, h2⟩ := h
  constructor
  · intro t ht
    rcases List.mem_append.mp ht with ht | ht
    · exact h1 t ht
    · exact ⟨"DEAD", (mem_deadTransitions alphabet t ht).2⟩
  · intro t1 ht1 t2 ht2 hst hsy
    rcases List.mem_append.mp ht1 with ht1 | ht1 <;> rcases List.mem_append.mp ht2 with ht2 | ht2
    · exact h2 t1 ht1 t2 ht2 hst hsy
    · exact absurd (hst.trans (mem_deadTransitions alphabet t2 ht2).1) (hno t1 ht1)
    · exact absurd (hst.symm.trans (mem_deadTransitions alphabet t1 ht1).1) (hno t2 ht2)
    · rw [(mem_deadTransitions alphabet t1 ht1).2, (mem_deadTransitions alphabet t2 ht2).2]

/-- Processing one popped state keeps the loop invariant. -/
theorem processSymbols_inv (nfa : NFA) (state : String) (members : List String)
    (rest : List String) :
    ∀ b : Build, SymbolInv nfa state members b →
      SymbolInv nfa state members (processSymbols nfa state members rest b) := by
  induction rest with
  | nil => intro b hb; exact hb
  | cons symbol rest ih =>
    intro b hb
    obtain ⟨⟨hsv, hnd, hsub, hsrc⟩, hin, hout, hform⟩ := hb
    unfold processSymbols
    split
    · rename_i c hc
      have hdest : destinationLabel nfa members symbol = c := by
        unfold destinationLabel
        rw [hc]
        rfl
      have hsv' : SingleValued (b.dfa_transitions ++ [Transition.ofName state c symbol]) := by
        apply singleValued_snoc _ _ _ _ hsv
        intro t ht hts hta
        rw [hform t ht hts, hta, hdest]
      have hform' : ∀ t ∈ b.dfa_transitions ++ [Transition.ofName state c symbol],
          t.state = state → t.nextStates = [destinationLabel nfa members t.symbol] := by
        intro t ht hts
        rcases List.mem_append.mp ht with ht | ht
        · exact hform t ht hts
        · rw [List.mem_singleton] at ht
          subst ht
          show [c] = [destinationLabel nfa members symbol]
          rw [hdest]
      split
      · rename_i hmem
        apply ih
        refine ⟨⟨hsv', hnd, hsub, ?_⟩, hin, hout, hform'⟩
        intro t ht
        rcases List.mem_append.mp ht with ht | ht
        · exact hsrc t ht
        · rw [List.mem_singleton] at ht
          subst ht
          exact ⟨hin, hout⟩
      · rename_i hmem
        apply ih
        have hcs : c ∉ b.stack := fun h => hmem (hsub c h)
        refine ⟨⟨hsv', List.nodup_cons.mpr ⟨hcs, hnd⟩, ?_, ?_⟩, ?_, ?_, hform'⟩
        · intro x hx
          rcases List.mem_cons.mp hx with rfl | hx
          · exact List.mem_append_right _ (List.mem_singleton_self _)
          · exact List.mem_append_left _ (hsub x hx)
        · intro t ht
          have key : t.state ∈ b.dfa_states ∧ t.state ∉ b.stack := by
            rcases List.mem_append.mp ht with ht | ht
            · exact hsrc t ht
            · rw [List.mem_singleton] at ht
              subst ht
              exact ⟨hin, hout⟩
          refine ⟨List.mem_append_left _ key.1, ?_⟩
          intro h
          rcases List.mem_cons.mp h with h | h
          · exact hmem (h ▸ key.1)
          · exact key.2 h
        · exact List.mem_append_left _ hin
        · intro h
          rcases List.mem_cons.mp h with h | h
          · exact hmem (h ▸ hin)
          · exact hout h
    · rename_i hc
      have hdest : destinationLabel nfa members symbol = "DEAD" := by
        unfold destinationLabel
        rw [hc]
        rfl
      split
      · rename_i hmem
        apply ih
        have hsv' : SingleValued (b.dfa_transitions ++ [⟨state, ["DEAD"], symbol⟩]) := by
          apply singleValued_snoc _ _ _ _ hsv
          intro t ht hts hta
          rw [hform t ht hts, hta, hdest]
        refine ⟨⟨hsv', hnd, hsub, ?_⟩, hin, hout, ?_⟩
        · intro t ht
          rcases List.mem_append.mp ht with ht | ht
          · exact hsrc t ht
          · rw [List.mem_singleton] at ht
            subst ht
            exact ⟨hin, hout⟩
        · intro t ht hts
          rcases List.mem_append.mp ht with ht | ht
          · exact hform t ht hts
          · rw [List.mem_singleton] at ht
            subst ht
            show ["DEAD"] = [destinationLabel nfa members symbol]
            rw [hdest]
      · rename_i hmem
        apply ih
        have hne : state ≠ "DEAD" := fun h => hmem (h ▸ hin)
        have hno : ∀ t ∈ b.dfa_transitions, t.state ≠ "DEAD" :=
          fun t ht h => hmem (h ▸ (hsrc t ht).1)
        have hsv1 : SingleValued (b.dfa_transitions ++ deadTransitions nfa.alphabet) :=
          singleValued_dead _ _ hsv hno
        have hsv' : SingleValued
            ((b.dfa_transitions ++ deadTransitions nfa.alphabet) ++ [⟨state, ["DEAD"], symbol⟩]) := by
          apply singleValued_snoc _ _ _ _ hsv1
          intro t ht hts hta
          rcases List.mem_append.mp ht with ht | ht
          · rw [hform t ht hts, hta, hdest]
          · exact (mem_deadTransitions _ t ht).2
        have hdeadstack : "DEAD" ∉ b.stack := fun h => hmem (hsub _ h)
        refine ⟨⟨hsv', hnd, fun x hx => List.mem_append_left _ (hsub x hx), ?_⟩,
          List.mem_append_left _ hin, hout, ?_⟩
        · intro t ht
          rcases List.mem_append.mp ht with ht | ht
          · rcases List.mem_append.mp ht with ht | ht
            · exact ⟨List.mem_append_left _ (hsrc t ht).1, (hsrc t ht).2⟩
            · rw [(mem_deadTransitions _ t ht).1]
              exact ⟨List.mem_append_right _ (List.mem_singleton_self _), hdeadstack⟩
          · rw [List.mem_singleton] at ht
            subst ht
            exact ⟨List.mem_append_left _ hin, hout⟩
        · intro t ht hts
          rcases List.mem_append.mp ht with ht | ht
          · rcases List.mem_append.mp ht with ht | ht
            · exact hform t ht hts
            · exact absurd ((mem_deadTransitions _ t ht).1.symm.trans hts).symm hne
          · rw [List.mem_singleton] at ht
            subst ht
            show ["DEAD"] = [destinationLabel nfa members symbol]
            rw [hdest]

/-- The loop invariant holds at every exit of the `while` loop. -/
theorem subsetLoop_inv (nfa : NFA) (stop : Int) :
    ∀ (fuel : Nat) (b : Build) (k : Nat) (r : LoopResult),
      BuildInv b → subsetLoop nfa stop fuel b k = .ok r → BuildInv r.build := by
  intro fuel
  induction fuel with
  | zero => intro b k r _ h; simp [subsetLoop] at h
  | succ fuel ih =>
    intro b k r hb h
    unfold subsetLoop at h
    obtain ⟨hsv, hnd, hsub, hsrc⟩ := hb
    split at h
    · rename_i hstack
      simp only [Except.ok.injEq] at h
      subst h
      exact ⟨hsv, hnd, hsub, hsrc⟩
    · rename_i state stack hstack
      rw [hstack] at hnd hsub hsrc
      have hpop : BuildInv { b with stack := stack } := by
        refine ⟨hsv, (List.nodup_cons.mp hnd).2, fun x hx => hsub x (List.mem_cons_of_mem _ hx), ?_⟩
        intro t ht
        exact ⟨(hsrc t ht).1, fun hx => (hsrc t ht).2 (List.mem_cons_of_mem _ hx)⟩
      split at h
      · simp only [Except.ok.injEq] at h
        subst h
        exact hpop
      · apply ih _ _ r _ h
        refine (processSymbols_inv nfa state _ nfa.alphabet _ ⟨hpop, ?_, ?_, ?_⟩).1
        · exact hsub state (List.mem_cons_self _ _)
        · exact (List.nodup_cons.mp hnd).1
        · intro t ht hts
          exact absurd (hts ▸ List.mem_cons_self state stack) ((hsrc t ht).2)

theorem findNextStatesFrom_singleValued (state symbol : String) (trs : List Transition) :
    ∀ (acc : List String),
      (∀ t ∈ trs, ∃ d, t.nextStates = [d]) →
      (acc = [] ∧ (∀ t1 ∈ trs, ∀ t2 ∈ trs, t1.state = t2.state → t1.symbol = t2.symbol →
          t1.nextStates = t2.nextStates) ∨
        ∃ d, acc = [d] ∧ ∀ t ∈ trs, t.state = state → t.symbol = symbol → t.nextStates = [d]) →
      (findNextStatesFrom state symbol trs acc).length ≤ 1 := by
  induction trs with
  | nil =>
    intro acc _ h
    unfold findNextStatesFrom
    rcases h with ⟨rfl, _⟩ | ⟨d, rfl, _⟩ <;> simp
  | cons t ts ih =>
    intro acc h1 h
    have h1' : ∀ u ∈ ts, ∃ d, u.nextStates = [d] := fun u hu => h1 u (List.mem_cons_of_mem _ hu)
    unfold findNextStatesFrom
    split
    · rename_i hc
      obtain ⟨d, hd⟩ := h1 t (List.mem_cons_self _ _)
      apply ih _ h1'
      right
      rcases h with ⟨rfl, h2⟩ | ⟨d', rfl, h2⟩
      · refine ⟨d, ?_, ?_⟩
        · rw [hd]; simp [pushMissing]
        · intro u hu hus hua
          rw [← hd]
          exact h2 u (List.mem_cons_of_mem _ hu) t (List.mem_cons_self _ _)
            (hus.trans hc.1.symm) (hua.trans hc.2.symm)
      · have hdd : d = d' := by
          have := h2 t (List.mem_cons_self _ _) hc.1 hc.2
          rw [hd] at this
          simpa using this
        subst hdd
        refine ⟨d, ?_, fun u hu => h2 u (List.mem_cons_of_mem _ hu)⟩
        rw [hd]; simp [pushMissing]
    · apply ih _ h1'
      rcases h with ⟨rfl, h2⟩ | ⟨d', rfl, h2⟩
      · left
        exact ⟨rfl, fun t1 ht1 t2 ht2 => h2 t1 (List.mem_cons_of_mem _ ht1) t2
          (List.mem_cons_of_mem _ ht2)⟩
      · right
        exact ⟨d', rfl, fun u hu => h2 u (List.mem_cons_of_mem _ hu)⟩

theorem deterministic_of_singleValued (trs : List Transition) (h : SingleValued trs) :
    Deterministic trs := by
  intro state symbol
  exact findNextStatesFrom_singleValued state symbol trs [] h.1 (Or.inl ⟨rfl, h.2⟩)

theorem processSymbols_states (nfa : NFA) (state : String) (members rest : List String) :
    ∀ (b : Build) (x : String), x ∈ b.dfa_states →
      x ∈ (processSymbols nfa state members rest b).dfa_states := by
  induction rest with
  | nil => intro b x hx; exact hx
  | cons symbol rest ih =>
    intro b x hx
    unfold processSymbols
    split
    · split
      · exact ih _ x hx
      · exact ih _ x (List.mem_append_left _ hx)
    · split
      · exact ih _ x hx
      · exact ih _ x (List.mem_append_left _ hx)

theorem subsetLoop_states (nfa : NFA) (stop : Int) :
    ∀ (fuel : Nat) (b : Build) (k : Nat) (r : LoopResult) (x : String),
      subsetLoop nfa stop fuel b k = .ok r → x ∈ b.dfa_states → x ∈ r.build.dfa_states := by
  intro fuel
  induction fuel with
  | zero => intro b k r x h; simp [subsetLoop] at h
  | succ fuel ih =>
    intro b k r x h hx
    unfold subsetLoop at h
    split at h
    · simp only [Except.ok.injEq] at h
      subst h
      exact hx
    · split at h
      · simp only [Except.ok.injEq] at h
        subst h
        exact hx
      · exact ih _ _ r x h (processSymbols_states _ _ _ _ _ x hx)

/-! ## `generateDFA`: the loop comes to an end -/

theorem unionNextStates_mem (symbol : String) (T : List Transition) (ss : List String) :
    ∀ (acc : List String) (x : String), x ∈ unionNextStates symbol T ss acc →
      x ∈ acc ∨ x ∈ allDestinations T := by
  induction ss with
  | nil => intro acc x h; exact Or.inl h
  | cons s ss ih =>
    intro acc x h
    unfold unionNextStates at h
    rcases ih _ x h with h | h
    · rcases (mem_pushMissing _ _ _).mp h with h | h
      · exact Or.inl h
      · rcases findNextStatesFrom_mem s symbol T [] x h with h | h
        · exact absurd h (List.not_mem_nil x)
        · exact Or.inr h
    · exact Or.inr h

theorem unionNextStates_nodup (symbol : String) (T : List Transition) (ss : List String) :
    ∀ (acc : List String), acc.Nodup → (unionNextStates symbol T ss acc).Nodup := by
  induction ss with
  | nil => intro acc h; exact h
  | cons s ss ih =>
    intro acc h
    unfold unionNextStates
    exact ih _ (nodup_pushMissing _ _ h)

theorem combineStates_mem_candidateLabels (nfa : NFA) (l : List String) (c : String)
    (hnd : l.Nodup) (hsub : ∀ x ∈ l, x ∈ allDestinations nfa.transitions)
    (hc : combineStates l = some c) : c ∈ candidateLabels nfa := by
  have hsp : l.Subperm (allDestinations nfa.transitions).dedup :=
    List.subperm_of_subset hnd (fun x hx => List.mem_dedup.mpr (hsub x hx))
  obtain ⟨l2, hperm, hsl⟩ := hsp
  unfold candidateLabels
  refine List.mem_cons_of_mem _ (List.mem_cons_of_mem _ ?_)
  rw [List.mem_filterMap]
  refine ⟨l, ?_, hc⟩
  rw [List.mem_flatten]
  refine ⟨l2.permutations, ?_, ?_⟩
  · rw [List.mem_map]
    exact ⟨l2, (List.mem_sublists).mpr hsl, rfl⟩
  · rw [List.mem_permutations]
    exact hperm.symm

theorem processSymbols_bounded (nfa : NFA) (state : String) (members rest : List String) :
    ∀ b : Build, LabelsBounded nfa b →
      LabelsBounded nfa (processSymbols nfa state members rest b) ∧
      (processSymbols nfa state members rest b).stack.length + b.dfa_states.length ≤
        b.stack.length + (processSymbols nfa state members rest b).dfa_states.length := by
  induction rest with
  | nil => intro b hb; exact ⟨hb, le_refl _⟩
  | cons symbol rest ih =>
    intro b hb
    obtain ⟨hnd, hsub⟩ := hb
    unfold processSymbols
    split
    · rename_i c hc
      have hcU : c ∈ candidateLabels nfa :=
        combineStates_mem_candidateLabels nfa _ c
          (unionNextStates_nodup _ _ _ _ List.nodup_nil)
          (fun x hx => by
            rcases unionNextStates_mem _ _ _ _ x hx with h | h
            · exact absurd h (List.not_mem_nil x)
            · exact h) hc
      split
      · exact ih _ ⟨hnd, hsub⟩
      · rename_i hmem
        have hb' : LabelsBounded nfa
            { stack := c :: b.stack, dfa_states := b.dfa_states ++ [c],
              dfa_transitions := b.dfa_transitions ++ [Transition.ofName state c symbol] } := by
          constructor
          · rw [List.nodup_append]
            refine ⟨hnd, List.nodup_singleton c, ?_⟩
            intro a ha hb
            rw [List.mem_singleton] at hb
            exact hmem (hb ▸ ha)
          · intro x hx
            rcases List.mem_append.mp hx with hx | hx
            · exact hsub x hx
            · rw [List.mem_singleton] at hx
              exact hx ▸ hcU
        obtain ⟨h1, h2⟩ := ih _ hb'
        refine ⟨h1, ?_⟩
        simp only [List.length_cons, List.length_append, List.length_singleton,
          List.length_nil] at h2 ⊢
        omega
    · split
      · exact ih _ ⟨hnd, hsub⟩
      · rename_i hmem
        have hb' : LabelsBounded nfa
            { stack := b.stack, dfa_states := b.dfa_states ++ ["DEAD"],
              dfa_transitions := (b.dfa_transitions ++ deadTransitions nfa.alphabet) ++
                [⟨state, ["DEAD"], symbol⟩] } := by
          constructor
          · rw [List.nodup_append]
            refine ⟨hnd, List.nodup_singleton _, ?_⟩
            intro a ha hb
            rw [List.mem_singleton] at hb
            exact hmem (hb ▸ ha)
          · intro x hx
            rcases List.mem_append.mp hx with hx | hx
            · exact hsub x hx
            · rw [List.mem_singleton] at hx
              subst hx
              unfold candidateLabels
              exact List.mem_cons_of_mem _ (List.mem_cons_self _ _)
        obtain ⟨h1, h2⟩ := ih _ hb'
        refine ⟨h1, ?_⟩
        simp only [List.length_cons, List.length_append, List.length_singleton,
          List.length_nil] at h2 ⊢
        omega

/-- Termination of the `while` loop: every iteration pops one label, and a label
is pushed only when it is new among finitely many candidates. -/
theorem subsetLoop_returns (nfa : NFA) (stop : Int) :
    ∀ (fuel : Nat) (b : Build) (k : Nat), LabelsBounded nfa b →
      b.stack.length + (candidateLabels nfa).length < fuel + b.dfa_states.length →
      ∃ r, subsetLoop nfa stop fuel b k = .ok r := by
  intro fuel
  induction fuel with
  | zero =>
    intro b k hb hlt
    have hle : b.dfa_states.length ≤ (candidateLabels nfa).length :=
      (List.subperm_of_subset hb.1 hb.2).length_le
    omega
  | succ fuel ih =>
    intro b k hb hlt
    unfold subsetLoop
    split
    · exact ⟨_, rfl⟩
    · rename_i state stack hstack
      split
      · exact ⟨_, rfl⟩
      · have hpop : LabelsBounded nfa { b with stack := stack } := hb
        obtain ⟨h1, h2⟩ := processSymbols_bounded nfa state
          (if isMultiState state = true then stateMembers state else [state]) nfa.alphabet _ hpop
        apply ih _ _ h1
        rw [hstack] at hlt
        simp only [List.length_cons] at hlt h2
        omega

/-- The `while` loop of `generateDFA` always comes to an end: once the epsilon
elimination has returned, a fuel above the number of candidate labels is
never exhausted by the loop. -/
theorem generateDFA_loop_returns (fuel : Nat) (n m : NFA) (stop : Int)
    (hm : lambdaClosureNFA fuel n = .ok m) (hfuel : (candidateLabels m).length < fuel) :
    generateDFA fuel n stop ≠ .error .diverges := by
  unfold generateDFA
  rw [hm]
  have hinit : LabelsBounded m ⟨[m.initialState], [m.initialState], []⟩ := by
    constructor
    · exact List.nodup_singleton _
    · intro x hx
      simp only [List.mem_singleton] at hx
      subst hx
      unfold candidateLabels
      exact List.mem_cons_self _ _
  obtain ⟨r, hr⟩ := subsetLoop_returns m stop fuel ⟨[m.initialState], [m.initialState], []⟩ 0
    hinit (by simp only [List.length_singleton]; omega)
  simp only [hr]
  split
  · rename_i f hf
    intro h
    simp only [Except.error.injEq] at h
    subst h
    exact newNFA_ne_diverges _ _ _ _ _ hf
  · simp

/-! ## The run relation on a concrete automaton -/

theorem reads_substringNFA (p : String) (w : List String) (r : String)
    (h : Reads substringNFA p w r) :
    (w = [] ∧ r = p) ∨ (p = "q0" ∧ w = ["a"] ∧ r = "q10") := by
  induction h with
  | done q => exact Or.inl ⟨rfl, rfl⟩
  | lambda t q w r ht hsym _ _ _ =>
    simp only [substringNFA, List.mem_singleton] at ht
    subst ht
    exact absurd hsym (by decide)
  | symbol t q w r ht hq _ ih =>
    simp only [substringNFA, List.mem_singleton] at ht
    subst ht
    simp only [List.mem_singleton] at hq
    subst hq
    rcases ih with ⟨rfl, rfl⟩ | ⟨h, _, _⟩
    · exact Or.inr ⟨rfl, rfl, rfl⟩
    · exact absurd h (by decide)

/-! ## Claims C1 to C10 -/

/-- Claim C1, evaluated at a failing input.  For `substringNFA` (states `q0`, `q1`,
`q10`, final state `q1`, one transition `q0 --a--> q10`) `generateDFA` returns
an automaton that accepts the word `a`, although the NFA does not accept it:
the simple state `q10` is recorded as final because the name `q1` occurs
inside its name. -/
theorem generateDFA_substring_language :
    ∃ g, generateDFA 3 substringNFA (-1) = .ok g ∧ acceptsDFA g.dfa ["a"] = true ∧
      ¬ Accepts substringNFA ["a"] := by
  refine ⟨⟨⟨"q0", ["q10"], ["q0", "q10", "DEAD"], ["a"],
      [⟨"q0", ["q10"], "a"⟩, ⟨"DEAD", ["DEAD"], "a"⟩, ⟨"q10", ["DEAD"], "a"⟩]⟩, 2, false⟩,
    by decide, by decide, ?_⟩
  rintro ⟨r, hr, hfin⟩
  simp only [substringNFA, List.mem_singleton] at hfin
  subst hfin
  rcases reads_substringNFA _ _ _ hr with ⟨h, _⟩ | ⟨_, _, h⟩
  · exact absurd h (by decide)
  · exact absurd h (by decide)

/-- Claim C2, evaluated at a failing input.  `collidingDFA` is a DFA (at most one
destination per state and symbol) that accepts the word `x`, and
`minimizeDFA` returns an automaton that does not accept `x`: the states `ab`
and `\x7ba,b\x7d` share the lookup key `ab`, and removing one of them removes
the key from the final-state list. -/
theorem minimizeDFA_colliding_language :
    (∀ state symbol, (findNextStates state symbol collidingDFA.transitions).length ≤ 1) ∧
      acceptsDFA collidingDFA ["x"] = true ∧
      acceptsDFA (minimizeDFA collidingDFA) ["x"] = false := by
  refine ⟨?_, by decide, by decide⟩
  apply deterministic_of_singleValued
  constructor
  · intro t ht
    simp only [collidingDFA, List.mem_cons, List.mem_singleton, List.not_mem_nil, or_false] at ht
    rcases ht with rfl | rfl <;> exact ⟨_, rfl⟩
  · decide

/-- Claim C3.  Whatever the NFA and the step budget, the automaton returned by
`generateDFA` satisfies the DFA invariant: for every state label and every
symbol, `findNextStates` on the returned transitions has at most one member. -/
theorem generateDFA_deterministic (fuel : Nat) (n : NFA) (step_counter_stop : Int)
    (g : Generated) (h : generateDFA fuel n step_counter_stop = .ok g) :
    ∀ state symbol, (findNextStates state symbol g.dfa.transitions).length ≤ 1 := by
  unfold generateDFA at h
  split at h
  · exact absurd h (by simp)
  · rename_i m hm
    split at h
    · exact absurd h (by simp)
    · rename_i r hr
      split at h
      · exact absurd h (by simp)
      · rename_i dfa hdfa
        simp only [Except.ok.injEq] at h
        subst h
        obtain ⟨hd, _, _⟩ := newNFA_ok _ _ _ _ _ _ hdfa
        subst hd
        have hinv : BuildInv r.build := by
          apply subsetLoop_inv m step_counter_stop fuel _ 0 r _ hr
          refine ⟨⟨by simp, by simp⟩, by simp, by simp, by simp⟩
        exact deterministic_of_singleValued _ hinv.1

/-- Claim C3, witness: the worked scenario, run without a budget. -/
theorem generateDFA_deterministic_witness :
    generateDFA 10 scenarioNFA (-1) = .ok scenarioGenerated ∧
      ∀ state symbol,
        (findNextStates state symbol scenarioGenerated.dfa.transitions).length ≤ 1 :=
  ⟨by decide, generateDFA_deterministic 10 scenarioNFA (-1) scenarioGenerated (by decide)⟩

/-- Claim C4, counterexample.  On the single transition `q0 --> q1` whose symbol
is one blank, `fetch_E_Closure` returns a list containing `q1`, while
`q1` is not reachable from `q0` through transitions whose symbol is the empty
string or the letter lambda. -/
theorem fetch_E_Closure_blank_counterexample :
    ∃ r, fetch_E_Closure 2 "q0" blankTransitions = .ok r ∧ "q1" ∈ r ∧
      ¬ EpsilonReach isLambdaSymbol blankTransitions "q0" "q1" := by
  refine ⟨["q0", "q1"], by decide, by decide, ?_⟩
  intro h
  rcases Relation.ReflTransGen.cases_head h with h | ⟨c, hstep, _⟩
  · exact absurd h (by decide)
  · obtain ⟨t, ht, hs, _⟩ := hstep
    simp only [blankTransitions, List.mem_singleton] at ht
    subst ht
    exact absurd hs (by decide)

/-- Claim C4, amended.  Whenever `fetch_E_Closure(s, T)` returns, its result is,
as a set, exactly the set of states reachable from `s` by zero or more
transitions of `T` whose symbol, after `trim()`, is the empty string or the
letter lambda; it contains `s`, and a deeper call stack gives the same result.
The call does return, within a recursion depth of one more than the rank of
`s`, when the epsilon moves that can be reached from `s` are ranked, that is
when they have no cycle through two or more states. -/
theorem fetch_E_Closure_reach (s : String) (T : List Transition) :
    (∀ fuel r, fetch_E_Closure fuel s T = .ok r →
      s ∈ r ∧ (∀ x, x ∈ r ↔ EpsilonReach isTrimmedLambdaSymbol T s x) ∧
      ∀ fuel2, fuel ≤ fuel2 → fetch_E_Closure fuel2 s T = .ok r) ∧
    ∀ rank, EpsilonRankedFrom T s rank →
      ∀ fuel, rank s < fuel → ∃ r, fetch_E_Closure fuel s T = .ok r := by
  constructor
  · intro fuel r hr
    have hclosed := fetch_E_Closure_closedFrom T _ s r hr
    exact ⟨hclosed.1, mem_of_closedFrom T s r hclosed,
      fun fuel2 hle => fetch_E_Closure_le T s r fuel fuel2 hle hr⟩
  · intro rank hrank fuel hf
    exact fetch_E_Closure_returns_from T s rank hrank fuel s Relation.ReflTransGen.refl hf

/-- Claim C4, witness: the transitions of the epsilon scenario, from `q0`.  The
call returns the list `q0`, `q1`, which is the set of states reachable from
`q0`, and the ranking `epsilonRank` shows that it returns.  On the cycle
`q0 --> q1 --> q0` the call from the state `q5`, which is not on the cycle,
returns the list `q5`. -/
theorem fetch_E_Closure_reach_witness :
    fetch_E_Closure 2 "q0" epsilonNFA.transitions = .ok ["q0", "q1"] ∧
      ("q0" ∈ ["q0", "q1"] ∧
        (∀ x, x ∈ ["q0", "q1"] ↔
          EpsilonReach isTrimmedLambdaSymbol epsilonNFA.transitions "q0" x) ∧
        ∀ fuel2, 2 ≤ fuel2 →
          fetch_E_Closure fuel2 "q0" epsilonNFA.transitions = .ok ["q0", "q1"]) ∧
      EpsilonRankedFrom epsilonNFA.transitions "q0" epsilonRank ∧
      (∃ r, fetch_E_Closure (epsilonRank "q0" + 1) "q0" epsilonNFA.transitions = .ok r) ∧
      fetch_E_Closure 1 "q5" cycleTransitions = .ok ["q5"] ∧
      ("q5" ∈ ["q5"] ∧
        (∀ x, x ∈ ["q5"] ↔ EpsilonReach isTrimmedLambdaSymbol cycleTransitions "q5" x) ∧
        ∀ fuel2, 1 ≤ fuel2 → fetch_E_Closure fuel2 "q5" cycleTransitions = .ok ["q5"]) :=
  ⟨by decide,
    (fetch_E_Closure_reach "q0" epsilonNFA.transitions).1 2 ["q0", "q1"] (by decide),
    epsilonRankedFrom_of_ranked _ _ epsilonRanked_epsilonNFA "q0",
    (fetch_E_Closure_reach "q0" epsilonNFA.transitions).2 epsilonRank
      (epsilonRankedFrom_of_ranked _ _ epsilonRanked_epsilonNFA "q0") _ (Nat.lt_succ_self _),
    by decide,
    (fetch_E_Closure_reach "q5" cycleTransitions).1 1 ["q5"] (by decide)⟩

/-- Claim C5, evaluated at a failing input.  On the two epsilon transitions
`q0 --> q1` and `q1 --> q0` the recursion of `fetch_E_Closure` from `q0` never
returns: whatever depth is allowed, it is exhausted. -/
theorem fetch_E_Closure_cycle_never_returns (fuel : Nat) :
    fetch_E_Closure fuel "q0" cycleTransitions = .error .diverges :=
  (fetch_E_Closure_cycle fuel).1

/-- Claim C6, evaluated at a failing input.  The automaton `cycleNFA` has the
epsilon transitions `q0 --> q1` and `q1 --> q0` and the transition
`q1 --a--> q2`, so `q2` is an `a`-destination of a member of the closure of
the state `q0`; but `lambdaClosureNFA` never returns on it: whatever recursion
depth is allowed, the first call of `fetch_E_Closure` exhausts it, and there
is no result whose destinations could be looked at. -/
theorem lambdaClosureNFA_cycle_never_returns :
    (∃ t ∈ cycleNFA.transitions, t.symbol = "" ∨ t.symbol = "λ") ∧
      "q0" ∈ cycleNFA.states ∧ "a" ∈ cycleNFA.alphabet ∧
      EpsilonReach isLambdaSymbol cycleNFA.transitions "q0" "q1" ∧
      "q2" ∈ findNextStates "q1" "a" cycleNFA.transitions ∧
      ∀ fuel, lambdaClosureNFA fuel cycleNFA = .error .diverges := by
  refine ⟨⟨⟨"q0", ["q1"], ""⟩, by decide, Or.inl rfl⟩, by decide, by decide, ?_, by decide, ?_⟩
  · exact Relation.ReflTransGen.single ⟨⟨"q0", ["q1"], ""⟩, by decide, by decide, rfl, by decide⟩
  · intro fuel
    have h := (fetch_E_Closure_cycleNFA fuel).1
    have hhas : hasLambda cycleNFA = true := by decide
    have hstates : cycleNFA.states = ["q0", "q1", "q2"] := rfl
    unfold lambdaClosureNFA
    rw [if_neg (by simp [hhas]), hstates]
    unfold closedTransitions
    rw [h]

/-- Claim C7.  When no transition of `n` carries the empty string or the letter
lambda as its symbol, `lambdaClosureNFA(n)` returns `n` itself. -/
theorem lambdaClosureNFA_without_lambda (fuel : Nat) (n : NFA)
    (h : ∀ t ∈ n.transitions, t.symbol ≠ "" ∧ t.symbol ≠ "λ") :
    lambdaClosureNFA fuel n = .ok n := by
  apply lambdaClosureNFA_of_hasLambda_false
  unfold hasLambda
  rw [List.any_eq_false]
  intro t ht
  obtain ⟨h1, h2⟩ := h t ht
  simp [isLambdaSymbol, h1, h2]

/-- Claim C7, witness: the worked scenario has no epsilon transition. -/
theorem lambdaClosureNFA_without_lambda_witness :
    (∀ t ∈ scenarioNFA.transitions, t.symbol ≠ "" ∧ t.symbol ≠ "λ") ∧
      lambdaClosureNFA 0 scenarioNFA = .ok scenarioNFA :=
  ⟨by decide, lambdaClosureNFA_without_lambda 0 scenarioNFA (by decide)⟩

/-- Claim C8, evaluated at a failing input.  For `blankNFA` (one transition
`q0 --> q1` whose symbol is one blank, final state `q1`) the closure of the initial state `q0`
contains the final state `q1`, yet `lambdaClosureNFA` returns the automaton
unchanged and its final-state list does not contain `q0`. -/
theorem lambdaClosureNFA_blank_keeps_finals :
    fetch_E_Closure 2 blankNFA.initialState blankNFA.transitions = .ok ["q0", "q1"] ∧
      "q1" ∈ blankNFA.finalStates ∧
      lambdaClosureNFA 2 blankNFA = .ok blankNFA ∧
      blankNFA.initialState ∉ blankNFA.finalStates := by
  decide

/-- Claim C9, evaluated at a failing input.  For `substringNFA` the state `q10` of
the automaton returned by `generateDFA` is recorded as final, although its
decomposition is `q10` itself and `q10` is not a final state of the
epsilon-eliminated NFA (which is `substringNFA`). -/
theorem generateDFA_substring_final :
    ∃ g, generateDFA 3 substringNFA (-1) = .ok g ∧
      "q10" ∈ g.dfa.states ∧ g.dfa.formatDotState "q10" ∈ g.dfa.finalStates ∧
      separateStates "q10" = .name "q10" ∧
      lambdaClosureNFA 3 substringNFA = .ok substringNFA ∧
      "q10" ∉ substringNFA.finalStates :=
  ⟨⟨⟨"q0", ["q10"], ["q0", "q10", "DEAD"], ["a"],
      [⟨"q0", ["q10"], "a"⟩, ⟨"DEAD", ["DEAD"], "a"⟩, ⟨"q10", ["DEAD"], "a"⟩]⟩, 2, false⟩,
    by decide, by decide, by decide, by decide, by decide, by decide⟩

/-- Claim C10, counterexample.  The full construction for `scenarioNFA` pops more
than one state, and `generateDFA(scenarioNFA, 1)` is interrupted with an empty
transition list: the transitions of the initial state are not in it. -/
theorem generateDFA_budget_one_scenario :
    (∃ g, generateDFA 10 scenarioNFA (-1) = .ok g ∧ 1 < g.step_counter) ∧
      ∃ g1, generateDFA 10 scenarioNFA 1 = .ok g1 ∧ g1.step_interrupt = true ∧
        g1.dfa.transitions = [] :=
  ⟨⟨⟨⟨"q0", ["q2"], ["q0", "\x7bq0,q1\x7d", "DEAD", "q2"], ["a", "b"],
      [⟨"q0", ["\x7bq0,q1\x7d"], "a"⟩, ⟨"DEAD", ["DEAD"], "a"⟩, ⟨"DEAD", ["DEAD"], "b"⟩,
        ⟨"q0", ["DEAD"], "b"⟩, ⟨"\x7bq0,q1\x7d", ["\x7bq0,q1\x7d"], "a"⟩,
        ⟨"\x7bq0,q1\x7d", ["q2"], "b"⟩, ⟨"q2", ["DEAD"], "a"⟩, ⟨"q2", ["DEAD"], "b"⟩]⟩, 3, false⟩,
      by decide, by decide⟩,
    ⟨⟨⟨"q0", [], ["q0"], ["a", "b"], []⟩, 1, true⟩, by decide, rfl, rfl⟩⟩

/-- Claim C10, amended.  Whenever the full construction `generateDFA(n)` returns,
`generateDFA(n, 1)` stops early (is interrupted) right after the initial state
is popped: one state has been popped, the transition list of the returned
automaton is empty and its state list holds only the initial state. -/
theorem generateDFA_budget_one (fuel : Nat) (n : NFA) (g : Generated)
    (hfull : generateDFA fuel n (-1) = .ok g) :
    ∃ g1, generateDFA fuel n 1 = .ok g1 ∧ g1.step_interrupt = true ∧ g1.step_counter = 1 ∧
      g1.dfa.transitions = [] ∧ g1.dfa.states = [g.dfa.initialState] := by
  unfold generateDFA at hfull ⊢
  split at hfull
  · exact absurd hfull (by simp)
  · rename_i m hm
    split at hfull
    · exact absurd hfull (by simp)
    · rename_i r hr
      split at hfull
      · exact absurd hfull (by simp)
      · rename_i dfa hdfa
        simp only [Except.ok.injEq] at hfull
        subst hfull
        obtain ⟨hd, hi, hf⟩ := newNFA_ok _ _ _ _ _ _ hdfa
        subst hd
        have hinit : m.initialState ∈ r.build.dfa_states :=
          subsetLoop_states m (-1) fuel _ 0 r _ hr (List.mem_singleton_self _)
        have h1 : "INITIAL_STATE" ∉ [m.initialState] := by
          intro h
          rw [List.mem_singleton] at h
          exact hi (h ▸ hinit)
        have h2 : "FINAL_STATE" ∉ [m.initialState] := by
          intro h
          rw [List.mem_singleton] at h
          exact hf (h ▸ hinit)
        cases fuel with
        | zero => simp [subsetLoop] at hr
        | succ fuel =>
          simp only [subsetLoop, Nat.zero_add, Nat.cast_one, if_true, newNFA, if_neg h1, if_neg h2]
          exact ⟨_, rfl, rfl, rfl, rfl, rfl⟩

/-- Claim C10, witness: the worked scenario. -/
theorem generateDFA_budget_one_witness :
    generateDFA 10 scenarioNFA (-1) = .ok scenarioGenerated ∧
      ∃ g1, generateDFA 10 scenarioNFA 1 = .ok g1 ∧ g1.step_interrupt = true ∧
        g1.step_counter = 1 ∧ g1.dfa.transitions = [] ∧
        g1.dfa.states = [scenarioGenerated.dfa.initialState] :=
  ⟨by decide, generateDFA_budget_one 10 scenarioNFA scenarioGenerated (by decide)⟩

/-! ## The order of `sort()` -/

theorem char_eq_of_toNat_eq (c d : Char) (h : c.toNat = d.toNat) : c = d := by
  apply Char.ext
  apply UInt32.ext
  exact h

theorem char_valid_toNat (c : Char) :
    c.toNat < 0xd800 ∨ (0xdfff < c.toNat ∧ c.toNat < 0x110000) :=
  c.valid

theorem utf16Units_append_inj (c d : Char) (r s : List Nat)
    (h : utf16Units c ++ r = utf16Units d ++ s) : c = d ∧ r = s := by
  have hc := char_valid_toNat c
  have hd := char_valid_toNat d
  unfold utf16Units at h
  split at h <;> split at h
  · simp only [List.singleton_append, List.cons.injEq] at h
    exact ⟨char_eq_of_toNat_eq c d h.1, h.2⟩
  · simp only [List.singleton_append, List.cons_append, List.nil_append, List.cons.injEq] at h
    omega
  · simp only [List.singleton_append, List.cons_append, List.nil_append, List.cons.injEq] at h
    omega
  · simp only [List.cons_append, List.nil_append, List.cons.injEq] at h
    refine ⟨char_eq_of_toNat_eq c d ?_, h.2.2⟩
    omega

theorem utf16_chars_inj :
    ∀ (l1 l2 : List Char),
      (l1.map utf16Units).flatten = (l2.map utf16Units).flatten → l1 = l2 := by
  intro l1
  induction l1 with
  | nil =>
    intro l2 h
    cases l2 with
    | nil => rfl
    | cons d ds =>
      simp only [List.map_nil, List.flatten_nil, List.map_cons, List.flatten_cons] at h
      unfold utf16Units at h
      split at h <;> simp at h
  | cons c cs ih =>
    intro l2 h
    cases l2 with
    | nil =>
      simp only [List.map_nil, List.flatten_nil, List.map_cons, List.flatten_cons] at h
      unfold utf16Units at h
      split at h <;> simp at h
    | cons d ds =>
      simp only [List.map_cons, List.flatten_cons] at h
      obtain ⟨h1, h2⟩ := utf16Units_append_inj c d _ _ h
      rw [h1, ih ds h2]

theorem utf16_inj (a b : String) (h : utf16 a = utf16 b) : a = b := by
  unfold utf16 at h
  have := utf16_chars_inj a.data b.data h
  cases a
  cases b
  simp only at this
  rw [this]

theorem codeUnitsLe_total : ∀ (a b : List Nat), codeUnitsLe a b = true ∨ codeUnitsLe b a = true := by
  intro a
  induction a with
  | nil => intro b; left; cases b <;> rfl
  | cons x xs ih =>
    intro b
    cases b with
    | nil => right; rfl
    | cons y ys =>
      simp only [codeUnitsLe, Bool.or_eq_true, Bool.and_eq_true, decide_eq_true_eq]
      rcases Nat.lt_trichotomy x y with h | h | h
      · exact Or.inl (Or.inl h)
      · rcases ih ys with h' | h'
        · exact Or.inl (Or.inr ⟨h, h'⟩)
        · exact Or.inr (Or.inr ⟨h.symm, h'⟩)
      · exact Or.inr (Or.inl h)

theorem codeUnitsLe_trans :
    ∀ (a b c : List Nat), codeUnitsLe a b = true → codeUnitsLe b c = true →
      codeUnitsLe a c = true := by
  intro a
  induction a with
  | nil => intro b c _ _; cases c <;> rfl
  | cons x xs ih =>
    intro b c hab hbc
    cases b with
    | nil => simp [codeUnitsLe] at hab
    | cons y ys =>
      cases c with
      | nil => simp [codeUnitsLe] at hbc
      | cons z zs =>
        simp only [codeUnitsLe, Bool.or_eq_true, Bool.and_eq_true, decide_eq_true_eq] at hab hbc ⊢
        rcases hab with h1 | ⟨h1, h1'⟩ <;> rcases hbc with h2 | ⟨h2, h2'⟩
        · exact Or.inl (by omega)
        · exact Or.inl (by omega)
        · exact Or.inl (by omega)
        · exact Or.inr ⟨by omega, ih ys zs h1' h2'⟩

theorem codeUnitsLe_antisymm :
    ∀ (a b : List Nat), codeUnitsLe a b = true → codeUnitsLe b a = true → a = b := by
  intro a
  induction a with
  | nil =>
    intro b _ hba
    cases b with
    | nil => rfl
    | cons y ys => simp [codeUnitsLe] at hba
  | cons x xs ih =>
    intro b hab hba
    cases b with
    | nil => simp [codeUnitsLe] at hab
    | cons y ys =>
      simp only [codeUnitsLe, Bool.or_eq_true, Bool.and_eq_true, decide_eq_true_eq] at hab hba
      rcases hab with h1 | ⟨h1, h1'⟩ <;> rcases hba with h2 | ⟨h2, h2'⟩
      · omega
      · omega
      · omega
      · rw [h1, ih ys h1' h2']

theorem jsStringLe_total (a b : String) : jsStringLe a b ∨ jsStringLe b a :=
  codeUnitsLe_total _ _

theorem jsStringLe_trans (a b c : String) (h1 : jsStringLe a b) (h2 : jsStringLe b c) :
    jsStringLe a c :=
  codeUnitsLe_trans _ _ _ h1 h2

theorem jsStringLe_antisymm (a b : String) (h1 : jsStringLe a b) (h2 : jsStringLe b a) :
    a = b :=
  utf16_inj a b (codeUnitsLe_antisymm _ _ h1 h2)

theorem jsStringLe_empty (a : String) (h : jsStringLe a "") : a = "" := by
  apply utf16_inj
  unfold jsStringLe at h
  have h0 : utf16 "" = [] := rfl
  rw [h0] at h ⊢
  cases hu : utf16 a with
  | nil => rfl
  | cons u us => rw [hu] at h; simp [codeUnitsLe] at h

theorem sorted_jsSort (l : List String) : List.Sorted jsStringLe (jsSort l) := by
  haveI : IsTotal String jsStringLe := ⟨jsStringLe_total⟩
  haveI : IsTrans String jsStringLe := ⟨jsStringLe_trans⟩
  exact List.sorted_insertionSort jsStringLe l

theorem perm_jsSort (l : List String) : (jsSort l).Perm l :=
  List.perm_insertionSort jsStringLe l

theorem jsSort_eq_of_perm (l1 l2 : List String) (h : l1.Perm l2) : jsSort l1 = jsSort l2 := by
  haveI : IsAntisymm String jsStringLe := ⟨jsStringLe_antisymm⟩
  exact List.eq_of_perm_of_sorted (((perm_jsSort l1).trans h).trans (perm_jsSort l2).symm)
    (sorted_jsSort l1) (sorted_jsSort l2)

theorem combineStates_eq_of_perm (l1 l2 : List String) (h : l1.Perm l2) :
    combineStates l1 = combineStates l2 := by
  unfold combineStates
  rw [h.length_eq, jsSort_eq_of_perm l1 l2 h]

/-! ## Composite labels: writing and reading back -/

theorem appendWithCommas_data (xs : List String) :
    ∀ st : String, (appendWithCommas st xs).data =
      st.data ++ (xs.map (fun x => x.data ++ [','])).flatten := by
  induction xs with
  | nil => intro st; simp [appendWithCommas]
  | cons x xs ih =>
    intro st
    unfold appendWithCommas
    rw [ih]
    simp [String.data_append, List.append_assoc]

theorem flatten_commas_eq (x : String) (xs : List String) :
    ((x :: xs).map (fun y => y.data ++ [','])).flatten = joinComma (x :: xs) ++ [','] := by
  induction xs generalizing x with
  | nil => simp [joinComma]
  | cons y ys ih =>
    have := ih y
    simp only [List.map_cons, List.flatten_cons] at this ⊢
    rw [this]
    simp [joinComma, List.append_assoc]

theorem splitComma_cons_of_ne (c : Char) (cs piece : List Char) (pieces : List (List Char))
    (hc : c ≠ ',') (h : splitComma cs = piece :: pieces) :
    splitComma (c :: cs) = (c :: piece) :: pieces := by
  rw [splitComma, if_neg hc, h]

theorem splitComma_of_no_comma (cs : List Char) (h : ',' ∉ cs) : splitComma cs = [cs] := by
  induction cs with
  | nil => rfl
  | cons c cs ih =>
    have hc : c ≠ ',' := fun hc => h (hc ▸ List.mem_cons_self _ _)
    have hcs : ',' ∉ cs := fun hcs => h (List.mem_cons_of_mem _ hcs)
    exact splitComma_cons_of_ne c cs cs [] hc (ih hcs)

theorem splitComma_append_comma (cs tail : List Char) (h : ',' ∉ cs) :
    splitComma (cs ++ ',' :: tail) = cs :: splitComma tail := by
  induction cs with
  | nil => simp [splitComma]
  | cons c cs ih =>
    have hc : c ≠ ',' := fun hc => h (hc ▸ List.mem_cons_self _ _)
    have hcs : ',' ∉ cs := fun hcs => h (List.mem_cons_of_mem _ hcs)
    rw [List.cons_append]
    exact splitComma_cons_of_ne c _ cs (splitComma tail) hc (ih hcs)

theorem splitComma_joinComma (x : String) (xs : List String)
    (h : ∀ s ∈ x :: xs, ',' ∉ s.data) :
    splitComma (joinComma (x :: xs)) = (x :: xs).map String.data := by
  induction xs generalizing x with
  | nil =>
    simp only [joinComma, List.map_cons, List.map_nil]
    exact splitComma_of_no_comma _ (h x (List.mem_cons_self _ _))
  | cons y ys ih =>
    simp only [joinComma]
    rw [splitComma_append_comma _ _ (h x (List.mem_cons_self _ _)),
      ih y (fun s hs => h s (List.mem_cons_of_mem _ hs))]
    rfl

theorem joinComma_getLast (x : String) (xs : List String) (c : Char)
    (h : ((x :: xs).getLast (List.cons_ne_nil _ _)).data.getLast? = some c) :
    (joinComma (x :: xs)).getLast? = some c := by
  induction xs generalizing x with
  | nil => simpa [joinComma] using h
  | cons y ys ih =>
    simp only [joinComma]
    rw [List.getLast?_append_of_ne_nil _ (List.cons_ne_nil _ _)]
    have hy := ih y (by simpa [List.getLast_cons] using h)
    cases hj : joinComma (y :: ys) with
    | nil => rw [hj] at hy; simp at hy
    | cons a as =>
      rw [hj] at hy
      rw [List.getLast?_cons_cons]
      exact hy

theorem jsTrim_of_ends (a b : Char) (M : List Char)
    (ha : isJSWhiteSpace a = false) (hb : isJSWhiteSpace b = false) :
    jsTrim ⟨a :: (M ++ [b])⟩ = ⟨a :: (M ++ [b])⟩ := by
  unfold jsTrim
  congr 1
  show ((List.dropWhile isJSWhiteSpace (a :: (M ++ [b]))).reverse.dropWhile isJSWhiteSpace).reverse
    = a :: (M ++ [b])
  rw [List.dropWhile_cons_of_neg (by simp [ha])]
  have hrev : (a :: (M ++ [b])).reverse = b :: (a :: M).reverse := by simp
  rw [hrev, List.dropWhile_cons_of_neg (by simp [hb])]
  simp

theorem stripTrailingCommas_of_ends (Y : List Char) (c : Char) (hc : c ≠ ',') :
    stripTrailingCommas ⟨(Y ++ [c]) ++ [',']⟩ = ⟨Y ++ [c]⟩ := by
  unfold stripTrailingCommas
  congr 1
  show (List.dropWhile (fun c => decide (c = ',')) ((Y ++ [c]) ++ [',']).reverse).reverse = Y ++ [c]
  have hrev : ((Y ++ [c]) ++ [',']).reverse = ',' :: c :: Y.reverse := by simp
  rw [hrev, List.dropWhile_cons_of_pos (by simp), List.dropWhile_cons_of_neg (by simp [hc])]
  simp

theorem combineStates_label (l : List String) (x y : String) (rest : List String)
    (Y : List Char) (c : Char) (hl : l.length ≠ 0) (hsorted : jsSort l = x :: y :: rest)
    (hJ : joinComma (x :: y :: rest) = Y ++ [c]) (hc : c ≠ ',') :
    combineStates l = some ⟨'\x7b' :: (joinComma (x :: y :: rest) ++ ['\x7d'])⟩ := by
  unfold combineStates
  rw [if_neg hl, hsorted]
  simp only
  congr 1
  apply String.ext
  rw [String.data_append]
  have hdata : (appendWithCommas "\x7b" (x :: y :: rest)) =
      ⟨'\x7b' :: ((joinComma (x :: y :: rest)) ++ [','])⟩ := by
    apply String.ext
    rw [appendWithCommas_data, flatten_commas_eq]
    rfl
  rw [hdata, jsTrim_of_ends _ _ _ (by decide) (by decide), hJ]
  have hstrip := stripTrailingCommas_of_ends ('\x7b' :: Y) c hc
  simp only [List.cons_append] at hstrip ⊢
  rw [hstrip]
  rfl

theorem separateStates_label (x : String) (xs : List String)
    (h : ∀ s ∈ x :: xs, ',' ∉ s.data) :
    separateStates ⟨'\x7b' :: (joinComma (x :: xs) ++ ['\x7d'])⟩ = .members (x :: xs) := by
  have hmulti : isMultiState ⟨'\x7b' :: (joinComma (x :: xs) ++ ['\x7d'])⟩ = true := by
    unfold isMultiState
    simp only [List.head?_cons, decide_True, Bool.true_and, decide_eq_true_eq]
    rw [← List.cons_append, List.getLast?_concat]
  unfold separateStates
  rw [if_pos hmulti]
  congr 1
  unfold stateMembers innerText
  simp only [List.drop_succ_cons, List.drop_zero, List.dropLast_concat]
  rw [splitComma_joinComma x xs h, List.map_map]
  exact List.map_id' _

theorem sorted_last_ne_empty (x y : String) (rest : List String)
    (hs : List.Sorted jsStringLe (x :: y :: rest)) (hnd : (x :: y :: rest).Nodup) :
    ((x :: y :: rest).getLast (List.cons_ne_nil _ _)).data ≠ [] := by
  intro hempty
  have hlast : (x :: y :: rest).getLast (List.cons_ne_nil _ _) = "" := by
    apply String.ext
    rw [hempty]
  have hmem : (x :: y :: rest).getLast (List.cons_ne_nil _ _) ∈ y :: rest := by
    rw [List.getLast_cons (List.cons_ne_nil y rest)]
    exact List.getLast_mem _
  have hle : jsStringLe x ((x :: y :: rest).getLast (List.cons_ne_nil _ _)) :=
    List.rel_of_sorted_cons hs _ hmem
  rw [hlast] at hle hmem
  have hx : x = "" := jsStringLe_empty x hle
  exact (List.nodup_cons.mp hnd).1 (hx ▸ hmem)

/-! ## `fetch_E_Closure`: the closure of a member -/

theorem closureNextStates_members (s : String) (recur : String → Except Fault (List String))
    (hself : ∀ n sub, recur n = .ok sub → n ∈ sub) (xs : List String) :
    ∀ (e r : List String),
      (∀ x ∈ e, x = s ∨ ∃ n sub, recur n = .ok sub ∧ x ∈ sub) →
      closureNextStates recur xs e = .ok r →
      ∀ x ∈ r, x = s ∨ ∃ n sub, recur n = .ok sub ∧ x ∈ sub := by
  induction xs with
  | nil =>
    intro e r he h
    simp only [closureNextStates, Except.ok.injEq] at h
    subst h
    exact he
  | cons y ys ih =>
    intro e r he h
    unfold closureNextStates at h
    split at h
    · exact ih e r he h
    · split at h
      · exact absurd h (by simp)
      · rename_i sub hsub
        refine ih _ r ?_ h
        intro x hx
        rcases (mem_pushMissing _ _ _).mp hx with hx | hx
        · rcases List.mem_append.mp hx with hx | hx
          · exact he x hx
          · rw [List.mem_singleton] at hx
            exact Or.inr ⟨y, sub, hsub, hx ▸ hself y sub hsub⟩
        · exact Or.inr ⟨y, sub, hsub, hx⟩

theorem closureTransitions_members (s : String) (recur : String → Except Fault (List String))
    (hself : ∀ n sub, recur n = .ok sub → n ∈ sub) (ts : List Transition) :
    ∀ (e r : List String),
      (∀ x ∈ e, x = s ∨ ∃ n sub, recur n = .ok sub ∧ x ∈ sub) →
      closureTransitions recur s ts e = .ok r →
      ∀ x ∈ r, x = s ∨ ∃ n sub, recur n = .ok sub ∧ x ∈ sub := by
  induction ts with
  | nil =>
    intro e r he h
    simp only [closureTransitions, Except.ok.injEq] at h
    subst h
    exact he
  | cons t ts ih =>
    intro e r he h
    unfold closureTransitions at h
    split at h
    · split at h
      · exact absurd h (by simp)
      · rename_i e1 he1
        exact ih e1 r (closureNextStates_members s recur hself t.nextStates e e1 he he1) h
    · exact ih e r he h

theorem fetch_E_Closure_members_return (T : List Transition) :
    ∀ (fuel : Nat) (s : String) (r : List String), fetch_E_Closure fuel s T = .ok r →
      ∀ x ∈ r, ∃ rx, fetch_E_Closure fuel x T = .ok rx := by
  intro fuel
  induction fuel with
  | zero => intro s r h; simp [fetch_E_Closure] at h
  | succ fuel ih =>
    intro s r h x hx
    have hmem := closureTransitions_members s (fun y => fetch_E_Closure fuel y T)
      (fun n sub hn => (fetch_E_Closure_closedFrom T fuel n sub hn).1) T [s] r
      (by
        intro y hy
        rw [List.mem_singleton] at hy
        exact Or.inl hy)
      (by rw [fetch_E_Closure] at h; exact h) x hx
    rcases hmem with rfl | ⟨n, sub, hn, hxs⟩
    · exact ⟨r, h⟩
    · obtain ⟨rx, hrx⟩ := ih n sub hn x hxs
      exact ⟨rx, fetch_E_Closure_succ T fuel x rx hrx⟩

/-! ## `minimizeDFA`: the state list only shrinks -/

theorem removeState_states_sublist (dfa : NFA) (remove replace : String) :
    (removeState dfa remove replace).states.Sublist dfa.states := by
  unfold removeState
  exact List.filter_sublist _

theorem mergePair_states_sublist (dfa : NFA) (state state2 : String) :
    (mergePair dfa state state2).states.Sublist dfa.states := by
  unfold mergePair
  split
  · split
    · split
      · split
        · exact List.Sublist.refl _
        · exact removeState_states_sublist _ _ _
      · split
        · exact List.Sublist.refl _
        · exact removeState_states_sublist _ _ _
    · exact List.Sublist.refl _
  · exact List.Sublist.refl _

theorem minimizeInner_states_sublist (state : String) (l : List String) :
    ∀ dfa : NFA, (minimizeInner state l dfa).states.Sublist dfa.states := by
  induction l with
  | nil => intro dfa; exact List.Sublist.refl _
  | cons state2 rest ih =>
    intro dfa
    unfold minimizeInner
    exact (ih _).trans (mergePair_states_sublist dfa state state2)

theorem minimizeOuter_states_sublist (l : List String) :
    ∀ dfa : NFA, (minimizeOuter l dfa).states.Sublist dfa.states := by
  induction l with
  | nil => intro dfa; exact List.Sublist.refl _
  | cons state rest ih =>
    intro dfa
    unfold minimizeOuter
    exact (ih _).trans (minimizeInner_states_sublist state dfa.states dfa)

/-! ## `minimizeDFA`: one merge -/

theorem arraysEqual_self : ∀ l : List String, arraysEqual l l = true := by
  intro l
  induction l with
  | nil => rfl
  | cons a l ih => simp [arraysEqual, ih]

theorem mem_removeState_states (dfa : NFA) (remove replace x : String) :
    x ∈ (removeState dfa remove replace).states ↔
      x ∈ dfa.states ∧ dfa.formatDotState x ≠ dfa.formatDotState remove := by
  unfold removeState
  simp [List.mem_filter]

theorem mem_removeState_finalStates (dfa : NFA) (remove replace x : String) :
    x ∈ (removeState dfa remove replace).finalStates ↔
      x ∈ dfa.finalStates ∧ dfa.formatDotState x ≠ dfa.formatDotState remove := by
  unfold removeState
  simp [List.mem_filter]

theorem mem_removeState_transitions (dfa : NFA) (remove replace : String) (u : Transition) :
    u ∈ (removeState dfa remove replace).transitions ↔
      ∃ t ∈ dfa.transitions, t.state ≠ remove ∧ u = redirect remove replace t := by
  unfold removeState
  simp only [List.mem_map, List.mem_filter, decide_eq_true_eq]
  constructor
  · rintro ⟨t, ⟨ht, hne⟩, rfl⟩
    exact ⟨t, ht, hne, rfl⟩
  · rintro ⟨t, ht, hne, rfl⟩
    exact ⟨t, ⟨ht, hne⟩, rfl⟩

theorem redirect_state (remove replace : String) (t : Transition) :
    (redirect remove replace t).state = t.state := by
  unfold redirect
  split
  · rfl
  · split <;> rfl

theorem redirect_symbol (remove replace : String) (t : Transition) :
    (redirect remove replace t).symbol = t.symbol := by
  unfold redirect
  split
  · rfl
  · split <;> rfl

theorem redirect_single (remove replace : String) (t : Transition) (d : String)
    (h : t.nextStates = [d]) :
    (redirect remove replace t).nextStates = [if d = remove then replace else d] := by
  unfold redirect
  by_cases hd : d = remove
  · simp [h, hd]
  · simp [h, hd]

theorem singleValued_of_length (trs : List Transition)
    (h1 : ∀ t ∈ trs, t.nextStates.length = 1)
    (h2 : ∀ t1 ∈ trs, ∀ t2 ∈ trs, t1.state = t2.state → t1.symbol = t2.symbol →
      t1.nextStates = t2.nextStates) : SingleValued trs :=
  ⟨fun t ht => List.length_eq_one.mp (h1 t ht), h2⟩

theorem singleValued_removeState (dfa : NFA) (remove replace : String)
    (h : SingleValued dfa.transitions) :
    SingleValued (removeState dfa remove replace).transitions := by
  obtain ⟨h1, h2⟩ := h
  constructor
  · intro u hu
    obtain ⟨t, ht, _, rfl⟩ := (mem_removeState_transitions _ _ _ _).mp hu
    obtain ⟨d, hd⟩ := h1 t ht
    exact ⟨_, redirect_single remove replace t d hd⟩
  · intro u1 hu1 u2 hu2 hst hsy
    obtain ⟨t1, ht1, _, rfl⟩ := (mem_removeState_transitions _ _ _ _).mp hu1
    obtain ⟨t2, ht2, _, rfl⟩ := (mem_removeState_transitions _ _ _ _).mp hu2
    rw [redirect_state, redirect_state] at hst
    rw [redirect_symbol, redirect_symbol] at hsy
    obtain ⟨d1, hd1⟩ := h1 t1 ht1
    obtain ⟨d2, hd2⟩ := h1 t2 ht2
    have h12 := h2 t1 ht1 t2 ht2 hst hsy
    rw [redirect_single _ _ t1 d1 hd1, redirect_single _ _ t2 d2 hd2]
    rw [hd1, hd2] at h12
    simp only [List.cons.injEq, and_true] at h12
    rw [h12]

theorem findNextStates_of_record (T : List Transition) (h : SingleValued T) (t : Transition)
    (ht : t ∈ T) : findNextStates t.state t.symbol T = t.nextStates := by
  obtain ⟨d, hd⟩ := h.1 t ht
  have hlen := deterministic_of_singleValued T h t.state t.symbol
  have hmem : d ∈ findNextStates t.state t.symbol T :=
    (mem_findNextStates _ _ _ _).mpr ⟨t, ht, rfl, rfl, by rw [hd]; exact List.mem_singleton_self d⟩
  rw [hd]
  cases hf : findNextStates t.state t.symbol T with
  | nil => rw [hf] at hmem; exact absurd hmem (List.not_mem_nil d)
  | cons a as =>
    rw [hf] at hmem hlen
    cases as with
    | nil =>
      rw [List.mem_singleton] at hmem
      rw [hmem]
    | cons b bs => simp at hlen

theorem findNextStates_of_no_record (T : List Transition) (p a : String)
    (h : ∀ t ∈ T, ¬ (t.state = p ∧ t.symbol = a)) : findNextStates p a T = [] := by
  apply List.eq_nil_iff_forall_not_mem.mpr
  intro x hx
  obtain ⟨t, ht, h1, h2, _⟩ := (mem_findNextStates _ _ _ _).mp hx
  exact h t ht ⟨h1, h2⟩

theorem findNextStates_removeState (dfa : NFA) (remove replace p a : String)
    (h : SingleValued dfa.transitions) (hp : p ≠ remove) :
    findNextStates p a (removeState dfa remove replace).transitions =
      (findNextStates p a dfa.transitions).map (fun x => if x = remove then replace else x) := by
  by_cases hex : ∃ t ∈ dfa.transitions, t.state = p ∧ t.symbol = a
  · obtain ⟨t, ht, hts, hta⟩ := hex
    obtain ⟨d, hd⟩ := h.1 t ht
    have hold := findNextStates_of_record dfa.transitions h t ht
    have hnew := findNextStates_of_record _ (singleValued_removeState dfa remove replace h)
      (redirect remove replace t)
      ((mem_removeState_transitions _ _ _ _).mpr ⟨t, ht, by rw [hts]; exact hp, rfl⟩)
    rw [redirect_state, redirect_symbol, hts, hta] at hnew
    rw [hts, hta] at hold
    rw [hnew, hold, redirect_single _ _ t d hd, hd]
    rfl
  · have hold := findNextStates_of_no_record dfa.transitions p a
      (fun t ht hc => hex ⟨t, ht, hc⟩)
    have hnew := findNextStates_of_no_record (removeState dfa remove replace).transitions p a
      (by
        intro u hu hc
        obtain ⟨t, ht, _, rfl⟩ := (mem_removeState_transitions _ _ _ _).mp hu
        rw [redirect_state, redirect_symbol] at hc
        exact hex ⟨t, ht, hc⟩)
    rw [hold, hnew]
    rfl

theorem formatDotState_of_plain (nfa : NFA) (k : String) (h : isMultiState k = false) :
    nfa.formatDotState k = k := by
  unfold NFA.formatDotState
  rw [if_neg (by simp [h])]

theorem isFinalState_removeState (dfa : NFA) (remove replace x : String)
    (hplain : isMultiState (dfa.formatDotState x) = false)
    (h : dfa.formatDotState x ≠ dfa.formatDotState remove) :
    isFinalState (removeState dfa remove replace) x = isFinalState dfa x := by
  unfold isFinalState
  have hkey : (removeState dfa remove replace).formatDotState x = dfa.formatDotState x := rfl
  have hidem : dfa.formatDotState (dfa.formatDotState x) = dfa.formatDotState x :=
    formatDotState_of_plain dfa _ hplain
  rw [hkey]
  have := mem_removeState_finalStates dfa remove replace (dfa.formatDotState x)
  rw [hidem] at this
  by_cases hm : dfa.formatDotState x ∈ dfa.finalStates
  · have h' : dfa.formatDotState x ∈ (removeState dfa remove replace).finalStates :=
      this.mpr ⟨hm, h⟩
    simp [hm, h']
  · have h' : dfa.formatDotState x ∉ (removeState dfa remove replace).finalStates :=
      fun hh => hm (this.mp hh).1
    simp [hm, h']

/-! ## `minimizeDFA`: two states that are alike -/

theorem stillAlike_symm (p q : String) (dfa : NFA) (h : StillAlike p q dfa) :
    StillAlike q p dfa := by
  refine ⟨h.1, fun hq hp => ?_⟩
  obtain ⟨h1, h2⟩ := h.2 hp hq
  exact ⟨h1.symm, fun a ha => (h2 a ha).symm⟩

theorem removeState_stillAlike (dfa : NFA) (remove replace p q : String)
    (hp : isMultiState (dfa.formatDotState p) = false)
    (hq : isMultiState (dfa.formatDotState q) = false)
    (h : StillAlike p q dfa) : StillAlike p q (removeState dfa remove replace) := by
  refine ⟨singleValued_removeState dfa remove replace h.1, ?_⟩
  intro hpm hqm
  obtain ⟨hp1, hp2⟩ := (mem_removeState_states _ _ _ _).mp hpm
  obtain ⟨hq1, hq2⟩ := (mem_removeState_states _ _ _ _).mp hqm
  obtain ⟨hfin, hdest⟩ := h.2 hp1 hq1
  have hpne : p ≠ remove := fun hh => hp2 (by rw [hh])
  have hqne : q ≠ remove := fun hh => hq2 (by rw [hh])
  constructor
  · rw [isFinalState_removeState dfa remove replace p hp hp2,
      isFinalState_removeState dfa remove replace q hq hq2]
    exact hfin
  · intro a ha
    rw [findNextStates_removeState dfa remove replace p a h.1 hpne,
      findNextStates_removeState dfa remove replace q a h.1 hqne, hdest a ha]

theorem mergePair_initialState (dfa : NFA) (state state2 : String) :
    (mergePair dfa state state2).initialState = dfa.initialState := by
  unfold mergePair
  split
  · split
    · split
      · split <;> rfl
      · split <;> rfl
    · rfl
  · rfl

theorem mergePair_stillAlike (dfa : NFA) (state state2 p q : String)
    (hp : isMultiState (dfa.formatDotState p) = false)
    (hq : isMultiState (dfa.formatDotState q) = false)
    (h : StillAlike p q dfa) : StillAlike p q (mergePair dfa state state2) := by
  unfold mergePair
  split
  · split
    · split
      · split
        · exact h
        · exact removeState_stillAlike dfa _ _ p q hp hq h
      · split
        · exact h
        · exact removeState_stillAlike dfa _ _ p q hp hq h
    · exact h
  · exact h

theorem minimizeInner_initialState (state : String) (l : List String) :
    ∀ dfa : NFA, (minimizeInner state l dfa).initialState = dfa.initialState := by
  induction l with
  | nil => intro dfa; rfl
  | cons state2 rest ih =>
    intro dfa
    unfold minimizeInner
    rw [ih, mergePair_initialState]

theorem minimizeInner_stillAlike (state : String) (l : List String) (p q : String) (d : NFA)
    (hp : isMultiState (d.formatDotState p) = false)
    (hq : isMultiState (d.formatDotState q) = false) :
    ∀ dfa : NFA, StillAlike p q dfa → StillAlike p q (minimizeInner state l dfa) := by
  induction l with
  | nil => intro dfa h; exact h
  | cons state2 rest ih =>
    intro dfa h
    unfold minimizeInner
    exact ih _ (mergePair_stillAlike dfa state state2 p q hp hq h)

theorem mergePair_removes (dfa : NFA) (x y : String) (hxy : x ≠ y)
    (hfin : isFinalState dfa x = isFinalState dfa y)
    (hdest : ∀ a ∈ dfa.alphabet,
      findNextStates x a dfa.transitions = findNextStates y a dfa.transitions)
    (hdir1 : dfa.initialState = x → y ≠ "DEAD") (hdir2 : dfa.initialState ≠ x → x ≠ "DEAD") :
    ¬ (x ∈ (mergePair dfa x y).states ∧ y ∈ (mergePair dfa x y).states) := by
  have hcond : x ≠ y ∧ decide (dfa.formatDotState x ∈ dfa.finalStates) =
      decide (dfa.formatDotState y ∈ dfa.finalStates) := ⟨hxy, hfin⟩
  have heq : statesEqual dfa x y = true := by
    unfold statesEqual
    rw [List.all_eq_true]
    intro a ha
    rw [hdest a ha]
    exact arraysEqual_self _
  unfold mergePair
  rw [if_pos hcond, if_pos heq]
  by_cases hi : dfa.initialState = x
  · rw [if_pos hi, if_neg (hdir1 hi)]
    rintro ⟨_, hy⟩
    exact ((mem_removeState_states _ _ _ _).mp hy).2 rfl
  · rw [if_neg hi, if_neg (hdir2 hi)]
    rintro ⟨hx, _⟩
    exact ((mem_removeState_states _ _ _ _).mp hx).2 rfl

theorem minimizeInner_not_both (x y : String) (d : NFA) (hxy : x ≠ y)
    (hx : isMultiState (d.formatDotState x) = false)
    (hy : isMultiState (d.formatDotState y) = false)
    (hdir1 : d.initialState = x → y ≠ "DEAD") (hdir2 : d.initialState ≠ x → x ≠ "DEAD")
    (l : List String) :
    ∀ dfa : NFA, dfa.initialState = d.initialState → StillAlike x y dfa → y ∈ l →
      ¬ (x ∈ (minimizeInner x l dfa).states ∧ y ∈ (minimizeInner x l dfa).states) := by
  induction l with
  | nil => intro dfa _ _ hmem; exact absurd hmem (List.not_mem_nil y)
  | cons y2 rest ih =>
    intro dfa hinit h hmem
    unfold minimizeInner
    by_cases hy2 : y2 = y
    · subst hy2
      have hsub := (minimizeInner_states_sublist x rest (mergePair dfa x y2)).subset
      rintro ⟨h1, h2⟩
      have h1' := hsub h1
      have h2' := hsub h2
      have hsub0 := (mergePair_states_sublist dfa x y2).subset
      obtain ⟨hfin, hdest⟩ := h.2 (hsub0 h1') (hsub0 h2')
      exact mergePair_removes dfa x y2 hxy hfin hdest (by rw [hinit]; exact hdir1)
        (by rw [hinit]; exact hdir2) ⟨h1', h2'⟩
    · rcases List.mem_cons.mp hmem with hmem | hmem
      · exact absurd hmem.symm hy2
      · exact ih _ (by rw [mergePair_initialState, hinit])
          (mergePair_stillAlike dfa x y2 x y hx hy h) hmem

theorem minimizeOuter_not_both (x y : String) (d : NFA) (hxy : x ≠ y)
    (hx : isMultiState (d.formatDotState x) = false)
    (hy : isMultiState (d.formatDotState y) = false)
    (hdir1 : d.initialState = x → y ≠ "DEAD") (hdir2 : d.initialState ≠ x → x ≠ "DEAD")
    (l : List String) :
    ∀ dfa : NFA, dfa.initialState = d.initialState → StillAlike x y dfa → x ∈ l →
      ¬ (x ∈ (minimizeOuter l dfa).states ∧ y ∈ (minimizeOuter l dfa).states) := by
  induction l with
  | nil => intro dfa _ _ hmem; exact absurd hmem (List.not_mem_nil x)
  | cons x2 rest ih =>
    intro dfa hinit h hmem
    unfold minimizeOuter
    by_cases hx2 : x2 = x
    · subst hx2
      have hsub := (minimizeOuter_states_sublist rest (minimizeInner x2 dfa.states dfa)).subset
      rintro ⟨h1, h2⟩
      have h1' := hsub h1
      have h2' := hsub h2
      have hymem : y ∈ dfa.states := (minimizeInner_states_sublist x2 dfa.states dfa).subset h2'
      exact minimizeInner_not_both x2 y d hxy hx hy hdir1 hdir2 dfa.states dfa hinit h hymem
        ⟨h1', h2'⟩
    · rcases List.mem_cons.mp hmem with hmem | hmem
      · exact absurd hmem.symm hx2
      · exact ih _ (by rw [minimizeInner_initialState, hinit])
          (minimizeInner_stillAlike x2 dfa.states x y d hx hy dfa h) hmem

theorem minimizeDFA_not_both (d : NFA) (p q : String)
    (hsv : SingleValued d.transitions) (hp : p ∈ d.states) (hq : q ∈ d.states) (hpq : p ≠ q)
    (hkp : isMultiState (d.formatDotState p) = false)
    (hkq : isMultiState (d.formatDotState q) = false)
    (hfin : isFinalState d p = isFinalState d q)
    (hdest : ∀ a ∈ d.alphabet,
      findNextStates p a d.transitions = findNextStates q a d.transitions)
    (hex1 : ¬ (p = d.initialState ∧ q = "DEAD")) (hex2 : ¬ (q = d.initialState ∧ p = "DEAD")) :
    ¬ (p ∈ (minimizeDFA d).states ∧ q ∈ (minimizeDFA d).states) := by
  have halike : StillAlike p q d := ⟨hsv, fun _ _ => ⟨hfin, hdest⟩⟩
  unfold minimizeDFA
  by_cases hdirp : (d.initialState = p → q ≠ "DEAD") ∧ (d.initialState ≠ p → p ≠ "DEAD")
  · exact minimizeOuter_not_both p q d hpq hkp hkq hdirp.1 hdirp.2 d.states d rfl halike hp
  · have hdirq : (d.initialState = q → p ≠ "DEAD") ∧ (d.initialState ≠ q → q ≠ "DEAD") := by
      constructor
      · intro hi hpd
        exact hex2 ⟨hi.symm, hpd⟩
      · intro hi hqd
        apply hdirp
        constructor
        · intro hip _
          exact hex1 ⟨hip.symm, hqd⟩
        · intro _ hpd
          exact hpq (hpd.trans hqd.symm)
    intro hboth
    exact minimizeOuter_not_both q p d (Ne.symm hpq) hkq hkp hdirq.1 hdirq.2 d.states d rfl
      (stillAlike_symm p q d halike) hq ⟨hboth.2, hboth.1⟩

/-! ## `minimizeDFA`: the transitions after the merges -/

theorem removeState_mergeInv (d dfa : NFA) (remove replace : String)
    (hkeys : ∀ s1 ∈ d.states, ∀ s2 ∈ d.states,
      d.formatDotState s1 = d.formatDotState s2 → s1 = s2)
    (hrem : remove ∈ d.states) (hremi : remove ≠ d.initialState)
    (hrep : replace ∈ d.states → replace ∈ dfa.states) (hne : replace ≠ remove)
    (h : MergeInv d dfa) : MergeInv d (removeState dfa remove replace) := by
  obtain ⟨hsv, hinit, hsub, hlive, hdest, hkeep⟩ := h
  have hstay : ∀ x, x ∈ d.states → x ∈ dfa.states → x ≠ remove →
      x ∈ (removeState dfa remove replace).states := by
    intro x hxd hx hxne
    rw [mem_removeState_states]
    exact ⟨hx, fun hk => hxne (hkeys x hxd remove hrem hk)⟩
  refine ⟨singleValued_removeState dfa remove replace hsv, hinit, ?_, ?_, ?_, ?_⟩
  · intro x hx
    exact hsub x ((mem_removeState_states _ _ _ _).mp hx).1
  · intro hi
    exact hstay _ hi (hlive hi) (Ne.symm hremi)
  · intro u hu x hx hxd
    obtain ⟨t, ht, _, rfl⟩ := (mem_removeState_transitions _ _ _ _).mp hu
    obtain ⟨e, he⟩ := hsv.1 t ht
    rw [redirect_single remove replace t e he, List.mem_singleton] at hx
    by_cases hee : e = remove
    · rw [if_pos hee] at hx
      subst hx
      exact hstay _ hxd (hrep hxd) hne
    · rw [if_neg hee] at hx
      subst hx
      exact hstay _ hxd (hdest t ht _ (by rw [he]; exact List.mem_singleton_self _) hxd) hee
  · intro t ht hts
    obtain ⟨hts1, hts2⟩ := (mem_removeState_states _ _ _ _).mp hts
    obtain ⟨u, hu, hus, hua⟩ := hkeep t ht hts1
    have hune : u.state ≠ remove := by
      rw [hus]
      intro hh
      exact hts2 (by rw [hh])
    exact ⟨redirect remove replace u,
      (mem_removeState_transitions _ _ _ _).mpr ⟨u, hu, hune, rfl⟩,
      by rw [redirect_state, hus], by rw [redirect_symbol, hua]⟩

theorem mergePair_mergeInv (d dfa : NFA) (x y : String)
    (hkeys : ∀ s1 ∈ d.states, ∀ s2 ∈ d.states,
      d.formatDotState s1 = d.formatDotState s2 → s1 = s2)
    (hx : x ∈ d.states) (hy : y ∈ d.states)
    (hlivey : dfa.initialState ≠ x → x ≠ y → y ∈ dfa.states)
    (h : MergeInv d dfa) : MergeInv d (mergePair dfa x y) := by
  have hinit := h.2.1
  unfold mergePair
  split
  · rename_i hcond
    split
    · split
      · rename_i hi
        split
        · exact h
        · apply removeState_mergeInv d dfa y x hkeys hy _ _ hcond.1 h
          · rw [← hinit, hi]
            exact Ne.symm hcond.1
          · intro hxd
            rw [← hi, hinit]
            exact h.2.2.2.1 (by rw [← hinit, hi]; exact hxd)
      · rename_i hi
        split
        · exact h
        · apply removeState_mergeInv d dfa x y hkeys hx _ _ (Ne.symm hcond.1) h
          · rw [← hinit]
            exact Ne.symm hi
          · intro _
            exact hlivey hi hcond.1
    · exact h
  · exact h

theorem mergePair_keeps (dfa : NFA) (x y z : String) (hi : dfa.initialState ≠ x)
    (hz : z ∈ dfa.states) (hk : dfa.formatDotState z ≠ dfa.formatDotState x) :
    z ∈ (mergePair dfa x y).states := by
  unfold mergePair
  split
  · split
    · split
      · exact hz
      · exact (mem_removeState_states _ _ _ _).mpr ⟨hz, hk⟩
    · exact hz
  · exact hz

theorem minimizeInner_mergeInv (d : NFA) (x : String)
    (hkeys : ∀ s1 ∈ d.states, ∀ s2 ∈ d.states,
      d.formatDotState s1 = d.formatDotState s2 → s1 = s2)
    (hx : x ∈ d.states) (l : List String) :
    ∀ dfa : NFA, MergeInv d dfa → (∀ y ∈ l, y ∈ d.states) →
      (d.initialState ≠ x → ∀ y ∈ l, y ≠ x → y ∈ dfa.states) →
      MergeInv d (minimizeInner x l dfa) := by
  induction l with
  | nil => intro dfa h _ _; exact h
  | cons y rest ih =>
    intro dfa h hl hlive
    have hinit := h.2.1
    unfold minimizeInner
    apply ih
    · apply mergePair_mergeInv d dfa x y hkeys hx (hl y (List.mem_cons_self _ _)) _ h
      intro hi hxy
      exact hlive (by rw [← hinit]; exact hi) y (List.mem_cons_self _ _) (Ne.symm hxy)
    · exact fun z hz => hl z (List.mem_cons_of_mem _ hz)
    · intro hi z hz hzx
      apply mergePair_keeps dfa x y z (by rw [hinit]; exact hi)
        (hlive hi z (List.mem_cons_of_mem _ hz) hzx)
      intro hk
      exact hzx (hkeys z (hl z (List.mem_cons_of_mem _ hz)) x hx hk)

theorem minimizeOuter_mergeInv (d : NFA)
    (hkeys : ∀ s1 ∈ d.states, ∀ s2 ∈ d.states,
      d.formatDotState s1 = d.formatDotState s2 → s1 = s2)
    (l : List String) :
    ∀ dfa : NFA, MergeInv d dfa → (∀ x ∈ l, x ∈ d.states) →
      MergeInv d (minimizeOuter l dfa) := by
  induction l with
  | nil => intro dfa h _; exact h
  | cons x rest ih =>
    intro dfa h hl
    unfold minimizeOuter
    apply ih _ _ (fun z hz => hl z (List.mem_cons_of_mem _ hz))
    exact minimizeInner_mergeInv d x hkeys (hl x (List.mem_cons_self _ _)) dfa.states dfa h
      h.2.2.1 (fun _ y hy _ => hy)

theorem minimizeDFA_mergeInv (d : NFA) (hsv : SingleValued d.transitions)
    (hkeys : ∀ s1 ∈ d.states, ∀ s2 ∈ d.states,
      d.formatDotState s1 = d.formatDotState s2 → s1 = s2) :
    MergeInv d (minimizeDFA d) := by
  unfold minimizeDFA
  apply minimizeOuter_mergeInv d hkeys d.states d _ (fun x hx => hx)
  exact ⟨hsv, rfl, fun x hx => hx, fun h => h, fun _ _ _ _ h => h,
    fun t ht _ => ⟨t, ht, rfl, rfl⟩⟩

theorem singleValued_alikeDFA : SingleValued alikeDFA.transitions :=
  singleValued_of_length _ (by decide) (by decide)

theorem plainKeys_alikeDFA : PlainKeys alikeDFA := by
  unfold PlainKeys
  decide

/-! ## `minimizeDFA`: the accepted words -/

theorem arraysEqual_eq : ∀ a b : List String, arraysEqual a b = true → a = b := by
  intro a
  induction a with
  | nil =>
    intro b h
    cases b with
    | nil => rfl
    | cons y ys => simp [arraysEqual] at h
  | cons x xs ih =>
    intro b h
    cases b with
    | nil => simp [arraysEqual] at h
    | cons y ys =>
      simp only [arraysEqual, Bool.and_eq_true, decide_eq_true_eq] at h
      rw [h.1, ih ys h.2]

theorem statesEqual_dest (dfa : NFA) (x y : String) (h : statesEqual dfa x y = true) :
    ∀ a ∈ dfa.alphabet, findNextStates x a dfa.transitions = findNextStates y a dfa.transitions := by
  intro a ha
  unfold statesEqual at h
  rw [List.all_eq_true] at h
  exact arraysEqual_eq _ _ (h a ha)

theorem removeState_alphabet (dfa : NFA) (remove replace : String) :
    (removeState dfa remove replace).alphabet = dfa.alphabet := rfl

theorem mergePair_alphabet (dfa : NFA) (state state2 : String) :
    (mergePair dfa state state2).alphabet = dfa.alphabet := by
  unfold mergePair
  split
  · split
    · split
      · split <;> rfl
      · split <;> rfl
    · rfl
  · rfl

theorem runFrom_removeState (dfa : NFA) (remove replace : String)
    (hsv : SingleValued dfa.transitions) (hne : replace ≠ remove)
    (hdest : ∀ a ∈ dfa.alphabet,
      findNextStates remove a dfa.transitions = findNextStates replace a dfa.transitions)
    (w : List String) :
    (∀ a ∈ w, a ∈ dfa.alphabet) → ∀ z : String,
      runFrom (removeState dfa remove replace) (if z = remove then replace else z) w =
        (runFrom dfa z w).map (fun x => if x = remove then replace else x) := by
  induction w with
  | nil => intro _ z; rfl
  | cons a w ih =>
    intro hw z
    have ha : a ∈ dfa.alphabet := hw a (List.mem_cons_self _ _)
    have hw' : ∀ b ∈ w, b ∈ dfa.alphabet := fun b hb => hw b (List.mem_cons_of_mem _ hb)
    have key : findNextStates (if z = remove then replace else z) a
        (removeState dfa remove replace).transitions =
        (findNextStates z a dfa.transitions).map (fun x => if x = remove then replace else x) := by
      by_cases hz : z = remove
      · rw [if_pos hz, findNextStates_removeState dfa remove replace replace a hsv hne, hz,
          hdest a ha]
      · rw [if_neg hz, findNextStates_removeState dfa remove replace z a hsv hz]
    unfold runFrom
    rw [key]
    cases hf : findNextStates z a dfa.transitions with
    | nil => rfl
    | cons y ys => exact ih hw' y

theorem runFrom_mem (dfa : NFA) (S : String → Prop)
    (hclosed : ∀ t ∈ dfa.transitions, ∀ x ∈ t.nextStates, S x) (w : List String) :
    ∀ z last : String, S z → runFrom dfa z w = some last → S last := by
  induction w with
  | nil =>
    intro z last hz h
    simp only [runFrom, Option.some.injEq] at h
    rw [← h]
    exact hz
  | cons a w ih =>
    intro z last _ h
    unfold runFrom at h
    cases hf : findNextStates z a dfa.transitions with
    | nil => rw [hf] at h; exact absurd h (by simp)
    | cons y ys =>
      rw [hf] at h
      have hy : y ∈ findNextStates z a dfa.transitions := by
        rw [hf]; exact List.mem_cons_self _ _
      obtain ⟨t, ht, _, _, hyt⟩ := (mem_findNextStates _ _ _ _).mp hy
      exact ih y last (hclosed t ht y hyt) h

theorem acceptsFrom_removeState (d dfa : NFA) (remove replace : String)
    (hkeys : PlainKeys d) (hsv : SingleValued dfa.transitions)
    (hclosed : ∀ t ∈ dfa.transitions, ∀ x ∈ t.nextStates, x ∈ d.states)
    (hrem : remove ∈ d.states) (hrep : replace ∈ d.states) (hne : replace ≠ remove)
    (hfin : isFinalState dfa remove = isFinalState dfa replace)
    (hdest : ∀ a ∈ dfa.alphabet,
      findNextStates remove a dfa.transitions = findNextStates replace a dfa.transitions)
    (z : String) (hz : z ∈ d.states) (w : List String) (hw : ∀ a ∈ w, a ∈ dfa.alphabet) :
    acceptsFrom (removeState dfa remove replace) (if z = remove then replace else z) w =
      acceptsFrom dfa z w := by
  unfold acceptsFrom
  rw [runFrom_removeState dfa remove replace hsv hne hdest w hw z]
  cases hrun : runFrom dfa z w with
  | none => rfl
  | some last =>
    have hlast : last ∈ d.states :=
      runFrom_mem dfa (fun x => x ∈ d.states) hclosed w z last hz hrun
    show isFinalState (removeState dfa remove replace) (if last = remove then replace else last) =
      isFinalState dfa last
    by_cases hl : last = remove
    · rw [if_pos hl, hl, hfin]
      apply isFinalState_removeState dfa remove replace replace (hkeys.2 replace hrep)
      intro hk
      exact hne (hkeys.1 replace hrep remove hrem hk)
    · rw [if_neg hl]
      apply isFinalState_removeState dfa remove replace last (hkeys.2 last hlast)
      intro hk
      exact hl (hkeys.1 last hlast remove hrem hk)

theorem filter_map_filter_map {α β γ : Type} (P P2 : α → Bool) (N : β → Bool)
    (r : α → β) (red : β → γ) (r2 : α → γ) (l : List α)
    (h1 : ∀ t ∈ l, (P t && N (r t)) = P2 t) (h2 : ∀ t ∈ l, red (r t) = r2 t) :
    (((l.filter P).map r).filter N).map red = (l.filter P2).map r2 := by
  induction l with
  | nil => rfl
  | cons t l ih =>
    have ih' := ih (fun u hu => h1 u (List.mem_cons_of_mem _ hu))
      (fun u hu => h2 u (List.mem_cons_of_mem _ hu))
    have ht1 := h1 t (List.mem_cons_self _ _)
    have ht2 := h2 t (List.mem_cons_self _ _)
    cases hP : P t <;> cases hN : N (r t) <;> rw [hP, hN] at ht1 <;>
      simp [List.filter_cons, hP, hN, ← ht1, ih', ht2]

theorem removeState_renamed (d dfa : NFA) (remove replace : String) (rho : String → String)
    (hsvd : SingleValued d.transitions) (hkeys : PlainKeys d) (hwf : WellFormed d)
    (hrem : remove ∈ d.states) (hrep : replace ∈ dfa.states) (hne : replace ≠ remove)
    (hfin : isFinalState dfa remove = isFinalState dfa replace)
    (hdest : ∀ a ∈ dfa.alphabet,
      findNextStates remove a dfa.transitions = findNextStates replace a dfa.transitions)
    (hinv : MergeInv d dfa) (halph : dfa.alphabet = d.alphabet) (h : Renamed d dfa rho) :
    Renamed d (removeState dfa remove replace)
      (fun x => if rho x = remove then replace else rho x) := by
  obtain ⟨h1, h2, h3, h4⟩ := h
  obtain ⟨hsv, _, hsub, _, _, _⟩ := hinv
  have hrepd : replace ∈ d.states := hsub replace hrep
  have hstay : ∀ x, x ∈ dfa.states → x ≠ remove → x ∈ (removeState dfa remove replace).states := by
    intro x hx hxne
    rw [mem_removeState_states]
    exact ⟨hx, fun hk => hxne (hkeys.1 x (hsub x hx) remove hrem hk)⟩
  have hclosed : ∀ t ∈ dfa.transitions, ∀ x ∈ t.nextStates, x ∈ d.states := by
    intro t ht x hx
    rw [h3] at ht
    obtain ⟨t0, ht0, rfl⟩ := List.mem_map.mp ht
    obtain ⟨e, he, rfl⟩ := List.mem_map.mp hx
    exact hsub _ (h2 e ((hwf.2 t0 (List.mem_filter.mp ht0).1).2 e he))
  refine ⟨?_, ?_, ?_, ?_⟩
  · intro x hx
    obtain ⟨hx1, hx2⟩ := (mem_removeState_states _ _ _ _).mp hx
    have hxne : x ≠ remove := fun hh => hx2 (by rw [hh])
    show (if rho x = remove then replace else rho x) = x
    rw [h1 x hx1, if_neg hxne]
  · intro x hx
    show (if rho x = remove then replace else rho x) ∈ (removeState dfa remove replace).states
    by_cases hr : rho x = remove
    · rw [if_pos hr]
      exact hstay replace hrep hne
    · rw [if_neg hr]
      exact hstay _ (h2 x hx) hr
  · show ((dfa.transitions.filter (fun t => decide (t.state ≠ remove))).map
        (redirect remove replace)) = _
    rw [h3]
    apply filter_map_filter_map
    · intro t ht
      have hts : t.state ∈ d.states := (hwf.2 t ht).1
      have hrs : (renameRecord rho t).state = t.state := rfl
      rw [hrs]
      by_cases hm : t.state ∈ dfa.states
      · by_cases hr : t.state = remove
        · have : t.state ∉ (removeState dfa remove replace).states := by
            intro hh
            exact ((mem_removeState_states _ _ _ _).mp hh).2 (by rw [hr])
          have hm2 : decide (t.state ∈ dfa.states) = true := by simp [hm]
          have hn2 : decide (t.state ≠ remove) = false := by simp [hr]
          have hp2 : decide (t.state ∈ (removeState dfa remove replace).states) = false := by
            simp [this]
          rw [hm2, hn2, hp2]
          rfl
        · have := hstay _ hm hr
          simp [hm, hr, this]
      · have : t.state ∉ (removeState dfa remove replace).states :=
          fun hh => hm ((mem_removeState_states _ _ _ _).mp hh).1
        simp [hm, this]
    · intro t ht
      obtain ⟨e, he⟩ := hsvd.1 t ht
      have hr : (renameRecord rho t).nextStates = [rho e] := by
        show t.nextStates.map rho = [rho e]
        rw [he]; rfl
      have hred := redirect_single remove replace (renameRecord rho t) (rho e) hr
      have hs := redirect_state remove replace (renameRecord rho t)
      have ha := redirect_symbol remove replace (renameRecord rho t)
      cases hu : redirect remove replace (renameRecord rho t) with
      | mk us un ua =>
        rw [hu] at hred hs ha
        simp only at hred hs ha
        simp only [renameRecord, he, List.map_cons, List.map_nil, Transition.mk.injEq]
        exact ⟨hs, hred, ha⟩
  · intro x hx w hw
    show acceptsFrom (removeState dfa remove replace)
      (if rho x = remove then replace else rho x) w = acceptsFrom d x w
    rw [acceptsFrom_removeState d dfa remove replace hkeys hsv hclosed hrem hrepd hne hfin hdest
      (rho x) (hsub _ (h2 x hx)) w (by rw [halph]; exact hw)]
    exact h4 x hx w hw

theorem minimizeInner_alphabet (state : String) (l : List String) :
    ∀ dfa : NFA, (minimizeInner state l dfa).alphabet = dfa.alphabet := by
  induction l with
  | nil => intro dfa; rfl
  | cons state2 rest ih =>
    intro dfa
    unfold minimizeInner
    rw [ih, mergePair_alphabet]

theorem minimizeOuter_alphabet (l : List String) :
    ∀ dfa : NFA, (minimizeOuter l dfa).alphabet = dfa.alphabet := by
  induction l with
  | nil => intro dfa; rfl
  | cons state rest ih =>
    intro dfa
    unfold minimizeOuter
    rw [ih, minimizeInner_alphabet]

theorem minimizeOuter_initialState (l : List String) :
    ∀ dfa : NFA, (minimizeOuter l dfa).initialState = dfa.initialState := by
  induction l with
  | nil => intro dfa; rfl
  | cons state rest ih =>
    intro dfa
    unfold minimizeOuter
    rw [ih, minimizeInner_initialState]

theorem renamed_self (d : NFA) (hwf : WellFormed d) : Renamed d d (fun x => x) := by
  refine ⟨fun _ _ => rfl, fun _ hx => hx, ?_, fun _ _ _ _ => rfl⟩
  have h1 : d.transitions.filter (fun t => decide (t.state ∈ d.states)) = d.transitions := by
    apply List.filter_eq_self.mpr
    intro t ht
    simpa using (hwf.2 t ht).1
  rw [h1]
  have h2 : renameRecord (fun x => x) = fun t => t := by
    funext t
    cases t
    simp [renameRecord]
  rw [h2, List.map_id']

theorem wellFormed_alikeDFA : WellFormed alikeDFA := by
  unfold WellFormed
  decide

/-! ## `minimizeDFA`: where a dropped state is sent -/

theorem alike_symm (dfa : NFA) (u v : String) (h : Alike dfa u v) : Alike dfa v u :=
  ⟨h.1.symm, fun a ha => (h.2 a ha).symm⟩

theorem alike_trans (dfa : NFA) (u v w : String) (h1 : Alike dfa u v) (h2 : Alike dfa v w) :
    Alike dfa u w :=
  ⟨h1.1.trans h2.1, fun a ha => (h1.2 a ha).trans (h2.2 a ha)⟩

theorem alike_refl (dfa : NFA) (u : String) : Alike dfa u u :=
  ⟨rfl, fun _ _ => rfl⟩

theorem alike_removeState (d dfa : NFA) (remove replace u v : String)
    (hkeys : PlainKeys d) (hsv : SingleValued dfa.transitions)
    (hrem : remove ∈ d.states) (hu : u ∈ d.states) (hv : v ∈ d.states)
    (hune : u ≠ remove) (hvne : v ≠ remove) (h : Alike dfa u v) :
    Alike (removeState dfa remove replace) u v := by
  constructor
  · rw [isFinalState_removeState dfa remove replace u (hkeys.2 u hu)
        (fun hk => hune (hkeys.1 u hu remove hrem hk)),
      isFinalState_removeState dfa remove replace v (hkeys.2 v hv)
        (fun hk => hvne (hkeys.1 v hv remove hrem hk))]
    exact h.1
  · intro a ha
    rw [findNextStates_removeState dfa remove replace u a hsv hune,
      findNextStates_removeState dfa remove replace v a hsv hvne, h.2 a ha]

theorem alike_renamed (d dfa : NFA) (remove replace u v : String)
    (hkeys : PlainKeys d) (hsv : SingleValued dfa.transitions)
    (hrem : remove ∈ d.states) (hrep : replace ∈ d.states) (hne : replace ≠ remove)
    (hu : u ∈ d.states) (hv : v ∈ d.states)
    (hmerge : Alike dfa remove replace) (h : Alike dfa u v) :
    Alike (removeState dfa remove replace)
      (if u = remove then replace else u) (if v = remove then replace else v) := by
  have key : ∀ z, z ∈ d.states →
      (if z = remove then replace else z) ∈ d.states ∧
      (if z = remove then replace else z) ≠ remove ∧
      Alike dfa (if z = remove then replace else z) z := by
    intro z hz
    by_cases hzr : z = remove
    · rw [if_pos hzr, hzr]
      exact ⟨hrep, hne, alike_symm _ _ _ hmerge⟩
    · rw [if_neg hzr]
      exact ⟨hz, hzr, alike_refl _ _⟩
  obtain ⟨hu1, hu2, hu3⟩ := key u hu
  obtain ⟨hv1, hv2, hv3⟩ := key v hv
  apply alike_removeState d dfa remove replace _ _ hkeys hsv hrem hu1 hv1 hu2 hv2
  exact alike_trans _ _ _ _ (alike_trans _ _ _ _ hu3 h) (alike_symm _ _ _ hv3)

theorem mergePair_step (d dfa : NFA) (x y : String) (rho : String → String)
    (hsvd : SingleValued d.transitions) (hkeys : PlainKeys d) (hwf : WellFormed d)
    (hx : x ∈ d.states) (hy : y ∈ d.states)
    (hlivey : dfa.initialState ≠ x → x ≠ y → y ∈ dfa.states)
    (hinv : MergeInv d dfa) (halph : dfa.alphabet = d.alphabet) (hrho : Renamed d dfa rho) :
    ∃ rho2, Renamed d (mergePair dfa x y) rho2 ∧
      MergeStep dfa (mergePair dfa x y) x y rho rho2 := by
  have hinit := hinv.2.1
  unfold mergePair
  split
  · rename_i hcond
    split
    · rename_i heq
      have hdest := statesEqual_dest dfa x y heq
      split
      · rename_i hi
        split
        · exact ⟨rho, hrho, Or.inl ⟨rfl, rfl⟩⟩
        · rename_i hdead
          have hxlive : x ∈ dfa.states := by
            rw [← hi, hinit]
            exact hinv.2.2.2.1 hwf.1
          refine ⟨_, removeState_renamed d dfa y x rho hsvd hkeys hwf hy hxlive hcond.1
            hcond.2.symm (fun a ha => (hdest a ha).symm) hinv halph hrho, Or.inr ?_⟩
          refine ⟨y, x, Or.inr ⟨rfl, rfl⟩, hdead, ?_, hcond.1, hxlive,
            ⟨hcond.2.symm, fun a ha => (hdest a ha).symm⟩, rfl, rfl⟩
          rw [hi]
          exact Ne.symm hcond.1
      · rename_i hi
        split
        · exact ⟨rho, hrho, Or.inl ⟨rfl, rfl⟩⟩
        · rename_i hdead
          refine ⟨_, removeState_renamed d dfa x y rho hsvd hkeys hwf hx (hlivey hi hcond.1)
            (Ne.symm hcond.1) hcond.2 hdest hinv halph hrho, Or.inr ?_⟩
          exact ⟨x, y, Or.inl ⟨rfl, rfl⟩, hdead, Ne.symm hi, Ne.symm hcond.1,
            hlivey hi hcond.1, ⟨hcond.2, hdest⟩, rfl, rfl⟩
    · exact ⟨rho, hrho, Or.inl ⟨rfl, rfl⟩⟩
  · exact ⟨rho, hrho, Or.inl ⟨rfl, rfl⟩⟩

theorem redirected_step (d dfa dfa2 : NFA) (x y : String) (rho rho2 : String → String)
    (a b : String) (hstep : MergeStep dfa dfa2 x y rho rho2) (h : Redirected d dfa rho a b) :
    Redirected d dfa2 rho2 a b := by
  intro hbd hb
  rcases hstep with ⟨h1, h2⟩ | ⟨remove, replace, _, hdead, _, _, _, _, hdfa, hrho⟩
  · rw [h2]
    rw [h1] at hb
    exact h hbd hb
  · rw [hdfa] at hb
    obtain ⟨hb1, hb2⟩ := (mem_removeState_states _ _ _ _).mp hb
    have hbne : b ≠ remove := fun hh => hb2 (by rw [hh])
    rw [hrho]
    rcases h hbd hb1 with h | ⟨h1, h2⟩
    · left
      show (if rho a = remove then replace else rho a) = b
      rw [h, if_neg hbne]
    · right
      refine ⟨h1, ?_⟩
      show (if rho a = remove then replace else rho a) = "DEAD"
      rw [h2, if_neg (Ne.symm hdead)]

theorem innerTrack_step (d dfa : NFA) (x y : String) (rho rho2 : String → String)
    (a b : String) (pending rest : List String)
    (hkeys : PlainKeys d) (ha : a ∈ d.states) (hb : b ∈ d.states)
    (hx : x ∈ d.states) (hy : y ∈ d.states)
    (hinv : MergeInv d dfa) (hrho : Renamed d dfa rho)
    (hstep : MergeStep dfa (mergePair dfa x y) x y rho rho2)
    (h : InnerTrack d dfa rho a b x pending (y :: rest)) :
    InnerTrack d (mergePair dfa x y) rho2 a b x pending rest := by
  obtain ⟨hsv, hinit, hsub, _, _, _⟩ := hinv
  have hra : rho a ∈ dfa.states := hrho.2.1 a ha
  have hrb : rho b ∈ dfa.states := hrho.2.1 b hb
  rcases h with h | ⟨hxb, halike, hpend⟩ | ⟨hxb, halike, hblive, hmem, hne⟩
  · exact Or.inl (redirected_step d dfa _ x y rho rho2 a b hstep h)
  · right; left
    refine ⟨hxb, ?_, hpend⟩
    rcases hstep with ⟨h1, h2⟩ | ⟨remove, replace, hrr, _, _, hrne, hrep, hmerge, hdfa, hrho2⟩
    · rw [h1, h2]
      exact halike
    · have hremd : remove ∈ d.states := by
        rcases hrr with ⟨h1, _⟩ | ⟨h1, _⟩
        · rw [h1]; exact hx
        · rw [h1]; exact hy
      rw [hdfa, hrho2]
      exact alike_renamed d dfa remove replace (rho a) (rho b) hkeys hsv hremd (hsub _ hrep)
        hrne (hsub _ hra) (hsub _ hrb) hmerge halike
  · by_cases hbd : b = "DEAD"
    · exact Or.inl (fun hh => absurd hbd hh)
    subst hxb
    have hstay : ∀ z, z ∈ dfa.states → z ≠ y → z ∈ (removeState dfa y x).states := by
      intro z hz hzy
      rw [mem_removeState_states]
      exact ⟨hz, fun hk => hzy (hkeys.1 z (hsub z hz) y hy hk)⟩
    by_cases hzy : rho a = y
    · by_cases hskip : dfa.initialState = x ∧ y = "DEAD"
      · left
        apply redirected_step d dfa _ x y rho rho2 a x hstep
        intro _ _
        right
        exact ⟨by rw [← hinit]; exact hskip.1.symm, by rw [hzy]; exact hskip.2⟩
      · have hnot := mergePair_removes dfa x y (by rw [← hzy]; exact Ne.symm hne)
          (by rw [← hzy]; exact halike.1.symm)
          (fun s hs => by rw [← hzy]; exact (halike.2 s hs).symm)
          (fun hi hyd => hskip ⟨hi, hyd⟩) (fun _ => hbd)
        left
        rcases hstep with ⟨h1, _⟩ | ⟨remove, replace, hrr, _, _, _, _, _, hdfa, hrho2⟩
        · exfalso
          apply hnot
          rw [h1]
          exact ⟨hblive, by rw [← hzy]; exact hra⟩
        · rcases hrr with ⟨h1, h2⟩ | ⟨h1, h2⟩
          · intro _ hmemx
            exfalso
            rw [hdfa, h1] at hmemx
            exact ((mem_removeState_states _ _ _ _).mp hmemx).2 rfl
          · intro _ _
            left
            rw [hrho2]
            show (if rho a = remove then replace else rho a) = x
            rw [h1, h2, if_pos hzy]
    · have hrest : rho a ∈ rest := by
        rcases List.mem_cons.mp hmem with h | h
        · exact absurd h hzy
        · exact h
      rcases hstep with ⟨h1, h2⟩ | ⟨remove, replace, hrr, _, _, hrne, _, _, hdfa, hrho2⟩
      · right; right
        rw [h1, h2]
        exact ⟨rfl, halike, hblive, hrest, hne⟩
      · rcases hrr with ⟨h1, h2⟩ | ⟨h1, h2⟩
        · left
          intro _ hmemx
          exfalso
          rw [hdfa, h1] at hmemx
          exact ((mem_removeState_states _ _ _ _).mp hmemx).2 rfl
        · right; right
          have hxy : x ≠ y := by
            rw [← h1, ← h2]
            exact hrne
          have himg : rho2 a = rho a := by
            rw [hrho2]
            show (if rho a = remove then replace else rho a) = rho a
            rw [h1, if_neg hzy]
          rw [himg, hdfa, h1, h2]
          exact ⟨rfl,
            alike_removeState d dfa y x (rho a) x hkeys hsv hy (hsub _ hra) hx hzy hxy halike,
            hstay x hblive hxy, hrest, hne⟩

theorem minimizeInner_tracked (d : NFA) (x p q : String) (pending : List String)
    (hsvd : SingleValued d.transitions) (hkeys : PlainKeys d) (hwf : WellFormed d)
    (hp : p ∈ d.states) (hq : q ∈ d.states)
    (hx : x ∈ d.states) (l : List String) :
    ∀ dfa : NFA, MergeInv d dfa → dfa.alphabet = d.alphabet →
      (∃ rho, Renamed d dfa rho ∧ InnerTrack d dfa rho p q x pending l ∧
        InnerTrack d dfa rho q p x pending l) →
      (∀ y ∈ l, y ∈ d.states) →
      (d.initialState ≠ x → ∀ y ∈ l, y ≠ x → y ∈ dfa.states) →
      ∃ rho, Renamed d (minimizeInner x l dfa) rho ∧
        InnerTrack d (minimizeInner x l dfa) rho p q x pending [] ∧
        InnerTrack d (minimizeInner x l dfa) rho q p x pending [] := by
  induction l with
  | nil => intro dfa _ _ h _ _; exact h
  | cons y rest ih =>
    intro dfa hinv halph h hl hlive
    obtain ⟨rho, hrho, ht1, ht2⟩ := h
    have hinit := hinv.2.1
    have hy : y ∈ d.states := hl y (List.mem_cons_self _ _)
    have hlivey : dfa.initialState ≠ x → x ≠ y → y ∈ dfa.states := by
      intro hi hxy
      exact hlive (by rw [← hinit]; exact hi) y (List.mem_cons_self _ _) (Ne.symm hxy)
    obtain ⟨rho2, hrho2, hstep⟩ :=
      mergePair_step d dfa x y rho hsvd hkeys hwf hx hy hlivey hinv halph hrho
    unfold minimizeInner
    apply ih
    · exact mergePair_mergeInv d dfa x y hkeys.1 hx hy hlivey hinv
    · rw [mergePair_alphabet, halph]
    · exact ⟨rho2, hrho2,
        innerTrack_step d dfa x y rho rho2 p q pending rest hkeys hp hq hx hy hinv hrho hstep ht1,
        innerTrack_step d dfa x y rho rho2 q p pending rest hkeys hq hp hx hy hinv hrho hstep ht2⟩
    · exact fun z hz => hl z (List.mem_cons_of_mem _ hz)
    · intro hi z hz hzx
      apply mergePair_keeps dfa x y z (by rw [hinit]; exact hi)
        (hlive hi z (List.mem_cons_of_mem _ hz) hzx)
      intro hk
      exact hzx (hkeys.1 z (hl z (List.mem_cons_of_mem _ hz)) x hx hk)

theorem innerTrack_start (d dfa : NFA) (rho : String → String) (a b x : String)
    (pending : List String) (ha : a ∈ d.states)
    (hrho : Renamed d dfa rho) (h : PairTrack d dfa rho a b (x :: pending)) :
    InnerTrack d dfa rho a b x pending dfa.states := by
  rcases h with h | ⟨halike, hmem⟩
  · exact Or.inl h
  · by_cases hxb : x = b
    · by_cases hdone : Redirected d dfa rho a b
      · exact Or.inl hdone
      · right; right
        have hblive : b ∈ dfa.states := by
          by_contra hcon
          exact hdone (fun _ hh => absurd hh hcon)
        have hne : rho a ≠ b := by
          intro hh
          exact hdone (fun _ _ => Or.inl hh)
        rw [hrho.1 b hblive] at halike
        exact ⟨hxb, halike, hblive, hrho.2.1 a ha, hne⟩
    · right; left
      refine ⟨hxb, halike, ?_⟩
      rcases List.mem_cons.mp hmem with h | h
      · exact absurd h.symm hxb
      · exact h

theorem innerTrack_end (d dfa : NFA) (rho : String → String) (a b x : String)
    (pending : List String) (h : InnerTrack d dfa rho a b x pending []) :
    PairTrack d dfa rho a b pending := by
  rcases h with h | ⟨_, halike, hmem⟩ | ⟨_, _, _, hmem, _⟩
  · exact Or.inl h
  · exact Or.inr ⟨halike, hmem⟩
  · exact absurd hmem (List.not_mem_nil _)

theorem minimizeOuter_tracked (d : NFA) (p q : String)
    (hsvd : SingleValued d.transitions) (hkeys : PlainKeys d) (hwf : WellFormed d)
    (hp : p ∈ d.states) (hq : q ∈ d.states) (l : List String) :
    ∀ dfa : NFA, MergeInv d dfa → dfa.alphabet = d.alphabet →
      (∃ rho, Renamed d dfa rho ∧ PairTrack d dfa rho p q l ∧ PairTrack d dfa rho q p l) →
      (∀ x ∈ l, x ∈ d.states) →
      ∃ rho, Renamed d (minimizeOuter l dfa) rho ∧
        PairTrack d (minimizeOuter l dfa) rho p q [] ∧
        PairTrack d (minimizeOuter l dfa) rho q p [] := by
  induction l with
  | nil => intro dfa _ _ h _; exact h
  | cons x rest ih =>
    intro dfa hinv halph h hl
    obtain ⟨rho, hrho, ht1, ht2⟩ := h
    have hx : x ∈ d.states := hl x (List.mem_cons_self _ _)
    unfold minimizeOuter
    apply ih _ _ _ _ (fun z hz => hl z (List.mem_cons_of_mem _ hz))
    · exact minimizeInner_mergeInv d x hkeys.1 hx dfa.states dfa hinv hinv.2.2.1
        (fun _ y hy _ => hy)
    · rw [minimizeInner_alphabet, halph]
    · obtain ⟨rho2, hrho2, h1, h2⟩ :=
        minimizeInner_tracked d x p q rest hsvd hkeys hwf hp hq hx dfa.states dfa hinv halph
          ⟨rho, hrho, innerTrack_start d dfa rho p q x rest hp hrho ht1,
            innerTrack_start d dfa rho q p x rest hq hrho ht2⟩
          hinv.2.2.1 (fun _ y hy _ => hy)
      exact ⟨rho2, hrho2, innerTrack_end d _ rho2 p q x rest h1,
        innerTrack_end d _ rho2 q p x rest h2⟩

theorem minimizeDFA_tracked (d : NFA) (p q : String)
    (hsvd : SingleValued d.transitions) (hkeys : PlainKeys d) (hwf : WellFormed d)
    (hp : p ∈ d.states) (hq : q ∈ d.states)
    (hfin : isFinalState d p = isFinalState d q)
    (hdest : ∀ a ∈ d.alphabet,
      findNextStates p a d.transitions = findNextStates q a d.transitions) :
    ∃ rho, Renamed d (minimizeDFA d) rho ∧ Redirected d (minimizeDFA d) rho p q ∧
      Redirected d (minimizeDFA d) rho q p := by
  have halike : Alike d p q := ⟨hfin, hdest⟩
  have hinv : MergeInv d d := ⟨hsvd, rfl, fun x hx => hx, fun h => h, fun _ _ _ _ h => h,
    fun t ht _ => ⟨t, ht, rfl, rfl⟩⟩
  obtain ⟨rho, hrho, h1, h2⟩ :=
    minimizeOuter_tracked d p q hsvd hkeys hwf hp hq d.states d hinv rfl
      ⟨fun x => x, renamed_self d hwf, Or.inr ⟨halike, hq⟩,
        Or.inr ⟨alike_symm d p q halike, hp⟩⟩ (fun x hx => hx)
  refine ⟨rho, hrho, ?_, ?_⟩
  · rcases h1 with h | ⟨_, hmem⟩
    · exact h
    · exact absurd hmem (List.not_mem_nil _)
  · rcases h2 with h | ⟨_, hmem⟩
    · exact h
    · exact absurd hmem (List.not_mem_nil _)

/-! ## `generateDFA`: the final-state list -/

theorem mem_dfaFinalStates (nfa : NFA) (l : List String) :
    ∀ (acc : List String) (f : String), f ∈ dfaFinalStates nfa l acc →
      f ∈ acc ∨ ∃ s ∈ l, f = nfa.formatDotState s := by
  induction l with
  | nil => intro acc f h; exact Or.inl h
  | cons s rest ih =>
    intro acc f h
    unfold dfaFinalStates at h
    split at h
    · rcases ih _ f h with h | ⟨s', hs', hf⟩
      · rcases List.mem_append.mp h with h | h
        · exact Or.inl h
        · rw [List.mem_singleton] at h
          exact Or.inr ⟨s, List.mem_cons_self _ _, h⟩
      · exact Or.inr ⟨s', List.mem_cons_of_mem _ hs', hf⟩
    · rcases ih _ f h with h | ⟨s', hs', hf⟩
      · exact Or.inl h
      · exact Or.inr ⟨s', List.mem_cons_of_mem _ hs', hf⟩

/-! ## `generateDFA`: a complete run -/

theorem mem_allDestinations (T : List Transition) (x : String) :
    x ∈ allDestinations T ↔ ∃ t ∈ T, x ∈ t.nextStates := by
  unfold allDestinations
  rw [List.mem_flatten]
  constructor
  · rintro ⟨l, hl, hx⟩
    obtain ⟨t, ht, rfl⟩ := List.mem_map.mp hl
    exact ⟨t, ht, hx⟩
  · rintro ⟨t, ht, hx⟩
    exact ⟨t.nextStates, List.mem_map.mpr ⟨t, ht, rfl⟩, hx⟩

theorem recordsFor_append (l1 l2 : List Transition) (s a : String) :
    recordsFor (l1 ++ l2) s a = recordsFor l1 s a ++ recordsFor l2 s a := by
  unfold recordsFor
  exact List.filter_append _ _

theorem recordsFor_singleton_self (s d a : String) :
    recordsFor [⟨s, [d], a⟩] s a = [⟨s, [d], a⟩] := by
  simp [recordsFor]

theorem recordsFor_singleton_ne (t : Transition) (s a : String)
    (h : ¬ (t.state = s ∧ t.symbol = a)) : recordsFor [t] s a = [] := by
  simp [recordsFor, h]

theorem recordsFor_eq_nil (trs : List Transition) (s a : String)
    (h : ∀ t ∈ trs, ¬ (t.state = s ∧ t.symbol = a)) : recordsFor trs s a = [] := by
  unfold recordsFor
  rw [List.filter_eq_nil_iff]
  intro t ht
  simpa using h t ht

theorem recordsFor_snoc_other (trs : List Transition) (t : Transition) (s a : String)
    (h : ¬ (t.state = s ∧ t.symbol = a)) :
    recordsFor (trs ++ [t]) s a = recordsFor trs s a := by
  rw [recordsFor_append, recordsFor_singleton_ne t s a h, List.append_nil]

theorem recordsFor_dead_ne (alphabet : List String) (s a : String) (h : s ≠ "DEAD") :
    recordsFor (deadTransitions alphabet) s a = [] := by
  apply recordsFor_eq_nil
  intro t ht hc
  exact h (hc.1.symm.trans (mem_deadTransitions alphabet t ht).1)

theorem recordsFor_dead (alphabet : List String) (a : String) (hnd : alphabet.Nodup)
    (ha : a ∈ alphabet) :
    recordsFor (deadTransitions alphabet) "DEAD" a = [⟨"DEAD", ["DEAD"], a⟩] := by
  induction alphabet with
  | nil => exact absurd ha (List.not_mem_nil a)
  | cons x xs ih =>
    have hx : x ∉ xs := (List.nodup_cons.mp hnd).1
    have hxs : xs.Nodup := (List.nodup_cons.mp hnd).2
    have hsplit : deadTransitions (x :: xs) = [⟨"DEAD", ["DEAD"], x⟩] ++ deadTransitions xs := rfl
    rw [hsplit, recordsFor_append]
    by_cases hax : x = a
    · subst hax
      rw [recordsFor_singleton_self]
      have hnil : recordsFor (deadTransitions xs) "DEAD" x = [] := by
        apply recordsFor_eq_nil
        intro t ht hc
        unfold deadTransitions at ht
        obtain ⟨b, hb, rfl⟩ := List.mem_map.mp ht
        exact hx (hc.2 ▸ hb)
      rw [hnil]
      rfl
    · have ha' : a ∈ xs := by
        rcases List.mem_cons.mp ha with h | h
        · exact absurd h.symm hax
        · exact h
      rw [recordsFor_singleton_ne _ _ _ (by simp [hax]), ih hxs ha']
      rfl

theorem unionNextStates_nil (symbol : String) (T : List Transition) (ss : List String)
    (h : ∀ s ∈ ss, findNextStates s symbol T = []) : unionNextStates symbol T ss [] = [] := by
  induction ss with
  | nil => rfl
  | cons s rest ih =>
    unfold unionNextStates
    rw [h s (List.mem_cons_self _ _)]
    exact ih (fun s' hs' => h s' (List.mem_cons_of_mem _ hs'))

theorem combineStates_ne_dead (l : List String) (c : String) (hc : combineStates l = some c)
    (hl : ∀ x ∈ l, x ≠ "DEAD") : c ≠ "DEAD" := by
  unfold combineStates at hc
  split at hc
  · exact absurd hc (by simp)
  · split at hc
    · rename_i single hsingle
      simp only [Option.some.injEq] at hc
      subst hc
      apply hl
      rw [← mem_jsSort, hsingle]
      exact List.mem_singleton_self _
    · simp only [Option.some.injEq] at hc
      intro hdead
      have hlast : c.data.getLast? = some '\x7d' := by
        rw [← hc, String.data_append]
        exact List.getLast?_concat _
      rw [hdead] at hlast
      exact absurd hlast (by decide)

theorem destinationLabel_ne_dead (nfa : NFA) (members : List String) (symbol c : String)
    (hno : "DEAD" ∉ allDestinations nfa.transitions)
    (hc : combineStates (unionNextStates symbol nfa.transitions members []) = some c) :
    c ≠ "DEAD" := by
  apply combineStates_ne_dead _ c hc
  intro x hx hxd
  rcases unionNextStates_mem _ _ _ _ x hx with h | h
  · exact absurd h (List.not_mem_nil x)
  · exact hno (hxd ▸ h)

theorem pendingInv_add (nfa : NFA) (state symbol : String) (rest : List String) (b : Build)
    (stack' states' : List String)
    (hsym : symbol ∉ rest)
    (hlabel : labelOf nfa state symbol = destinationLabel nfa (membersOf state) symbol)
    (h : PendingInv nfa state (symbol :: rest) b)
    (hst1 : states'.Nodup) (hst2 : stack'.Nodup) (hst3 : ∀ x ∈ stack', x ∈ states')
    (hst4 : "DEAD" ∉ stack') (hst5 : ∀ x ∈ b.dfa_states, x ∈ states')
    (hst6 : ∀ x ∈ b.dfa_states, x ∉ b.stack → x ∉ stack')
    (hst7 : ∀ s ∈ states', s ∉ stack' → s ∈ b.dfa_states ∧ s ∉ b.stack) :
    PendingInv nfa state rest
      { stack := stack', dfa_states := states',
        dfa_transitions := b.dfa_transitions ++
          [⟨state, [destinationLabel nfa (membersOf state) symbol], symbol⟩] } := by
  obtain ⟨_, _, _, _, h5, h6, h7, h8, h9, h10⟩ := h
  refine ⟨hst1, hst2, hst3, hst4, ?_, ?_, hst5 _ h7, hst6 _ h7 h8, ?_, ?_⟩
  · intro t ht
    rcases List.mem_append.mp ht with ht | ht
    · exact ⟨hst5 _ (h5 t ht).1, hst6 _ (h5 t ht).1 (h5 t ht).2⟩
    · rw [List.mem_singleton] at ht
      subst ht
      exact ⟨hst5 _ h7, hst6 _ h7 h8⟩
  · intro s hs hss hne a ha
    obtain ⟨hs1, hs2⟩ := hst7 s hs hss
    show recordsFor (b.dfa_transitions ++ _) s a = _
    rw [recordsFor_snoc_other _ _ _ _ (fun hc => hne hc.1.symm)]
    exact h6 s hs1 hs2 hne a ha
  · intro a ha har
    show recordsFor (b.dfa_transitions ++ _) state a = _
    by_cases hsa : symbol = a
    · subst hsa
      rw [recordsFor_append, h10 symbol (List.mem_cons_self _ _), recordsFor_singleton_self]
      unfold expectedRecord
      rw [hlabel]
      rfl
    · rw [recordsFor_snoc_other _ _ _ _ (fun hc => hsa hc.2)]
      apply h9 a ha
      intro hmem
      rcases List.mem_cons.mp hmem with hmem | hmem
      · exact hsa hmem.symm
      · exact har hmem
  · intro a ha
    show recordsFor (b.dfa_transitions ++ _) state a = _
    have hsa : symbol ≠ a := fun hh => hsym (hh ▸ ha)
    rw [recordsFor_snoc_other _ _ _ _ (fun hc => hsa hc.2)]
    exact h10 a (List.mem_cons_of_mem _ ha)

theorem pendingInv_dead (nfa : NFA) (state : String) (rest : List String) (b : Build)
    (hnd : nfa.alphabet.Nodup) (hno : "DEAD" ∉ b.dfa_states)
    (h : PendingInv nfa state rest b) :
    PendingInv nfa state rest
      { stack := b.stack, dfa_states := b.dfa_states ++ ["DEAD"],
        dfa_transitions := b.dfa_transitions ++ deadTransitions nfa.alphabet } := by
  obtain ⟨h1, h2, h3, h4, h5, h6, h7, h8, h9, h10⟩ := h
  have hstate : state ≠ "DEAD" := fun hh => hno (hh ▸ h7)
  have hnodead : ∀ a, recordsFor b.dfa_transitions "DEAD" a = [] := by
    intro a
    apply recordsFor_eq_nil
    intro t ht hc
    exact hno (hc.1 ▸ (h5 t ht).1)
  refine ⟨?_, h2, fun x hx => List.mem_append_left _ (h3 x hx), h4, ?_, ?_,
    List.mem_append_left _ h7, h8, ?_, ?_⟩
  · rw [List.nodup_append]
    refine ⟨h1, List.nodup_singleton _, ?_⟩
    intro a ha hb
    rw [List.mem_singleton] at hb
    exact hno (hb ▸ ha)
  · intro t ht
    rcases List.mem_append.mp ht with ht | ht
    · exact ⟨List.mem_append_left _ (h5 t ht).1, (h5 t ht).2⟩
    · rw [(mem_deadTransitions _ t ht).1]
      exact ⟨List.mem_append_right _ (List.mem_singleton_self _), h4⟩
  · intro s hs hss hne a ha
    show recordsFor (b.dfa_transitions ++ _) s a = _
    rw [recordsFor_append]
    rcases List.mem_append.mp hs with hs | hs
    · have hsd : s ≠ "DEAD" := fun hh => hno (hh ▸ hs)
      rw [recordsFor_dead_ne _ _ _ hsd, List.append_nil]
      exact h6 s hs hss hne a ha
    · rw [List.mem_singleton] at hs
      subst hs
      rw [hnodead, recordsFor_dead _ _ hnd ha]
      rfl
  · intro a ha har
    show recordsFor (b.dfa_transitions ++ _) state a = _
    rw [recordsFor_append, recordsFor_dead_ne _ _ _ hstate, List.append_nil]
    exact h9 a ha har
  · intro a ha
    show recordsFor (b.dfa_transitions ++ _) state a = _
    rw [recordsFor_append, recordsFor_dead_ne _ _ _ hstate, List.append_nil]
    exact h10 a ha

theorem processSymbols_pending (nfa : NFA) (state : String) (hnd : nfa.alphabet.Nodup)
    (hno : "DEAD" ∉ allDestinations nfa.transitions) (hstate : state ≠ "DEAD")
    (rest : List String) :
    ∀ b : Build, rest.Nodup → PendingInv nfa state rest b →
      PendingInv nfa state [] (processSymbols nfa state (membersOf state) rest b) := by
  induction rest with
  | nil => intro b _ h; exact h
  | cons symbol rest ih =>
    intro b hrest h
    have hsym : symbol ∉ rest := (List.nodup_cons.mp hrest).1
    have hrest' : rest.Nodup := (List.nodup_cons.mp hrest).2
    have hlabel : labelOf nfa state symbol = destinationLabel nfa (membersOf state) symbol := by
      unfold labelOf
      rw [if_neg hstate]
    unfold processSymbols
    split
    · rename_i c hc
      have hdest : destinationLabel nfa (membersOf state) symbol = c := by
        unfold destinationLabel
        rw [hc]
        rfl
      have hcd : c ≠ "DEAD" := destinationLabel_ne_dead nfa _ symbol c hno hc
      split
      · rename_i hmem
        apply ih _ hrest'
        have := pendingInv_add nfa state symbol rest b b.stack b.dfa_states hsym hlabel h
          h.1 h.2.1 h.2.2.1 h.2.2.2.1 (fun x hx => hx) (fun x _ hx => hx)
          (fun s hs hss => ⟨hs, hss⟩)
        rw [hdest] at this
        exact this
      · rename_i hmem
        apply ih _ hrest'
        have hcs : c ∉ b.stack := fun hh => hmem (h.2.2.1 c hh)
        have := pendingInv_add nfa state symbol rest b (c :: b.stack) (b.dfa_states ++ [c])
          hsym hlabel h
          (by
            rw [List.nodup_append]
            refine ⟨h.1, List.nodup_singleton _, ?_⟩
            intro a ha hb
            rw [List.mem_singleton] at hb
            exact hmem (hb ▸ ha))
          (List.nodup_cons.mpr ⟨hcs, h.2.1⟩)
          (by
            intro x hx
            rcases List.mem_cons.mp hx with hx | hx
            · rw [hx]
              exact List.mem_append_right _ (List.mem_singleton_self _)
            · exact List.mem_append_left _ (h.2.2.1 x hx))
          (by
            intro hh
            rcases List.mem_cons.mp hh with hh | hh
            · exact hcd hh.symm
            · exact h.2.2.2.1 hh)
          (fun x hx => List.mem_append_left _ hx)
          (by
            intro x hx hxs hh
            rcases List.mem_cons.mp hh with hh | hh
            · exact hmem (hh ▸ hx)
            · exact hxs hh)
          (by
            intro s hs hss
            have hsc : s ≠ c := fun hh => hss (hh ▸ List.mem_cons_self _ _)
            rcases List.mem_append.mp hs with hs | hs
            · exact ⟨hs, fun hh => hss (List.mem_cons_of_mem _ hh)⟩
            · rw [List.mem_singleton] at hs
              exact absurd hs hsc)
        rw [hdest] at this
        exact this
    · rename_i hc
      have hdest : destinationLabel nfa (membersOf state) symbol = "DEAD" := by
        unfold destinationLabel
        rw [hc]
        rfl
      split
      · rename_i hmem
        apply ih _ hrest'
        have := pendingInv_add nfa state symbol rest b b.stack b.dfa_states hsym hlabel h
          h.1 h.2.1 h.2.2.1 h.2.2.2.1 (fun x hx => hx) (fun x _ hx => hx)
          (fun s hs hss => ⟨hs, hss⟩)
        rw [hdest] at this
        exact this
      · rename_i hmem
        apply ih _ hrest'
        have hb' := pendingInv_dead nfa state (symbol :: rest) b hnd hmem h
        have := pendingInv_add nfa state symbol rest _ b.stack (b.dfa_states ++ ["DEAD"])
          hsym hlabel hb' hb'.1 hb'.2.1 hb'.2.2.1 hb'.2.2.2.1 (fun x hx => hx)
          (fun x _ hx => hx) (fun s hs hss => ⟨hs, hss⟩)
        rw [hdest] at this
        exact this

theorem subsetLoop_complete (nfa : NFA) (hnd : nfa.alphabet.Nodup)
    (hno : "DEAD" ∉ allDestinations nfa.transitions) :
    ∀ (fuel : Nat) (b : Build) (k : Nat) (r : LoopResult),
      CompleteInv nfa b → subsetLoop nfa (-1) fuel b k = .ok r →
      CompleteInv nfa r.build ∧ r.build.stack = [] ∧ r.step_interrupt = false := by
  intro fuel
  induction fuel with
  | zero => intro b k r _ h; simp [subsetLoop] at h
  | succ fuel ih =>
    intro b k r hb h
    unfold subsetLoop at h
    split at h
    · rename_i hstack
      simp only [Except.ok.injEq] at h
      subst h
      exact ⟨hb, hstack, rfl⟩
    · rename_i state stack hstack
      have hk : ¬ (((k + 1 : Nat) : Int) = -1) := by omega
      rw [if_neg hk] at h
      apply ih _ _ r _ h
      obtain ⟨h1, h2, h3, h4, h5, h6⟩ := hb
      rw [hstack] at h2 h3 h4 h5 h6
      have hstate : state ≠ "DEAD" := fun hh => h4 (hh ▸ List.mem_cons_self _ _)
      have hpend : PendingInv nfa state nfa.alphabet { b with stack := stack } := by
        refine ⟨h1, (List.nodup_cons.mp h2).2, fun x hx => h3 x (List.mem_cons_of_mem _ hx),
          fun hh => h4 (List.mem_cons_of_mem _ hh), ?_, ?_, h3 state (List.mem_cons_self _ _),
          (List.nodup_cons.mp h2).1, fun a ha har => absurd ha har, ?_⟩
        · intro t ht
          exact ⟨(h5 t ht).1, fun hh => (h5 t ht).2 (List.mem_cons_of_mem _ hh)⟩
        · intro s hs hss hne a ha
          apply h6 s hs _ a ha
          intro hh
          rcases List.mem_cons.mp hh with hh | hh
          · exact hne hh
          · exact hss hh
        · intro a _
          apply recordsFor_eq_nil
          intro t ht hc
          exact (h5 t ht).2 (hc.1 ▸ List.mem_cons_self _ _)
      have hdone := processSymbols_pending nfa state hnd hno hstate nfa.alphabet _ hnd hpend
      obtain ⟨g1, g2, g3, g4, g5, g6, g7, g8, g9, _⟩ := hdone
      refine ⟨g1, g2, g3, g4, g5, ?_⟩
      intro s hs hss a ha
      by_cases hsp : s = state
      · rw [hsp]
        exact g9 a ha (List.not_mem_nil a)
      · exact g6 s hs hss hsp a ha

theorem closedFrom_mem_destinations (T : List Transition) (q : String) (r : List String)
    (h : ClosedFrom T q r) (x : String) (hx : x ∈ r) : x = q ∨ x ∈ allDestinations T := by
  rcases Relation.ReflTransGen.cases_tail (h.2.1 x hx) with hq | ⟨c, _, hstep⟩
  · exact Or.inl hq
  · obtain ⟨t, ht, _, _, hxt⟩ := hstep
    exact Or.inr ((mem_allDestinations T x).mpr ⟨t, ht, hxt⟩)

theorem lambdaClosureNFA_fields (fuel : Nat) (n m : NFA) (h : lambdaClosureNFA fuel n = .ok m) :
    m.initialState = n.initialState ∧ m.alphabet = n.alphabet ∧
      ∀ x ∈ allDestinations m.transitions, x ∈ allDestinations n.transitions := by
  unfold lambdaClosureNFA at h
  split at h
  · simp only [Except.ok.injEq] at h
    subst h
    exact ⟨rfl, rfl, fun x hx => hx⟩
  · split at h
    · exact absurd h (by simp)
    · rename_i trs htrs
      split at h
      · exact absurd h (by simp)
      · rename_i ic hic
        obtain ⟨hm, _, _⟩ := newNFA_ok _ _ _ _ _ _ h
        obtain ⟨_, h2, _⟩ := closedTransitions_spec fuel n n.states [] trs htrs
        subst hm
        refine ⟨rfl, rfl, ?_⟩
        intro x hx
        obtain ⟨t, ht, hxt⟩ := (mem_allDestinations _ x).mp hx
        rcases h2 t ht with hnil | ⟨_, hrec⟩
        · exact absurd hnil (List.not_mem_nil t)
        · obtain ⟨cs, p, q, cq, _, _, hq, hcq, hxq⟩ := (hrec x).mp hxt
          have hqd : q ∈ allDestinations n.transitions := by
            rcases findNextStatesFrom_mem p t.symbol n.transitions [] q hq with hh | hh
            · exact absurd hh (List.not_mem_nil q)
            · exact hh
          rcases closedFrom_mem_destinations n.transitions q cq
            (fetch_E_Closure_closedFrom n.transitions fuel q cq hcq) x hxq with hh | hh
          · rw [hh]; exact hqd
          · exact hh

theorem noDeadState_scenarioNFA : NoDeadState scenarioNFA := by
  unfold NoDeadState
  decide

/-! ## Claims C11 to C20 -/

/-- Claim C11, counterexample.  In `sinkDFA` the initial state `q0` and `DEAD`
are two distinct states with the same finality and the same destination on
the one symbol, and the state list of `minimizeDFA(sinkDFA)` contains both.
In `sharedSinkDFA` the states `p` and `DEAD` are alike; `p` is dropped and
`DEAD` is kept, and the transition from `x` to `p` leads to the initial state
`s` in the result, not to `DEAD`. -/
theorem minimizeDFA_keeps_initial_and_dead :
    ("q0" ∈ sinkDFA.states ∧ "DEAD" ∈ sinkDFA.states ∧
      isFinalState sinkDFA "q0" = isFinalState sinkDFA "DEAD" ∧
      (∀ a ∈ sinkDFA.alphabet, findNextStates "q0" a sinkDFA.transitions =
        findNextStates "DEAD" a sinkDFA.transitions) ∧
      "q0" ∈ (minimizeDFA sinkDFA).states ∧ "DEAD" ∈ (minimizeDFA sinkDFA).states) ∧
    ("p" ∈ sharedSinkDFA.states ∧ "DEAD" ∈ sharedSinkDFA.states ∧
      isFinalState sharedSinkDFA "p" = isFinalState sharedSinkDFA "DEAD" ∧
      (∀ a ∈ sharedSinkDFA.alphabet, findNextStates "p" a sharedSinkDFA.transitions =
        findNextStates "DEAD" a sharedSinkDFA.transitions) ∧
      (⟨"x", ["p"], "a"⟩ : Transition) ∈ sharedSinkDFA.transitions ∧
      (minimizeDFA sharedSinkDFA).states = ["s", "x", "DEAD"] ∧
      (minimizeDFA sharedSinkDFA).transitions =
        [⟨"s", ["DEAD"], "a"⟩, ⟨"x", ["s"], "a"⟩, ⟨"DEAD", ["DEAD"], "a"⟩]) := by
  decide

/-- Claim C11, amended.  Let `d` be a DFA (every record has one destination,
records for the same state and symbol agree) whose lookup keys are pairwise
different and not of the composite form, and let `p` and `q` be two distinct
states of `d` with the same finality and, for every alphabet symbol, the same
destination, other than the initial state together with `DEAD`.  Then the
state list of `minimizeDFA(d)` does not contain both `p` and `q`.  When the
initial state and every state mentioned in a transition are in the state
list, every state of `d` has a kept state `rho` it was merged into, a kept
state being its own; the transitions of the result are exactly the
transitions of `d` with a kept source, in the same order, each with its
destination replaced by the state that destination was merged into, so a
destination that is kept is unchanged; the state a state was merged into
accepts in the result the words over the alphabet that the state accepted in
`d`.  If `q` is kept and is not `DEAD`, then `p` was merged into `q`, so every
transition into `p` leads to `q` in the result, unless `q` is the initial
state and `p` was merged into `DEAD`; likewise with `p` and `q` exchanged.
And `minimizeDFA(d)` accepts the same words over the alphabet as `d`. -/
theorem minimizeDFA_merges_alike (d : NFA) (p q : String)
    (hsv : SingleValued d.transitions) (hkeys : PlainKeys d)
    (hp : p ∈ d.states) (hq : q ∈ d.states) (hpq : p ≠ q)
    (hfin : isFinalState d p = isFinalState d q)
    (hdest : ∀ a ∈ d.alphabet,
      findNextStates p a d.transitions = findNextStates q a d.transitions)
    (hex1 : ¬ (p = d.initialState ∧ q = "DEAD")) (hex2 : ¬ (q = d.initialState ∧ p = "DEAD")) :
    ¬ (p ∈ (minimizeDFA d).states ∧ q ∈ (minimizeDFA d).states) ∧
      (WellFormed d →
        (∃ rho : String → String,
          (∀ x ∈ (minimizeDFA d).states, rho x = x) ∧
          (∀ x ∈ d.states, rho x ∈ (minimizeDFA d).states) ∧
          (minimizeDFA d).transitions =
            (d.transitions.filter (fun t => decide (t.state ∈ (minimizeDFA d).states))).map
              (renameRecord rho) ∧
          (∀ x ∈ d.states, ∀ w : List String, (∀ a ∈ w, a ∈ d.alphabet) →
            acceptsFrom (minimizeDFA d) (rho x) w = acceptsFrom d x w) ∧
          (q ≠ "DEAD" → q ∈ (minimizeDFA d).states →
            rho p = q ∨ (q = d.initialState ∧ rho p = "DEAD")) ∧
          (p ≠ "DEAD" → p ∈ (minimizeDFA d).states →
            rho q = p ∨ (p = d.initialState ∧ rho q = "DEAD"))) ∧
        ∀ w : List String, (∀ a ∈ w, a ∈ d.alphabet) →
          acceptsDFA (minimizeDFA d) w = acceptsDFA d w) := by
  refine ⟨minimizeDFA_not_both d p q hsv hp hq hpq (hkeys.2 p hp) (hkeys.2 q hq) hfin hdest
    hex1 hex2, ?_⟩
  intro hwf
  obtain ⟨rho, hrho, hpq2, hqp2⟩ := minimizeDFA_tracked d p q hsv hkeys hwf hp hq hfin hdest
  refine ⟨⟨rho, hrho.1, hrho.2.1, hrho.2.2.1, hrho.2.2.2, hpq2, hqp2⟩, ?_⟩
  intro w hw
  have hinit : (minimizeDFA d).initialState = d.initialState := by
    unfold minimizeDFA
    exact minimizeOuter_initialState d.states d
  have hlive : d.initialState ∈ (minimizeDFA d).states :=
    (minimizeDFA_mergeInv d hsv hkeys.1).2.2.2.1 hwf.1
  have h4 := hrho.2.2.2 d.initialState hwf.1 w hw
  rw [hrho.1 d.initialState hlive] at h4
  show acceptsFrom (minimizeDFA d) (minimizeDFA d).initialState w = acceptsFrom d d.initialState w
  rw [hinit]
  exact h4

/-- Claim C11, witness: the states `p` and `q` of `alikeDFA`.  The state `p` is
dropped, the transition from `s` to `p` leads to `q` in the result, and the
transition from `f` to the kept state `q` is unchanged. -/
theorem minimizeDFA_merges_alike_witness :
    SingleValued alikeDFA.transitions ∧ PlainKeys alikeDFA ∧ WellFormed alikeDFA ∧
      "p" ∈ alikeDFA.states ∧ "q" ∈ alikeDFA.states ∧
      isFinalState alikeDFA "p" = isFinalState alikeDFA "q" ∧
      (∀ a ∈ alikeDFA.alphabet, findNextStates "p" a alikeDFA.transitions =
        findNextStates "q" a alikeDFA.transitions) ∧
      (minimizeDFA alikeDFA).states = ["s", "q", "f"] ∧
      (minimizeDFA alikeDFA).transitions =
        [⟨"s", ["q"], "a"⟩, ⟨"q", ["f"], "a"⟩, ⟨"f", ["q"], "a"⟩] ∧
      ¬ ("p" ∈ (minimizeDFA alikeDFA).states ∧ "q" ∈ (minimizeDFA alikeDFA).states) ∧
      (∃ rho : String → String,
        (∀ x ∈ (minimizeDFA alikeDFA).states, rho x = x) ∧
        (∀ x ∈ alikeDFA.states, rho x ∈ (minimizeDFA alikeDFA).states) ∧
        (minimizeDFA alikeDFA).transitions =
          (alikeDFA.transitions.filter
            (fun t => decide (t.state ∈ (minimizeDFA alikeDFA).states))).map
            (renameRecord rho) ∧
        (∀ x ∈ alikeDFA.states, ∀ w : List String, (∀ a ∈ w, a ∈ alikeDFA.alphabet) →
          acceptsFrom (minimizeDFA alikeDFA) (rho x) w = acceptsFrom alikeDFA x w) ∧
        ("q" ≠ "DEAD" → "q" ∈ (minimizeDFA alikeDFA).states →
          rho "p" = "q" ∨ ("q" = alikeDFA.initialState ∧ rho "p" = "DEAD")) ∧
        ("p" ≠ "DEAD" → "p" ∈ (minimizeDFA alikeDFA).states →
          rho "q" = "p" ∨ ("p" = alikeDFA.initialState ∧ rho "q" = "DEAD"))) ∧
      ∀ w : List String, (∀ a ∈ w, a ∈ alikeDFA.alphabet) →
        acceptsDFA (minimizeDFA alikeDFA) w = acceptsDFA alikeDFA w :=
  ⟨singleValued_alikeDFA, plainKeys_alikeDFA, wellFormed_alikeDFA, by decide, by decide,
    by decide, by decide, by decide, by decide,
    (minimizeDFA_merges_alike alikeDFA "p" "q" singleValued_alikeDFA plainKeys_alikeDFA
      (by decide) (by decide) (by decide) (by decide) (by decide) (by decide) (by decide)).1,
    (minimizeDFA_merges_alike alikeDFA "p" "q" singleValued_alikeDFA plainKeys_alikeDFA
      (by decide) (by decide) (by decide) (by decide) (by decide) (by decide) (by decide)).2
      wellFormed_alikeDFA⟩

/-- Claim C12.  `combineStates` returns the same label for two lists of state
names that are permutations of each other. -/
theorem combineStates_order_independent (l1 l2 : List String) (h : l1.Perm l2) :
    combineStates l1 = combineStates l2 :=
  combineStates_eq_of_perm l1 l2 h

/-- Claim C12, witness: `q1, q0` and `q0, q1` both give the label with the
members `q0,q1` in this order. -/
theorem combineStates_order_independent_witness :
    ["q1", "q0"].Perm ["q0", "q1"] ∧
      combineStates ["q1", "q0"] = some "\x7bq0,q1\x7d" ∧
      combineStates ["q0", "q1"] = some "\x7bq0,q1\x7d" ∧
      combineStates ["q1", "q0"] = combineStates ["q0", "q1"] :=
  ⟨List.Perm.swap _ _ _, by decide, by decide,
    combineStates_order_independent ["q1", "q0"] ["q0", "q1"] (List.Perm.swap _ _ _)⟩

/-- Claim C13.  For a duplicate-free list `l` of two or more state names without
a comma, `combineStates(l)` is a label whose decomposition by `separateStates`
is exactly `l` sorted in ascending order, a duplicate-free list, and
`combineStates` of that member list is the same label. -/
theorem combineStates_separateStates (l : List String) (hnd : l.Nodup)
    (hlen : 2 ≤ l.length) (hcomma : ∀ s ∈ l, ',' ∉ s.data) :
    ∃ label, combineStates l = some label ∧
      separateStates label = .members (jsSort l) ∧
      (jsSort l).Perm l ∧ List.Sorted jsStringLe (jsSort l) ∧ (jsSort l).Nodup ∧
      combineStates (jsSort l) = some label := by
  have hperm := perm_jsSort l
  have hsorted := sorted_jsSort l
  have hnd' : (jsSort l).Nodup := (nodup_jsSort l).mpr hnd
  have hcomma' : ∀ s ∈ jsSort l, ',' ∉ s.data := fun s hs => hcomma s ((mem_jsSort l s).mp hs)
  have hlen' : 2 ≤ (jsSort l).length := by rw [hperm.length_eq]; exact hlen
  have hl : l.length ≠ 0 := by omega
  cases hL : jsSort l with
  | nil => rw [hL] at hlen'; simp at hlen'
  | cons x tail =>
    cases tail with
    | nil => rw [hL] at hlen'; simp at hlen'
    | cons y rest =>
      rw [hL] at hsorted hnd' hcomma' hperm
      have hne := sorted_last_ne_empty x y rest hsorted hnd'
      obtain ⟨c, hc⟩ : ∃ c, ((x :: y :: rest).getLast (List.cons_ne_nil _ _)).data.getLast? = some c := by
        cases hd : ((x :: y :: rest).getLast (List.cons_ne_nil _ _)).data with
        | nil => exact absurd hd hne
        | cons a as => exact ⟨_, List.getLast?_eq_getLast _ (List.cons_ne_nil _ _)⟩
      have hcne : c ≠ ',' := by
        intro hcc
        have hin : c ∈ ((x :: y :: rest).getLast (List.cons_ne_nil _ _)).data :=
          List.mem_of_getLast?_eq_some hc
        exact hcomma' _ (List.getLast_mem _) (hcc ▸ hin)
      obtain ⟨Y, hY⟩ := List.getLast?_eq_some_iff.mp (joinComma_getLast x (y :: rest) c hc)
      have hlabel := combineStates_label l x y rest Y c hl hL hY hcne
      refine ⟨_, hlabel, separateStates_label x (y :: rest) hcomma', hperm, hsorted, hnd', ?_⟩
      rw [← hlabel, ← hL]
      exact combineStates_eq_of_perm _ _ (perm_jsSort l)

/-- Claim C13, witness: the names `q1`, `q0`. -/
theorem combineStates_separateStates_witness :
    ["q1", "q0"].Nodup ∧ 2 ≤ ["q1", "q0"].length ∧ (∀ s ∈ ["q1", "q0"], ',' ∉ s.data) ∧
      combineStates ["q1", "q0"] = some "\x7bq0,q1\x7d" ∧
      separateStates "\x7bq0,q1\x7d" = .members ["q0", "q1"] ∧
      ∃ label, combineStates ["q1", "q0"] = some label ∧
        separateStates label = .members (jsSort ["q1", "q0"]) ∧
        (jsSort ["q1", "q0"]).Perm ["q1", "q0"] ∧
        List.Sorted jsStringLe (jsSort ["q1", "q0"]) ∧ (jsSort ["q1", "q0"]).Nodup ∧
        combineStates (jsSort ["q1", "q0"]) = some label :=
  ⟨by decide, by decide, by decide, by decide, by decide,
    combineStates_separateStates ["q1", "q0"] (by decide) (by decide) (by decide)⟩

/-- Claim C14.  When `fetch_E_Closure(s, T)` returns the list `r`, the closure
of every member of `r` returns as well, and the union of these closures is the
same set as `r`. -/
theorem fetch_E_Closure_idempotent (fuel : Nat) (s : String) (T : List Transition)
    (r : List String) (h : fetch_E_Closure fuel s T = .ok r) :
    (∀ x ∈ r, ∃ rx, fetch_E_Closure fuel x T = .ok rx) ∧
      ∀ y, (∃ x ∈ r, ∃ rx, fetch_E_Closure fuel x T = .ok rx ∧ y ∈ rx) ↔ y ∈ r := by
  have hr := fetch_E_Closure_closedFrom T fuel s r h
  refine ⟨fetch_E_Closure_members_return T fuel s r h, ?_⟩
  intro y
  constructor
  · rintro ⟨x, hx, rx, hrx, hy⟩
    have hx' := fetch_E_Closure_closedFrom T fuel x rx hrx
    exact (mem_of_closedFrom T s r hr y).mpr
      (Relation.ReflTransGen.trans (hr.2.1 x hx) (hx'.2.1 y hy))
  · intro hy
    exact ⟨s, hr.1, r, h, hy⟩

/-- Claim C14, witness: the closure of `q0` in the epsilon scenario. -/
theorem fetch_E_Closure_idempotent_witness :
    fetch_E_Closure 3 "q0" epsilonNFA.transitions = .ok ["q0", "q1"] ∧
      ((∀ x ∈ ["q0", "q1"], ∃ rx, fetch_E_Closure 3 x epsilonNFA.transitions = .ok rx) ∧
        ∀ y, (∃ x ∈ ["q0", "q1"], ∃ rx,
          fetch_E_Closure 3 x epsilonNFA.transitions = .ok rx ∧ y ∈ rx) ↔ y ∈ ["q0", "q1"]) :=
  ⟨by decide, fetch_E_Closure_idempotent 3 "q0" epsilonNFA.transitions ["q0", "q1"] (by decide)⟩

/-- Claim C15.  The state list of `minimizeDFA(d)` has no more entries than the
state list of `d`, for every automaton `d`; in particular for the automaton
returned by `generateDFA`. -/
theorem minimizeDFA_states_length (d : NFA) :
    (minimizeDFA d).states.length ≤ d.states.length ∧
      ∀ (fuel : Nat) (n : NFA) (step_counter_stop : Int) (g : Generated),
        generateDFA fuel n step_counter_stop = .ok g →
        (minimizeDFA g.dfa).states.length ≤ g.dfa.states.length :=
  ⟨(minimizeOuter_states_sublist d.states d).length_le,
    fun _ _ _ g _ => (minimizeOuter_states_sublist g.dfa.states g.dfa).length_le⟩

/-- Claim C16, counterexample.  For `finalPairNFA` the automaton returned by
`generateDFA` has the final-state entry `q0q1`, which is not an entry of its
state list: the final composite state is listed there under its label with
braces and commas. -/
theorem generateDFA_final_not_state :
    generateDFA 5 finalPairNFA (-1) = .ok finalPairGenerated ∧
      "q0q1" ∈ finalPairGenerated.dfa.finalStates ∧
      "q0q1" ∉ finalPairGenerated.dfa.states ∧
      "\x7bq0,q1\x7d" ∈ finalPairGenerated.dfa.states := by
  decide

/-- Claim C16, amended.  Every entry of the final-state list of the automaton
returned by `generateDFA` is `formatDotState` of an entry of its state list;
for an entry of the state list that is not a composite label this is the
entry itself. -/
theorem generateDFA_finals_formatted (fuel : Nat) (n : NFA) (step_counter_stop : Int)
    (g : Generated) (h : generateDFA fuel n step_counter_stop = .ok g) :
    (∀ f ∈ g.dfa.finalStates, ∃ s ∈ g.dfa.states, f = g.dfa.formatDotState s) ∧
      ∀ s ∈ g.dfa.states, isMultiState s = false → g.dfa.formatDotState s = s := by
  constructor
  · unfold generateDFA at h
    split at h
    · exact absurd h (by simp)
    · rename_i m hm
      split at h
      · exact absurd h (by simp)
      · rename_i r hr
        split at h
        · exact absurd h (by simp)
        · rename_i dfa hdfa
          simp only [Except.ok.injEq] at h
          subst h
          obtain ⟨hd, _, _⟩ := newNFA_ok _ _ _ _ _ _ hdfa
          subst hd
          intro f hf
          rcases mem_dfaFinalStates m r.build.dfa_states [] f hf with h | h
          · exact absurd h (List.not_mem_nil f)
          · exact h
  · intro s _ hs
    unfold NFA.formatDotState
    rw [if_neg (by simp [hs])]

/-- Claim C16, witness: the NFA with the final composite state. -/
theorem generateDFA_finals_formatted_witness :
    generateDFA 5 finalPairNFA (-1) = .ok finalPairGenerated ∧
      ((∀ f ∈ finalPairGenerated.dfa.finalStates,
          ∃ s ∈ finalPairGenerated.dfa.states, f = finalPairGenerated.dfa.formatDotState s) ∧
        ∀ s ∈ finalPairGenerated.dfa.states, isMultiState s = false →
          finalPairGenerated.dfa.formatDotState s = s) :=
  ⟨by decide, generateDFA_finals_formatted 5 finalPairNFA (-1) finalPairGenerated (by decide)⟩

/-- Claim C17, counterexample.  A state list that contains the name `DEAD` is
accepted by the constructor. -/
theorem newNFA_accepts_dead :
    newNFA "q0" [] ["q0", "DEAD"] ["a"] [] = .ok ⟨"q0", [], ["q0", "DEAD"], ["a"], []⟩ := by
  decide

/-- Claim C17, amended.  The constructor fails exactly when the state list
contains `INITIAL_STATE` or `FINAL_STATE`. -/
theorem newNFA_fails_iff (initialState : String) (finalStates states alphabet : List String)
    (transitions : List Transition) :
    (∃ f, newNFA initialState finalStates states alphabet transitions = .error f) ↔
      ("INITIAL_STATE" ∈ states ∨ "FINAL_STATE" ∈ states) := by
  unfold newNFA
  by_cases h1 : "INITIAL_STATE" ∈ states
  · rw [if_pos h1]
    exact ⟨fun _ => Or.inl h1, fun _ => ⟨_, rfl⟩⟩
  · rw [if_neg h1]
    by_cases h2 : "FINAL_STATE" ∈ states
    · rw [if_pos h2]
      exact ⟨fun _ => Or.inr h2, fun _ => ⟨_, rfl⟩⟩
    · rw [if_neg h2]
      constructor
      · rintro ⟨f, hf⟩
        exact absurd hf (by simp)
      · rintro (h | h)
        · exact absurd h h1
        · exact absurd h h2

/-- Claim C18.  Let `n` be an NFA with a duplicate-free alphabet and no state
named `DEAD`, `m` its epsilon-eliminated form, and let the un-budgeted
`generateDFA(n)` return.  Then the run was not interrupted, the state list of
the result is duplicate-free, and every state of the result has exactly one
transition record for every alphabet symbol, with exactly one destination.
When the member states of a state offer no destination on a symbol, this
record leads to `DEAD`.  When `DEAD` is in the state list, it occurs once and
its record for every symbol is the self-loop. -/
theorem generateDFA_complete (fuel : Nat) (n m : NFA) (g : Generated)
    (halph : n.alphabet.Nodup) (hdead : NoDeadState n)
    (hm : lambdaClosureNFA fuel n = .ok m) (hg : generateDFA fuel n (-1) = .ok g) :
    g.step_interrupt = false ∧ g.dfa.states.Nodup ∧
    (∀ s ∈ g.dfa.states, ∀ a ∈ n.alphabet,
      ∃ dest, recordsFor g.dfa.transitions s a = [⟨s, [dest], a⟩]) ∧
    (∀ s ∈ g.dfa.states, s ≠ "DEAD" → ∀ a ∈ n.alphabet,
      (∀ member ∈ membersOf s, findNextStates member a m.transitions = []) →
      recordsFor g.dfa.transitions s a = [⟨s, ["DEAD"], a⟩]) ∧
    ("DEAD" ∈ g.dfa.states →
      g.dfa.states.count "DEAD" = 1 ∧
      ∀ a ∈ n.alphabet, recordsFor g.dfa.transitions "DEAD" a = [⟨"DEAD", ["DEAD"], a⟩]) := by
  obtain ⟨hinit, halphm, hdestm⟩ := lambdaClosureNFA_fields fuel n m hm
  have hnd : m.alphabet.Nodup := by rw [halphm]; exact halph
  have hno : "DEAD" ∉ allDestinations m.transitions := fun hh => hdead.2.2 (hdestm _ hh)
  unfold generateDFA at hg
  rw [hm] at hg
  simp only at hg
  split at hg
  · exact absurd hg (by simp)
  · rename_i r hr
    split at hg
    · exact absurd hg (by simp)
    · rename_i dfa hdfa
      simp only [Except.ok.injEq] at hg
      subst hg
      obtain ⟨hd, _, _⟩ := newNFA_ok _ _ _ _ _ _ hdfa
      subst hd
      have hstart : CompleteInv m ⟨[m.initialState], [m.initialState], []⟩ := by
        refine ⟨List.nodup_singleton _, List.nodup_singleton _, fun x hx => hx, ?_, ?_, ?_⟩
        · intro hh
          rw [List.mem_singleton] at hh
          exact hdead.2.1 (by rw [← hinit, ← hh])
        · intro t ht
          exact absurd ht (List.not_mem_nil t)
        · intro s hs hss
          exact absurd hs hss
      obtain ⟨⟨c1, _, _, _, _, c6⟩, hempty, hint⟩ :=
        subsetLoop_complete m hnd hno fuel _ 0 r hstart hr
      rw [hempty] at c6
      have hrec : ∀ s ∈ r.build.dfa_states, ∀ a ∈ n.alphabet,
          recordsFor r.build.dfa_transitions s a = [expectedRecord m s a] :=
        fun s hs a ha => c6 s hs (List.not_mem_nil s) a (by rw [halphm]; exact ha)
      refine ⟨hint, c1, ?_, ?_, ?_⟩
      · intro s hs a ha
        exact ⟨labelOf m s a, hrec s hs a ha⟩
      · intro s hs hsd a ha hnone
        show recordsFor r.build.dfa_transitions s a = _
        rw [hrec s hs a ha]
        unfold expectedRecord labelOf destinationLabel
        rw [if_neg hsd, unionNextStates_nil a m.transitions _ hnone]
        rfl
      · intro hd
        refine ⟨List.count_eq_one_of_mem c1 hd, ?_⟩
        intro a ha
        show recordsFor r.build.dfa_transitions "DEAD" a = _
        rw [hrec "DEAD" hd a ha]
        rfl

/-- Claim C18, witness: the worked scenario, whose result contains `DEAD`. -/
theorem generateDFA_complete_witness :
    scenarioNFA.alphabet.Nodup ∧ NoDeadState scenarioNFA ∧
      lambdaClosureNFA 10 scenarioNFA = .ok scenarioNFA ∧
      generateDFA 10 scenarioNFA (-1) = .ok scenarioGenerated ∧
      "DEAD" ∈ scenarioGenerated.dfa.states ∧
      (scenarioGenerated.step_interrupt = false ∧ scenarioGenerated.dfa.states.Nodup ∧
      (∀ s ∈ scenarioGenerated.dfa.states, ∀ a ∈ scenarioNFA.alphabet,
        ∃ dest, recordsFor scenarioGenerated.dfa.transitions s a = [⟨s, [dest], a⟩]) ∧
      (∀ s ∈ scenarioGenerated.dfa.states, s ≠ "DEAD" → ∀ a ∈ scenarioNFA.alphabet,
        (∀ member ∈ membersOf s, findNextStates member a scenarioNFA.transitions = []) →
        recordsFor scenarioGenerated.dfa.transitions s a = [⟨s, ["DEAD"], a⟩]) ∧
      ("DEAD" ∈ scenarioGenerated.dfa.states →
        scenarioGenerated.dfa.states.count "DEAD" = 1 ∧
        ∀ a ∈ scenarioNFA.alphabet,
          recordsFor scenarioGenerated.dfa.transitions "DEAD" a = [⟨"DEAD", ["DEAD"], a⟩])) :=
  ⟨by decide, noDeadState_scenarioNFA, by decide, by decide, by decide,
    generateDFA_complete 10 scenarioNFA scenarioNFA scenarioGenerated (by decide)
      noDeadState_scenarioNFA (by decide) (by decide)⟩

/-- Claim C19, evaluated at two failing inputs.  `loopKeyDFA` and `deadKeyDFA`
are the automata `generateDFA` returns for `loopKeyNFA` and `deadKeyNFA`.  The
state list of `minimizeDFA(loopKeyDFA)` no longer contains the initial state
`ab`, and the state list of `minimizeDFA(deadKeyDFA)` no longer contains
`DEAD`: in both the state removed by the merge has the same lookup key. -/
theorem minimizeDFA_drops_initial_and_dead :
    (generateDFA 5 loopKeyNFA (-1) = .ok ⟨loopKeyDFA, 2, false⟩ ∧
      loopKeyDFA.initialState ∈ loopKeyDFA.states ∧
      loopKeyDFA.initialState ∉ (minimizeDFA loopKeyDFA).states) ∧
    (generateDFA 5 deadKeyNFA (-1) = .ok ⟨deadKeyDFA, 2, false⟩ ∧
      "DEAD" ∈ deadKeyDFA.states ∧ "DEAD" ∉ (minimizeDFA deadKeyDFA).states) := by
  decide

/-- Claim C20, counterexample.  For the epsilon scenario the automaton returned
by `lambdaClosureNFA` contains a transition record for `q2` and `a` whose
destination list is empty. -/
theorem lambdaClosureNFA_empty_record :
    (∃ t ∈ epsilonNFA.transitions, t.symbol = "" ∨ t.symbol = "λ") ∧
      lambdaClosureNFA 3 epsilonNFA = .ok epsilonClosedNFA ∧
      (⟨"q2", [], "a"⟩ : Transition) ∈ epsilonClosedNFA.transitions :=
  ⟨⟨⟨"q0", ["q1"], ""⟩, by decide, Or.inl rfl⟩, by decide, by decide⟩

/-- Claim C20, amended.  Let `n` be an NFA with at least one transition whose
symbol is the empty string or the letter lambda, `s` a state and `a` a symbol
of `n`.  Whenever `lambdaClosureNFA(n)` returns, the automaton returned has a
transition record for `s` and `a`, and when the computed union for the pair
is empty this record is present with an empty destination list.  The
function does return when `fetch_E_Closure` returns for every state and the
state list holds neither `INITIAL_STATE` nor `FINAL_STATE`. -/
theorem lambdaClosureNFA_record_for_every_pair (fuel : Nat) (n : NFA)
    (hlam : ∃ t ∈ n.transitions, t.symbol = "" ∨ t.symbol = "λ")
    (s a : String) (hs : s ∈ n.states) (ha : a ∈ n.alphabet) :
    (∀ m, lambdaClosureNFA fuel n = .ok m →
      (∃ t ∈ m.transitions, t.state = s ∧ t.symbol = a) ∧
      ((∀ x, ¬ ClosedDestination fuel n.transitions s a x) →
        (⟨s, [], a⟩ : Transition) ∈ m.transitions)) ∧
    ((∀ q, ∃ c, fetch_E_Closure fuel q n.transitions = .ok c) →
      "INITIAL_STATE" ∉ n.states → "FINAL_STATE" ∉ n.states →
      ∃ m, lambdaClosureNFA fuel n = .ok m) := by
  refine ⟨?_, fun hcl h1 h2 => lambdaClosureNFA_returns fuel n hcl h1 h2⟩
  intro m hret
  have hhas : hasLambda n = true := by
    obtain ⟨t, ht, hsym⟩ := hlam
    unfold hasLambda
    rw [List.any_eq_true]
    refine ⟨t, ht, ?_⟩
    unfold isLambdaSymbol
    rcases hsym with h | h <;> simp [h]
  unfold lambdaClosureNFA at hret
  rw [if_neg (by simp [hhas])] at hret
  split at hret
  · exact absurd hret (by simp)
  · rename_i trs htrs
    split at hret
    · exact absurd hret (by simp)
    · rename_i ic hic
      obtain ⟨hm, _, _⟩ := newNFA_ok _ _ _ _ _ _ hret
      obtain ⟨_, h2, h3⟩ := closedTransitions_spec fuel n n.states [] trs htrs
      subst hm
      refine ⟨h3 s hs a ha, ?_⟩
      intro hempty
      obtain ⟨t, ht, hts, hta⟩ := h3 s hs a ha
      rcases h2 t ht with hnil | ⟨_, e2⟩
      · exact absurd hnil (List.not_mem_nil t)
      · have hnone : t.nextStates = [] := by
          apply List.eq_nil_iff_forall_not_mem.mpr
          intro x hx
          exact hempty x (by rw [← hts, ← hta]; exact (e2 x).mp hx)
        have ht' : t = ⟨s, [], a⟩ := by
          cases t
          simp only [Transition.mk.injEq] at hts hta hnone ⊢
          exact ⟨hts, hnone, hta⟩
        rw [← ht']
        exact ht

/-- Claim C20, witness: the pair `q2`, `a` of the epsilon scenario, on which
`lambdaClosureNFA` returns `epsilonClosedNFA`. -/
theorem lambdaClosureNFA_record_for_every_pair_witness :
    (∃ t ∈ epsilonNFA.transitions, t.symbol = "" ∨ t.symbol = "λ") ∧
      "q2" ∈ epsilonNFA.states ∧ "a" ∈ epsilonNFA.alphabet ∧
      lambdaClosureNFA 3 epsilonNFA = .ok epsilonClosedNFA ∧
      ((∃ t ∈ epsilonClosedNFA.transitions, t.state = "q2" ∧ t.symbol = "a") ∧
        ((∀ x, ¬ ClosedDestination 3 epsilonNFA.transitions "q2" "a" x) →
          (⟨"q2", [], "a"⟩ : Transition) ∈ epsilonClosedNFA.transitions)) ∧
      (∀ q, ∃ c, fetch_E_Closure 3 q epsilonNFA.transitions = .ok c) ∧
      "INITIAL_STATE" ∉ epsilonNFA.states ∧ "FINAL_STATE" ∉ epsilonNFA.states ∧
      ∃ m, lambdaClosureNFA 3 epsilonNFA = .ok m :=
  ⟨⟨⟨"q0", ["q1"], ""⟩, by decide, Or.inl rfl⟩, by decide, by decide, by decide,
    (lambdaClosureNFA_record_for_every_pair 3 epsilonNFA
      ⟨⟨"q0", ["q1"], ""⟩, by decide, Or.inl rfl⟩ "q2" "a" (by decide) (by decide)).1
      epsilonClosedNFA (by decide),
    fun q => fetch_E_Closure_returns epsilonNFA.transitions epsilonRank epsilonRanked_epsilonNFA
      3 q (by unfold epsilonRank; split <;> decide),
    by decide, by decide,
    (lambdaClosureNFA_record_for_every_pair 3 epsilonNFA
      ⟨⟨"q0", ["q1"], ""⟩, by decide, Or.inl rfl⟩ "q2" "a" (by decide) (by decide)).2
      (fun q => fetch_E_Closure_returns epsilonNFA.transitions epsilonRank
        epsilonRanked_epsilonNFA 3 q (by unfold epsilonRank; split <;> decide))
      (by decide) (by decide)⟩

end Engine
